import Mathlib

/-!
Verification development for the incremental TypeScript compilation
orchestrator (gulp-typescript, src/lib/project.ts together with
src/lib/main.ts).

Strings are modelled as lists of characters (`Str`).  JS objects used as
string-keyed dictionaries are modelled as insertion-ordered association
lists with unique keys (`StrMap`).  External collaborators (the
TypeScript compiler engine, the node `path` library, `fs.readFile`, the
source-map library) are modelled at their interface boundary: the
engine's flat output namespace and its diagnostics are parameters of
`Project.compile`, reference lists are oracle functions, and the node
`path` functions that the code calls (`path.normalize`, `path.join`,
lower-casing) are embedded concretely following the documented posix
semantics, since several claims are about the normalization itself.
-/

set_option autoImplicit false

namespace GulpTS

/-- Strings as lists of characters. -/
abbrev Str := List Char

/-- Convert a Lean string literal to the model representation. -/
def str (s : String) : Str := s.toList

/-! ## Lower casing (String.prototype.toLowerCase on ASCII data) -/

/-- Character-wise lower casing, as JS `toLowerCase` acts on ASCII text. -/
def lowerStr (s : Str) : Str := s.map Char.toLower

/-! ## path.normalize (posix semantics)

`Project.normalizePath` is `path.normalize(p).toLowerCase()`.  We embed
node's posix `path.normalize`: split on `'/'`, drop empty and `"."`
segments, resolve `".."` against the segment stack (`".."` above the
root of an absolute path is dropped; above the start of a relative path
it is kept), then re-join, preserving a leading `'/'` for absolute
paths and a single trailing `'/'` when the input had one. -/

/-- Split a character list on `'/'`, keeping empty segments
(the direct analogue of splitting a path string on its separator). -/
def splitSlash : Str → List Str
  | [] => [[]]
  | c :: rest =>
      match splitSlash rest with
      | [] => [[c]]
      | s :: ss => if c = '/' then [] :: s :: ss else (c :: s) :: ss

/-- Join segments with `'/'`. -/
def joinSlash : List Str → Str
  | [] => []
  | [s] => s
  | s :: rest => s ++ '/' :: joinSlash rest

/-- One segment step of node's `normalizeString`, with the segment
stack kept in reverse order.  Empty and `"."` segments are dropped;
`".."` pops the last stacked segment unless that segment is itself
`".."`, and is kept only when `aar` ("allow above root", true for
relative paths) is set; every other segment is pushed. -/
def normStep (aar : Bool) (acc : List Str) (seg : Str) : List Str :=
  if seg = [] ∨ seg = ['.'] then acc
  else if seg = ['.', '.'] then
    match acc with
    | last :: acc' =>
        if last = ['.', '.'] then (if aar then seg :: acc else acc) else acc'
    | [] => if aar then [seg] else []
  else seg :: acc

/-- Node's `normalizeString` segment processing (reversed stack). -/
def normStackR (aar : Bool) (acc : List Str) (segs : List Str) : List Str :=
  segs.foldl (normStep aar) acc

/-- Posix `path.normalize`. -/
def posixNormalize (p : Str) : Str :=
  match p with
  | [] => ['.']
  | c :: _ =>
      let isAbs := c = '/'
      let trail := p.getLast? = some '/'
      let stack := (normStackR (!isAbs) [] (splitSlash p)).reverse
      if stack = [] then
        if isAbs then ['/'] else if trail then ['.', '/'] else ['.']
      else
        (if isAbs then ['/'] else []) ++ joinSlash stack ++
          (if trail then ['/'] else [])

/-- Posix `path.join` of two parts: non-empty parts are joined with
`'/'` and the result is normalized (`'.'` for an empty join). -/
def pathJoin (a b : Str) : Str :=
  let joined := if a = [] then b else if b = [] then a else a ++ '/' :: b
  if joined = [] then ['.'] else posixNormalize joined

/-! ## JS string primitives used by the project -/

/-- Search downwards from index `i` (inclusive) for character `c`;
`-1` when absent.  Helper for `jsLastIndexOf`. -/
def lastIndexFrom (s : Str) (c : Char) : Nat → Int
  | 0 => if s.get? 0 = some c then 0 else -1
  | k + 1 => if s.get? (k + 1) = some c then ((k + 1 : Nat) : Int)
             else lastIndexFrom s c k

/-- JS `String.prototype.lastIndexOf(c, fromIndex)`: the `fromIndex` is
clamped into `[0, length]` and the scan runs downwards from there. -/
def jsLastIndexOf (s : Str) (c : Char) (fromIdx : Int) : Int :=
  lastIndexFrom s c (min (max fromIdx 0) (s.length : Int)).toNat

/-- JS `String.prototype.lastIndexOf(c)` (no fromIndex). -/
def jsLastIndexOfAll (s : Str) (c : Char) : Int :=
  jsLastIndexOf s c (s.length : Int)

/-- JS `s.substring(0, e)`: negative `e` is clamped to `0`. -/
def jsTake (s : Str) (e : Int) : Str := s.take e.toNat

/-! ## Project string helpers (from src/lib/project.ts) -/

/-- `Project.removeSourceMapComment`:
`content.substring(0, content.lastIndexOf('\n', content.length - 2)) + '\n'`. -/
def removeSourceMapComment (content : Str) : Str :=
  jsTake content (jsLastIndexOf content '\n' ((content.length : Int) - 2)) ++ ['\n']

/-- Does the remainder `r` match one of the anchored regex alternatives
of `getOriginalName`, i.e. `(\.d\.ts|\.js|\.js.map)$` where the `.`
between `js` and `map` is an arbitrary character? -/
def altMatch (r : Str) : Bool :=
  (r == str ".d.ts") || (r == str ".js") ||
    (match r with
     | '.' :: 'j' :: 's' :: _ :: 'm' :: 'a' :: 'p' :: [] => true
     | _ => false)

/-- `Project.getOriginalName`: replace the leftmost (and, because all
alternatives are anchored at the end, unique-length) match of
`(\.d\.ts|\.js|\.js.map)$` by `".ts"`. -/
def getOriginalName : Str → Str
  | [] => []
  | c :: rest =>
      if altMatch (c :: rest) then str ".ts" else c :: getOriginalName rest

/-- `Project.normalizePath`: `path.normalize(p).toLowerCase()`. -/
def normalizePath (p : Str) : Str := lowerStr (posixNormalize p)

/-! ## Insertion-ordered string map (JS object used as dictionary)

JS property assignment keeps the original insertion position of an
existing key and appends new keys; `Object.keys(m).length` is the
number of distinct keys.  All maps of the project start empty and are
only modified through assignment, so the association lists built by
`StrMap.insert` have pairwise-distinct keys by construction. -/

/-- Helper: lookup in an association list of entries. -/
def entFind? {α : Type} : List (Str × α) → Str → Option α
  | [], _ => none
  | e :: rest, k => if e.1 = k then some e.2 else entFind? rest k

/-- Helper: key membership in an association list of entries. -/
def entHas {α : Type} : List (Str × α) → Str → Bool
  | [], _ => false
  | e :: rest, k => if e.1 = k then true else entHas rest k

/-- Insertion-ordered string-keyed map (a JS object used as a
dictionary), as an association list of entries in insertion order. -/
structure StrMap (α : Type) where
  entries : List (Str × α)
deriving DecidableEq

namespace StrMap

variable {α : Type}

/-- The empty object. -/
def empty : StrMap α := ⟨[]⟩

/-- `m.hasOwnProperty(k)`. -/
def contains (m : StrMap α) (k : Str) : Bool := entHas m.entries k

/-- `m[k]` (as an option). -/
def find? (m : StrMap α) (k : Str) : Option α := entFind? m.entries k

/-- `m[k] = v`: replace in place if the key exists, else append;
JS property assignment keeps the insertion position of existing keys. -/
def insert (m : StrMap α) (k : Str) (v : α) : StrMap α :=
  if m.contains k then
    ⟨m.entries.map (fun e => if e.1 = k then (k, v) else e)⟩
  else ⟨m.entries ++ [(k, v)]⟩

/-- `Object.keys(m)`. -/
def keys (m : StrMap α) : List Str := m.entries.map (·.1)

/-- `Object.keys(m).length`. -/
def size (m : StrMap α) : Nat := m.entries.length

/-- The values, in insertion order (`for (var k in m)` iteration). -/
def values (m : StrMap α) : List α := m.entries.map (·.2)

@[simp] theorem find?_empty (k : Str) : (empty : StrMap α).find? k = none := rfl

@[simp] theorem contains_empty (k : Str) :
    (empty : StrMap α).contains k = false := rfl

theorem entHas_eq_isSome_entFind? (l : List (Str × α)) (k : Str) :
    entHas l k = (entFind? l k).isSome := by
  induction l with
  | nil => rfl
  | cons e rest ih =>
      by_cases h : e.1 = k
      · simp [entHas, entFind?, h]
      · simp [entHas, entFind?, h, ih]

theorem contains_eq_isSome_find? (m : StrMap α) (k : Str) :
    m.contains k = (m.find? k).isSome :=
  entHas_eq_isSome_entFind? m.entries k

theorem entFind?_map_insertAt (l : List (Str × α)) (k : Str) (v : α) :
    entFind? (l.map (fun e => if e.1 = k then (k, v) else e)) k =
      (if entHas l k then some v else none) := by
  induction l with
  | nil => rfl
  | cons e rest ih =>
      by_cases h : e.1 = k
      · simp [entHas, entFind?, h]
      · simp [entHas, entFind?, h, ih]

theorem entFind?_append_single (l : List (Str × α)) (k : Str) (v : α)
    (h : entHas l k = false) : entFind? (l ++ [(k, v)]) k = some v := by
  induction l with
  | nil => simp [entFind?]
  | cons e rest ih =>
      by_cases he : e.1 = k
      · simp [entHas, he] at h
      · have h' : entHas rest k = false := by simpa [entHas, he] using h
        simpa [entFind?, he] using ih h'

theorem entFind?_append_single_ne (l : List (Str × α)) (k k' : Str) (v : α)
    (h : k' ≠ k) : entFind? (l ++ [(k, v)]) k' = entFind? l k' := by
  induction l with
  | nil => simp [entFind?, (Ne.symm h : k ≠ k')]
  | cons e rest ih =>
      by_cases he : e.1 = k'
      · simp [entFind?, he]
      · simp [entFind?, he, ih]

theorem entFind?_map_insertAt_ne (l : List (Str × α)) (k k' : Str) (v : α)
    (h : k' ≠ k) :
    entFind? (l.map (fun e => if e.1 = k then (k, v) else e)) k' =
      entFind? l k' := by
  induction l with
  | nil => rfl
  | cons e rest ih =>
      by_cases he : e.1 = k'
      · have hek : e.1 ≠ k := fun hk => h (he ▸ hk ▸ rfl)
        simp [entFind?, he, hek, h]
      · by_cases hek : e.1 = k
        · have hkk : k ≠ k' := fun hk => h hk.symm
          simp [entFind?, he, hek, hkk, ih]
        · simp [entFind?, he, hek, ih]

theorem find?_insert_self (m : StrMap α) (k : Str) (v : α) :
    (m.insert k v).find? k = some v := by
  unfold insert
  by_cases h : m.contains k
  · rw [if_pos h]
    show entFind? _ k = some v
    rw [entFind?_map_insertAt]
    have hh : entHas m.entries k = true := h
    rw [hh]
    rfl
  · rw [if_neg h]
    have h' : entHas m.entries k = false := by
      revert h
      unfold contains
      cases entHas m.entries k <;> simp
    exact entFind?_append_single m.entries k v h'

theorem find?_insert_ne (m : StrMap α) (k k' : Str) (v : α) (h : k' ≠ k) :
    (m.insert k v).find? k' = m.find? k' := by
  unfold insert
  by_cases hc : m.contains k
  · rw [if_pos hc]
    exact entFind?_map_insertAt_ne m.entries k k' v h
  · rw [if_neg hc]
    exact entFind?_append_single_ne m.entries k k' v h

theorem size_insert_of_contains (m : StrMap α) (k : Str) (v : α)
    (h : m.contains k = true) : (m.insert k v).size = m.size := by
  simp [insert, h, size]

theorem size_insert_of_not_contains (m : StrMap α) (k : Str) (v : α)
    (h : m.contains k = false) : (m.insert k v).size = m.size + 1 := by
  simp [insert, h, size]

theorem keys_insert_of_contains (m : StrMap α) (k : Str) (v : α)
    (h : m.contains k = true) : (m.insert k v).keys = m.keys := by
  simp only [insert, h, if_true, keys, List.map_map]
  apply List.map_congr_left
  intro e _
  by_cases he : e.1 = k <;> simp [he, Function.comp]

theorem keys_insert_of_not_contains (m : StrMap α) (k : Str) (v : α)
    (h : m.contains k = false) : (m.insert k v).keys = m.keys ++ [k] := by
  simp [insert, h, keys]

theorem contains_insert (m : StrMap α) (k k' : Str) (v : α) :
    (m.insert k v).contains k' = (m.contains k' || decide (k' = k)) := by
  by_cases h : k' = k
  · subst h
    rw [contains_eq_isSome_find?, find?_insert_self]
    simp
  · rw [contains_eq_isSome_find?, find?_insert_ne m k k' v h,
      ← contains_eq_isSome_find?]
    simp [h]

end StrMap

/-! ## Data model (src/lib/project.ts)

`gutil.File` objects are modelled by the fields the orchestrator reads
(`path`, `contents`, `cwd`, `base`, `sourceMap`).  The engine's
`ts.SourceFile` parsed-unit handle is opaque to the orchestrator; we
model it by the data the orchestrator hands to `createSourceFile`
(file name, content, and the build-version tag), which is exactly what
distinguishes handles across generations. -/

/-- A caller-supplied vinyl file. -/
structure GulpFile where
  path : Str
  contents : Str
  cwd : Str
  base : Str
deriving DecidableEq

/-- Opaque parsed-unit handle produced by
`tsApi.createSourceFile(typescript, filename, content, target, version)`. -/
structure SourceFile where
  fileName : Str
  text : Str
  version : Nat
deriving DecidableEq

/-- The engine's `createSourceFile`, at its interface boundary. -/
def createSourceFile (filename content : Str) (version : Nat) : SourceFile :=
  ⟨filename, content, version⟩

/-- `FileData` of project.ts. -/
structure FileData where
  file : Option GulpFile
  filename : Str
  originalFilename : Str
  content : Str
  ts : SourceFile
deriving DecidableEq

/-- A slot of `Project.additionalFiles`: either the shared
`Project.unresolvedFile` placeholder or real file data. -/
inductive FDEntry : Type where
  | unresolved : FDEntry
  | data : FileData → FDEntry
deriving DecidableEq

/-- `OutputFile` of project.ts (one cached output record). The
source-map payload is produced by the external source-map library, so
only its presence is modelled. -/
structure OutputFile where
  filename : Str
  content : Str
  sourcemap : Option Unit
deriving DecidableEq

/-- A `gutil.File` pushed to one of the two output streams. -/
structure PushedFile where
  path : Str
  contents : Str
  cwd : Str
  base : Str
  sourceMap : Option Unit
deriving DecidableEq

/-- The mutable state of a `Project` instance, together with its
construction-time configuration (`options.out`, `noExternalResolve`,
`sortOutput`). -/
structure ProjectState where
  optionsOut : Option Str
  noExternalResolve : Bool
  sortOutput : Bool
  previousFiles : StrMap FileData
  currentFiles : StrMap FileData
  additionalFiles : StrMap FDEntry
  firstFile : Option FileData
  isFileChanged : Bool
  previousOutputJS : Option (List OutputFile)
  previousOutputDts : Option (List OutputFile)
  version : Nat
deriving DecidableEq

/-- A freshly constructed `Project` (fields start as in the class
declaration: empty maps, version 0, undefined output caches). -/
def mkProject (out : Option Str) (noExternalResolve sortOutput : Bool) :
    ProjectState :=
  { optionsOut := out
    noExternalResolve := noExternalResolve
    sortOutput := sortOutput
    previousFiles := StrMap.empty
    currentFiles := StrMap.empty
    additionalFiles := StrMap.empty
    firstFile := none
    isFileChanged := false
    previousOutputJS := none
    previousOutputDts := none
    version := 0 }

/-- `Project.reset`. -/
def reset (st : ProjectState) : ProjectState :=
  { st with
    previousFiles := st.currentFiles
    firstFile := none
    isFileChanged := false
    currentFiles := StrMap.empty
    additionalFiles := StrMap.empty
    version := st.version + 1 }

/-- `Project.getFileData`. -/
def getFileData (st : ProjectState) (filename content : Str) : FileData :=
  { file := none
    filename := normalizePath filename
    originalFilename := filename
    content := content
    ts := createSourceFile filename content st.version }

/-- `Project.getFileDataFromGulpFile`. -/
def getFileDataFromGulpFile (st : ProjectState) (f : GulpFile) : FileData :=
  { getFileData st f.path f.contents with file := some f }

/-- `Project.addFile`. -/
def addFile (st : ProjectState) (f : GulpFile) : ProjectState :=
  let filename := normalizePath f.path
  let p : FileData × Bool :=
    match st.previousFiles.find? filename with
    | some old =>
        if old.content = f.contents then
          ({ file := some f
             filename := old.filename
             originalFilename := f.path
             content := old.content
             ts := old.ts }, st.isFileChanged)
        else (getFileDataFromGulpFile st f, true)
    | none => (getFileDataFromGulpFile st f, true)
  { st with
    isFileChanged := p.2
    firstFile := if st.firstFile.isNone then some p.1 else st.firstFile
    currentFiles := st.currentFiles.insert (normalizePath f.path) p.1 }

/-- Ingest a list of input files in order (the stream `_write` calls). -/
def addFiles (st : ProjectState) (inputs : List GulpFile) : ProjectState :=
  inputs.foldl addFile st

/-! ## lazyCompile -/

/-- JS `s.substr(0, n)` for a possibly negative count. -/
def substr0 (s : Str) (n : Int) : Str := s.take n.toNat

/-- The replay-eligibility test at the head of `Project.lazyCompile`. -/
def lazyCompileCond (st : ProjectState) : Bool :=
  (!st.isFileChanged) && (st.currentFiles.size == st.previousFiles.size)
    && st.previousOutputJS.isSome && st.previousOutputDts.isSome

/-- Replay of one cached JavaScript output record. -/
def lazyReplayJS (st : ProjectState) (file : OutputFile) : Option PushedFile :=
  let originalName := getOriginalName (normalizePath file.filename)
  match st.currentFiles.find? originalName with
  | none => none
  | some original =>
      some { path := substr0 original.originalFilename
                       ((original.originalFilename.length : Int) - 3) ++ str ".js"
             contents := file.content
             cwd := (original.file.map (·.cwd)).getD []
             base := (original.file.map (·.base)).getD []
             sourceMap := file.sourcemap }

/-- Replay of one cached declaration output record. -/
def lazyReplayDts (st : ProjectState) (file : OutputFile) : Option PushedFile :=
  let originalName := getOriginalName (normalizePath file.filename)
  match st.currentFiles.find? originalName with
  | none => none
  | some original =>
      some { path := substr0 original.originalFilename
                       ((original.originalFilename.length : Int) - 3) ++ str ".d.ts"
             contents := file.content
             cwd := (original.file.map (·.cwd)).getD []
             base := (original.file.map (·.base)).getD []
             sourceMap := none }

/-- Result of `Project.lazyCompile`: the returned boolean and the files
pushed to the two streams. -/
structure LazyOut where
  ok : Bool
  jsFiles : List PushedFile
  dtsFiles : List PushedFile
deriving DecidableEq

/-- `Project.lazyCompile`. -/
def lazyCompile (st : ProjectState) : LazyOut :=
  if lazyCompileCond st then
    { ok := true
      jsFiles := (st.previousOutputJS.getD []).filterMap (lazyReplayJS st)
      dtsFiles := (st.previousOutputDts.getD []).filterMap (lazyReplayDts st) }
  else { ok := false, jsFiles := [], dtsFiles := [] }

/-! ## The reference resolver (Project.resolve / Project.resolveAll)

The resolver has genuine asynchronous fan-out: `fs.readFile` callbacks
run later, one at a time, on the single-threaded event loop.  We model
a resolution run as a transition system: `resolveAllStart` performs the
synchronous part of `resolveAll`, and every event-loop turn delivering
one outstanding read result is one `deliver` step (the scheduler picks
which pending read completes, successfully or not).  The derivation of
reference paths from a parsed unit
(`file.ts.referencedFiles` mapped through `path.join`/`path.dirname`)
is the oracle `refsOf`; read results are the oracle `readResult`. -/

/-- Construction of a resolved file's data,
`this.getFileData(ref, data)`, which depends on the project state only
through the version tag. -/
def mkFileData (filename content : Str) (version : Nat) : FileData :=
  { file := none
    filename := normalizePath filename
    originalFilename := filename
    content := content
    ts := createSourceFile filename content version }

/-- One outstanding `fs.readFile` call. -/
structure PendingRead where
  ref : Str
  normalizedRef : Str
deriving DecidableEq

/-- State of one resolution run.  `issued` is the history of normalized
paths for which a read has ever been started (ghost data used to state
the single-read guarantee); `fired` counts completion-callback calls. -/
structure RState where
  current : StrMap FileData
  additional : StrMap FDEntry
  tasks : Int
  pending : List PendingRead
  fired : Nat
  issued : List Str
deriving DecidableEq

/-- One iteration of the loop of `Project.resolve`: a reference already
known in `currentFiles` or `additionalFiles` is skipped; otherwise the
task counter is incremented, the `unresolvedFile` placeholder is
stored, and a read is started. -/
def resolveOneRef (r : RState) (ref : Str) : RState :=
  let n := normalizePath ref
  if r.current.contains n || r.additional.contains n then r
  else
    { r with
      tasks := r.tasks + 1
      additional := r.additional.insert n FDEntry.unresolved
      pending := r.pending ++ [⟨ref, n⟩]
      issued := r.issued ++ [n] }

/-- The loop of `Project.resolve` over one unit's reference list. -/
def resolveRefs (r : RState) (references : List Str) : RState :=
  references.foldl resolveOneRef r

/-- The loop of `Project.resolveAll` over the current files. -/
def resolveSeed (refsOf : FileData → List Str) (r : RState)
    (fds : List FileData) : RState :=
  fds.foldl (fun r fd => resolveRefs r (refsOf fd)) r

/-- The synchronous part of `Project.resolveAll`: fire immediately when
external resolution is disabled, otherwise seed reads from every
current file and fire immediately when no read was started. -/
def resolveAllStart (refsOf : FileData → List Str) (st : ProjectState) :
    RState :=
  let r0 : RState :=
    ⟨st.currentFiles, st.additionalFiles, 0, [], 0, []⟩
  if st.noExternalResolve then { r0 with fired := 1 }
  else
    let r := resolveSeed refsOf r0 st.currentFiles.values
    if r.tasks = 0 then { r with fired := r.fired + 1 } else r

/-- The body of the `fs.readFile` callback before the decrement: on a
successful read the file is ingested into `additionalFiles`
(overwriting its placeholder) and its own references are resolved
recursively; a failed read leaves the reference absent. -/
def deliverCore (refsOf : FileData → List Str)
    (readResult : Str → Option Str) (version : Nat) (r : RState)
    (pr : PendingRead) (idx : Nat) : RState :=
  let r1 : RState := { r with pending := r.pending.eraseIdx idx }
  match readResult pr.ref with
  | some data =>
      let fd := mkFileData pr.ref data version
      resolveRefs { r1 with
        additional := r1.additional.insert pr.normalizedRef (FDEntry.data fd) }
        (refsOf fd)
  | none => r1

/-- The tail of the `fs.readFile` callback: `session.tasks--`, then
`if (session.tasks === 0) session.callback()`. -/
def finishTask (r2 : RState) : RState :=
  if r2.tasks - 1 = 0 then
    { r2 with tasks := r2.tasks - 1, fired := r2.fired + 1 }
  else { r2 with tasks := r2.tasks - 1 }

/-- One event-loop turn: the read chosen by `idx` completes.  In every
case the task counter is decremented afterwards and the completion
callback fires when it reaches zero. -/
def deliver (refsOf : FileData → List Str) (readResult : Str → Option Str)
    (version : Nat) (r : RState) (idx : Nat) : RState :=
  match r.pending.get? idx with
  | none => r
  | some pr => finishTask (deliverCore refsOf readResult version r pr idx)

/-- A whole resolution run: the synchronous start followed by an
arbitrary schedule of read completions. -/
def runResolution (refsOf : FileData → List Str)
    (readResult : Str → Option Str) (version : Nat) (st : ProjectState)
    (trace : List Nat) : RState :=
  trace.foldl (deliver refsOf readResult version) (resolveAllStart refsOf st)

/-! ## compile

The engine invocation (`createProgram` / `getDiagnosticsAndEmit`) is
external: its flat output namespace `host.output` arrives as the list
`engineOutput` (iterated in insertion order) and only the number of
reported diagnostics matters to the orchestrator's control flow.  The
reference lists that `sortedEmit` reads from `program.getSourceFile`
are the oracle `refNames`. -/

/-- Accumulator of the artifact-classification loop of
`Project.compile`. -/
structure ClassAcc where
  outputJS : List PushedFile
  dtsPushed : List PushedFile
  dtsCache : Option (List OutputFile)
  smaps : StrMap Str
deriving DecidableEq

/-- `fullOriginalName.substring(0, lastDot)` with
`lastDot = fullOriginalName.lastIndexOf('.')`, defaulting to the whole
string when there is no dot. -/
def dropExt (s : Str) : Str :=
  let lastDotI := jsLastIndexOfAll s '.'
  s.take (if lastDotI = -1 then s.length else lastDotI.toNat)

/-- `original.file.cwd` (current files always carry their gulp file). -/
def cwdOf (fd : FileData) : Str := (fd.file.map (·.cwd)).getD []

/-- `original.file.base`. -/
def baseOf (fd : FileData) : Str := (fd.file.map (·.base)).getD []

/-- Recovery of the originating unit and its full original name: the
anchor `firstFile` (with `path.join(base, options.out)`) in
concatenated mode, otherwise the current file found under the recovered
original name. -/
def classifyFound (st : ProjectState) (originalName : Str) :
    Option (FileData × Str) :=
  match st.optionsOut with
  | some o =>
      match st.firstFile with
      | none => none
      | some ff => some (ff, pathJoin (baseOf ff) o)
  | none =>
      match st.currentFiles.find? originalName with
      | none => none
      | some orig => some (orig, orig.originalFilename)

/-- The key under which a map artifact is held: the empty key in
concatenated mode, the recovered original name otherwise. -/
def smapKey (st : ProjectState) (originalName : Str) : Str :=
  match st.optionsOut with
  | some _ => []
  | none => originalName

/-- One iteration of the artifact-classification loop. -/
def classifyOne (st : ProjectState) (acc : ClassAcc) (art : Str × Str) :
    ClassAcc :=
  let filename := art.1
  let data := art.2
  let originalName := getOriginalName (normalizePath filename)
  match classifyFound st originalName with
  | none => acc
  | some pr =>
      let woExt := dropExt pr.2
      if (str ".js").isSuffixOf filename then
        { acc with outputJS := acc.outputJS ++
            [⟨woExt ++ str ".js", removeSourceMapComment data,
              cwdOf pr.1, baseOf pr.1, none⟩] }
      else if (str ".d.ts").isSuffixOf filename then
        { acc with
          dtsPushed := acc.dtsPushed ++
            [⟨woExt ++ str ".d.ts", data, cwdOf pr.1, baseOf pr.1, none⟩]
          dtsCache := acc.dtsCache.map
            (fun l => l ++ [⟨woExt ++ str ".d.ts", data, none⟩]) }
      else if (str ".map").isSuffixOf filename then
        { acc with smaps := acc.smaps.insert (smapKey st originalName) data }
      else acc

/-- State of the emission phase: the `done` visited-set of `sortedEmit`,
the `previousOutputJS` cache under construction, and the files pushed to
the JavaScript stream so far. -/
structure EmitSt where
  done : StrMap Bool
  cacheJS : Option (List OutputFile)
  pushed : List PushedFile
deriving DecidableEq

/-- The `emit` closure of `Project.compile`: attach the composed source
map (external payload; only presence is tracked), record the file into
`previousOutputJS` when caching is active, and push it. -/
def emitOne (out : Option Str) (smaps : StrMap Str) (n : Str)
    (file : PushedFile) (es : EmitSt) : EmitSt :=
  let key : Str := match out with | some _ => [] | none => n
  let hasMap := (smaps.find? key).isSome
  let f := { file with sourceMap := if hasMap then some () else none }
  { es with
    cacheJS := es.cacheJS.map (fun l => l ++ [⟨f.path, f.contents, f.sourceMap⟩])
    pushed := es.pushed ++ [f] }

mutual

/-- The `sortedEmit` closure: depth-first emission along reference
edges with the `done` visited-set.  The fuel argument only bounds the
recursion depth; `outputs.length + 1` is always sufficient because
every recursive level first adds a new name to `done`. -/
def sortedVisit (out : Option Str) (smaps : StrMap Str)
    (refNames : Str → List Str) (outputs : List PushedFile) :
    Nat → Str × PushedFile → EmitSt → EmitSt
  | 0, _, es => es
  | fuel + 1, nf, es =>
      let n := normalizePath nf.1
      if es.done.contains n then es
      else
        let es1 : EmitSt := { es with done := es.done.insert n true }
        let es2 := visitChildren out smaps refNames outputs fuel
          (refNames n) outputs es1
        emitOne out smaps n nf.2 es2

/-- The inner `for (var j ...)` loop of `sortedEmit`: recursively visit
every output whose recovered original name occurs in the current unit's
reference list. -/
def visitChildren (out : Option Str) (smaps : StrMap Str)
    (refNames : Str → List Str) (outputs : List PushedFile) :
    Nat → List Str → List PushedFile → EmitSt → EmitSt
  | _, _, [], es => es
  | fuel, refs, other :: rest, es =>
      let otherName := getOriginalName other.path
      let es' := if otherName ∈ refs then
          sortedVisit out smaps refNames outputs fuel (otherName, other) es
        else es
      visitChildren out smaps refNames outputs fuel refs rest es'

end

/-- The top-level `for (var i ...)` loop of the sorted branch. -/
def sortedTops (out : Option Str) (smaps : StrMap Str)
    (refNames : Str → List Str) (outputs : List PushedFile) (fuel : Nat) :
    List PushedFile → EmitSt → EmitSt
  | [], es => es
  | f :: rest, es =>
      sortedTops out smaps refNames outputs fuel rest
        (sortedVisit out smaps refNames outputs fuel
          (getOriginalName f.path, f) es)

/-- The unsorted emission loop. -/
def plainEmitAll (out : Option Str) (smaps : StrMap Str) :
    List PushedFile → EmitSt → EmitSt
  | [], es => es
  | f :: rest, es =>
      plainEmitAll out smaps rest
        (emitOne out smaps (normalizePath (getOriginalName f.path)) f es)

/-- Result of `Project.compile`: the updated project state, the files
pushed to the two streams, and the number of `errorCallback`
invocations. -/
structure CompileResult where
  state : ProjectState
  jsFiles : List PushedFile
  dtsFiles : List PushedFile
  errorCount : Nat
deriving DecidableEq

/-- The classification stage of `Project.compile`: iterate the flat
output namespace, starting from the declaration cache that the
diagnostics check just (re)initialized or invalidated. -/
def compileAcc (st : ProjectState) (engineOutput : List (Str × Str))
    (diagnostics : Nat) : ClassAcc :=
  engineOutput.foldl (classifyOne st)
    ⟨[], [], if diagnostics ≠ 0 then none else some [], StrMap.empty⟩

/-- The emission stage of `Project.compile`: the sorted or unsorted
driver over the collected JavaScript artifacts, starting from the
JavaScript cache that the diagnostics check just (re)initialized or
invalidated. -/
def compileEmit (st : ProjectState) (refNames : Str → List Str)
    (engineOutput : List (Str × Str)) (diagnostics : Nat) : EmitSt :=
  let acc := compileAcc st engineOutput diagnostics
  let es0 : EmitSt :=
    ⟨StrMap.empty, if diagnostics ≠ 0 then none else some [], []⟩
  if st.sortOutput then
    sortedTops st.optionsOut acc.smaps refNames acc.outputJS
      (acc.outputJS.length + 1) acc.outputJS es0
  else plainEmitAll st.optionsOut acc.smaps acc.outputJS es0

/-- `Project.compile`, with the engine at its interface boundary:
`engineOutput` is the flat `host.output` namespace and `diagnostics`
the number of engine-reported diagnostics. -/
def compile (st : ProjectState) (refNames : Str → List Str)
    (engineOutput : List (Str × Str)) (diagnostics : Nat) : CompileResult :=
  { state := { st with
      previousOutputJS := (compileEmit st refNames engineOutput diagnostics).cacheJS
      previousOutputDts := (compileAcc st engineOutput diagnostics).dtsCache }
    jsFiles := (compileEmit st refNames engineOutput diagnostics).pushed
    dtsFiles := (compileAcc st engineOutput diagnostics).dtsPushed
    errorCount := diagnostics }

/-! ## Lemmas about removeSourceMapComment -/

theorem lastIndexFrom_eq_neg_one (s : Str) (c : Char) (m : Nat)
    (h : ∀ j, j ≤ m → s.get? j ≠ some c) : lastIndexFrom s c m = -1 := by
  induction m with
  | zero =>
      unfold lastIndexFrom
      rw [if_neg (h 0 (le_refl 0))]
  | succ k ih =>
      unfold lastIndexFrom
      rw [if_neg (h (k + 1) (le_refl _))]
      exact ih (fun j hj => h j (le_trans hj (Nat.le_succ k)))

theorem lastIndexFrom_eq_of_last (s : Str) (c : Char) (m i : Nat)
    (hi : i ≤ m) (hget : s.get? i = some c)
    (hafter : ∀ j, i < j → j ≤ m → s.get? j ≠ some c) :
    lastIndexFrom s c m = (i : Int) := by
  induction m with
  | zero =>
      have h0 : i = 0 := Nat.le_zero.mp hi
      subst h0
      unfold lastIndexFrom
      rw [if_pos hget]
      simp
  | succ k ih =>
      by_cases hik : i = k + 1
      · subst hik
        unfold lastIndexFrom
        rw [if_pos hget]
      · have hik' : i ≤ k := Nat.lt_succ_iff.mp (lt_of_le_of_ne hi hik)
        have hk1 : s.get? (k + 1) ≠ some c :=
          hafter _ (Nat.lt_succ_of_le hik') (le_refl _)
        unfold lastIndexFrom
        rw [if_neg hk1]
        exact ih hik' (fun j hj hj2 => hafter j hj (le_trans hj2 (Nat.le_succ _)))

/-- The trimming rule, stated positionally: when index `i` carries the
last `'\n'` occurring at an index at most `length - 2`, the result is
the prefix of length `i` with a single `'\n'` appended. -/
theorem removeSourceMapComment_of_last_newline (content : Str) (i : Nat)
    (hlen : i + 2 ≤ content.length)
    (hget : content.get? i = some '\n')
    (hafter : ∀ j, i < j → j + 2 ≤ content.length →
        content.get? j ≠ some '\n') :
    removeSourceMapComment content = content.take i ++ ['\n'] := by
  have hlen2 : 2 ≤ content.length := le_trans (by omega) hlen
  have hclamp : (min (max ((content.length : Int) - 2) 0) (content.length : Int)).toNat
      = content.length - 2 := by omega
  have hidx : lastIndexFrom content '\n' (content.length - 2) = (i : Int) := by
    apply lastIndexFrom_eq_of_last content '\n' _ i (by omega) hget
    intro j hj hj2
    exact hafter j hj (by omega)
  unfold removeSourceMapComment jsLastIndexOf jsTake
  rw [hclamp, hidx]
  simp

/-- When no `'\n'` occurs at an index at most `length - 2`, the whole
content is discarded and only a `'\n'` remains. -/
theorem removeSourceMapComment_degenerate (content : Str)
    (h : ∀ j, j + 2 ≤ content.length → content.get? j ≠ some '\n') :
    removeSourceMapComment content = ['\n'] := by
  unfold removeSourceMapComment jsLastIndexOf jsTake
  by_cases hlen : 2 ≤ content.length
  · have hclamp :
        (min (max ((content.length : Int) - 2) 0) (content.length : Int)).toNat
          = content.length - 2 := by omega
    have hidx : lastIndexFrom content '\n' (content.length - 2) = -1 := by
      apply lastIndexFrom_eq_neg_one
      intro j hj
      exact h j (by omega)
    rw [hclamp, hidx]
    simp
  · have hclamp :
        (min (max ((content.length : Int) - 2) 0) (content.length : Int)).toNat
          = 0 := by omega
    rw [hclamp]
    unfold lastIndexFrom
    by_cases h0 : content.get? 0 = some '\n'
    · rw [if_pos h0]
      simp
    · rw [if_neg h0]
      simp

/-! ## Lemmas about addFile -/

/-- `addFile` stores, at the normalized path of the added file, an
entry whose content, original path, gulp file and parse-or-reuse `ts`
handle follow the incremental-compilation branch of the source. -/
theorem addFile_currentFiles_spec (st : ProjectState) (f : GulpFile) :
    ∃ fd : FileData,
      (addFile st f).currentFiles =
        st.currentFiles.insert (normalizePath f.path) fd ∧
      fd.content = f.contents ∧ fd.originalFilename = f.path ∧
      fd.file = some f := by
  cases hfind : st.previousFiles.find? (normalizePath f.path) with
  | none =>
      exact ⟨getFileDataFromGulpFile st f, by simp [addFile, hfind], rfl, rfl, rfl⟩
  | some old =>
      by_cases hc : old.content = f.contents
      · exact ⟨FileData.mk (some f) old.filename f.path old.content old.ts,
          by simp [addFile, hfind, hc], hc, rfl, rfl⟩
      · exact ⟨getFileDataFromGulpFile st f, by simp [addFile, hfind, hc],
          rfl, rfl, rfl⟩

@[simp] theorem addFile_previousFiles (st : ProjectState) (f : GulpFile) :
    (addFile st f).previousFiles = st.previousFiles := rfl

@[simp] theorem addFile_previousOutputJS (st : ProjectState) (f : GulpFile) :
    (addFile st f).previousOutputJS = st.previousOutputJS := rfl

@[simp] theorem addFile_previousOutputDts (st : ProjectState) (f : GulpFile) :
    (addFile st f).previousOutputDts = st.previousOutputDts := rfl

@[simp] theorem addFile_version (st : ProjectState) (f : GulpFile) :
    (addFile st f).version = st.version := rfl

theorem addFiles_cons (st : ProjectState) (f : GulpFile) (rest : List GulpFile) :
    addFiles st (f :: rest) = addFiles (addFile st f) rest := rfl

@[simp] theorem addFiles_previousFiles (st : ProjectState) (inputs : List GulpFile) :
    (addFiles st inputs).previousFiles = st.previousFiles := by
  induction inputs generalizing st with
  | nil => rfl
  | cons f rest ih => rw [addFiles_cons, ih]; rfl

@[simp] theorem addFiles_previousOutputJS (st : ProjectState) (inputs : List GulpFile) :
    (addFiles st inputs).previousOutputJS = st.previousOutputJS := by
  induction inputs generalizing st with
  | nil => rfl
  | cons f rest ih => rw [addFiles_cons, ih]; rfl

@[simp] theorem addFiles_previousOutputDts (st : ProjectState) (inputs : List GulpFile) :
    (addFiles st inputs).previousOutputDts = st.previousOutputDts := by
  induction inputs generalizing st with
  | nil => rfl
  | cons f rest ih => rw [addFiles_cons, ih]; rfl

@[simp] theorem addFiles_version (st : ProjectState) (inputs : List GulpFile) :
    (addFiles st inputs).version = st.version := by
  induction inputs generalizing st with
  | nil => rfl
  | cons f rest ih => rw [addFiles_cons, ih]; rfl

theorem StrMap.size_eq_keys_length {α : Type} (m : StrMap α) :
    m.size = m.keys.length := (List.length_map _ _).symm

/-- Ingesting files whose normalized paths are fresh and pairwise
distinct appends exactly their normalized paths to the key list. -/
theorem addFiles_keys (inputs : List GulpFile) :
    ∀ st : ProjectState,
      (∀ f ∈ inputs, st.currentFiles.contains (normalizePath f.path) = false) →
      (inputs.map (fun f => normalizePath f.path)).Nodup →
      (addFiles st inputs).currentFiles.keys =
        st.currentFiles.keys ++ inputs.map (fun f => normalizePath f.path) := by
  induction inputs with
  | nil => intro st _ _; simp [addFiles]
  | cons f rest ih =>
      intro st h hnd
      obtain ⟨fd, hins, -, -, -⟩ := addFile_currentFiles_spec st f
      have hnotc : st.currentFiles.contains (normalizePath f.path) = false :=
        h f (List.mem_cons_self f rest)
      rw [List.map_cons] at hnd
      have hnd' := List.nodup_cons.mp hnd
      have hrest : ∀ g ∈ rest,
          (addFile st f).currentFiles.contains (normalizePath g.path) = false := by
        intro g hg
        rw [hins, StrMap.contains_insert]
        have h1 : st.currentFiles.contains (normalizePath g.path) = false :=
          h g (List.mem_cons_of_mem f hg)
        have h2 : normalizePath g.path ≠ normalizePath f.path := by
          intro he
          exact hnd'.1 (by
            rw [← he]
            exact List.mem_map.mpr ⟨g, hg, rfl⟩)
        simp [h1, h2]
      rw [addFiles_cons, ih (addFile st f) hrest hnd'.2, hins,
        StrMap.keys_insert_of_not_contains _ _ _ hnotc]
      simp

/-- Size version of `addFiles_keys`. -/
theorem addFiles_size (inputs : List GulpFile) (st : ProjectState)
    (h : ∀ f ∈ inputs, st.currentFiles.contains (normalizePath f.path) = false)
    (hnd : (inputs.map (fun f => normalizePath f.path)).Nodup) :
    (addFiles st inputs).currentFiles.size =
      st.currentFiles.size + inputs.length := by
  rw [StrMap.size_eq_keys_length, StrMap.size_eq_keys_length,
    addFiles_keys inputs st h hnd]
  simp

/-- `addFiles` never touches keys other than the normalized paths of
its inputs. -/
theorem addFiles_find_preserved (inputs : List GulpFile) :
    ∀ (st : ProjectState) (k : Str),
      (∀ f ∈ inputs, normalizePath f.path ≠ k) →
      (addFiles st inputs).currentFiles.find? k = st.currentFiles.find? k := by
  induction inputs with
  | nil => intro st k _; rfl
  | cons f rest ih =>
      intro st k hk
      obtain ⟨fd, hins, -, -, -⟩ := addFile_currentFiles_spec st f
      rw [addFiles_cons, ih (addFile st f) k
        (fun g hg => hk g (List.mem_cons_of_mem f hg)), hins,
        StrMap.find?_insert_ne _ _ _ _
          (Ne.symm (hk f (List.mem_cons_self f rest)))]

/-- After ingesting a pairwise-distinct input set, every input is found
at its normalized path with its own content, original path and gulp
file. -/
theorem addFiles_find_mem (inputs : List GulpFile) :
    ∀ st : ProjectState,
      (inputs.map (fun f => normalizePath f.path)).Nodup →
      ∀ f ∈ inputs, ∃ fd : FileData,
        (addFiles st inputs).currentFiles.find? (normalizePath f.path) = some fd ∧
        fd.content = f.contents ∧ fd.originalFilename = f.path ∧
        fd.file = some f := by
  induction inputs with
  | nil => intro st _ f hf; exact absurd hf (List.not_mem_nil f)
  | cons g rest ih =>
      intro st hnd f hf
      rw [List.map_cons] at hnd
      have hnd' := List.nodup_cons.mp hnd
      rcases List.mem_cons.mp hf with hfg | hfr
      · subst hfg
        obtain ⟨fd, hins, hc, ho, hfile⟩ := addFile_currentFiles_spec st f
        refine ⟨fd, ?_, hc, ho, hfile⟩
        rw [addFiles_cons, addFiles_find_preserved rest (addFile st f)
          (normalizePath f.path) ?_, hins, StrMap.find?_insert_self]
        intro g hg he
        exact hnd'.1 (by rw [← he]; exact List.mem_map.mpr ⟨g, hg, rfl⟩)
      · rw [addFiles_cons]
        exact ih (addFile st g) hnd'.2 f hfr

theorem addFile_isFileChanged_of_same (st : ProjectState) (f : GulpFile)
    (old : FileData)
    (hfind : st.previousFiles.find? (normalizePath f.path) = some old)
    (hc : old.content = f.contents) :
    (addFile st f).isFileChanged = st.isFileChanged := by
  simp [addFile, hfind, hc]

/-- When every ingested file is byte-identical to its previous
generation entry, the changed flag is never raised. -/
theorem addFiles_isFileChanged_of_same (inputs : List GulpFile) :
    ∀ st : ProjectState,
      (∀ f ∈ inputs, ∃ old : FileData,
        st.previousFiles.find? (normalizePath f.path) = some old ∧
        old.content = f.contents) →
      (addFiles st inputs).isFileChanged = st.isFileChanged := by
  induction inputs with
  | nil => intro st _; rfl
  | cons f rest ih =>
      intro st h
      obtain ⟨old, hfind, hc⟩ := h f (List.mem_cons_self f rest)
      rw [addFiles_cons, ih (addFile st f) ?_,
        addFile_isFileChanged_of_same st f old hfind hc]
      intro g hg
      obtain ⟨old', hfind', hc'⟩ := h g (List.mem_cons_of_mem f hg)
      exact ⟨old', by rw [addFile_previousFiles]; exact hfind', hc'⟩

/-! ## Claim C2: replay eligibility -/

/-- C2.  `lazyCompile` returns `true` (and replays) exactly when no
ingested unit raised the changed flag, the current and previous
generations hold equally many units, and both output caches from a
prior zero-diagnostic build are present; consequently removing one
input file between generations (the remaining ones byte-identical)
forces `lazyCompile` to return `false`. -/
theorem C2_lazyCompile_eligibility :
    (∀ st : ProjectState,
      (lazyCompile st).ok = true ↔
        (st.isFileChanged = false ∧
         st.currentFiles.size = st.previousFiles.size ∧
         st.previousOutputJS.isSome = true ∧
         st.previousOutputDts.isSome = true))
    ∧ (∀ (stA : ProjectState) (inputs : List GulpFile) (i : Nat)
         (rn : Str → List Str) (eo : List (Str × Str)),
        i < inputs.length →
        (inputs.map (fun f => normalizePath f.path)).Nodup →
        (lazyCompile (addFiles
            (reset (compile (addFiles (reset stA) inputs) rn eo 0).state)
            (inputs.eraseIdx i))).ok = false) := by
  constructor
  · intro st
    unfold lazyCompile lazyCompileCond
    by_cases h1 : st.isFileChanged
    · simp [h1]
    · by_cases h2 : st.currentFiles.size = st.previousFiles.size
      · by_cases h3 : st.previousOutputJS.isSome
        · by_cases h4 : st.previousOutputDts.isSome
          · simp [h1, h2, h3, h4]
          · simp [h1, h2, h3, h4]
        · simp [h1, h2, h3]
      · simp [h1, h2]
  · intro stA inputs i rn eo hi hnd
    set st1 := addFiles (reset stA) inputs with hst1
    set st2 := addFiles (reset (compile st1 rn eo 0).state) (inputs.eraseIdx i)
      with hst2
    have hempty : ∀ (s : ProjectState) (f : GulpFile),
        (reset s).currentFiles.contains (normalizePath f.path) = false :=
      fun s f => rfl
    have hsz1 : st1.currentFiles.size = inputs.length := by
      rw [hst1, addFiles_size inputs (reset stA) (fun f _ => hempty stA f) hnd]
      have h0 : (reset stA).currentFiles.size = 0 := rfl
      omega
    have hndE : ((inputs.eraseIdx i).map
        (fun f => normalizePath f.path)).Nodup := by
      exact (List.Sublist.map _ (List.eraseIdx_sublist inputs i)).nodup hnd
    have hsz2 : st2.currentFiles.size = inputs.length - 1 := by
      rw [hst2, addFiles_size (inputs.eraseIdx i) _
        (fun f _ => hempty (compile st1 rn eo 0).state f) hndE]
      have h0 : (reset (compile st1 rn eo 0).state).currentFiles.size = 0 := rfl
      have hlen : (inputs.eraseIdx i).length = inputs.length - 1 := by
        rw [List.length_eraseIdx_of_lt hi]
      omega
    have hprevcur : (compile st1 rn eo 0).state.currentFiles =
        st1.currentFiles := rfl
    have hszprev : st2.previousFiles.size = inputs.length := by
      rw [hst2, addFiles_previousFiles]
      show (compile st1 rn eo 0).state.currentFiles.size = inputs.length
      rw [hprevcur, hsz1]
    have hne : st2.currentFiles.size ≠ st2.previousFiles.size := by
      rw [hsz2, hszprev]
      omega
    have hb : (st2.currentFiles.size == st2.previousFiles.size) = false :=
      beq_eq_false_iff_ne.mpr hne
    have hcond : lazyCompileCond st2 = false := by
      unfold lazyCompileCond
      rw [hb]
      simp
    unfold lazyCompile
    rw [hcond]
    simp

/-- Witness for C2: dropping the only input of a successfully compiled
generation makes the next generation recompile. -/
theorem C2_lazyCompile_eligibility_witness :
    (lazyCompile (addFiles
        (reset (compile (addFiles (reset (mkProject none false false))
            [⟨str "a.ts", str "x", [], []⟩]) (fun _ => []) [] 0).state)
        (([⟨str "a.ts", str "x", [], []⟩] : List GulpFile).eraseIdx 0))).ok
      = false :=
  C2_lazyCompile_eligibility.2 (mkProject none false false)
    [⟨str "a.ts", str "x", [], []⟩] 0 (fun _ => []) [] (by decide) (by simp)

/-! ## Claim C3: change detection on ingestion -/

/-- C3.  `addFile` reuses the previous generation's parsed-unit handle
verbatim, and leaves the changed flag alone, exactly when a previous
entry with the same normalized path holds byte-identical content;
otherwise it creates a fresh parsed unit tagged with the current
generation and raises the changed flag. -/
theorem C3_addFile_change_detection (st : ProjectState) (f : GulpFile) :
    (∀ old : FileData,
        st.previousFiles.find? (normalizePath f.path) = some old →
        old.content = f.contents →
        (addFile st f).currentFiles.find? (normalizePath f.path) =
            some { file := some f, filename := old.filename,
                   originalFilename := f.path, content := old.content,
                   ts := old.ts } ∧
        (addFile st f).isFileChanged = st.isFileChanged)
    ∧ (∀ old : FileData,
        st.previousFiles.find? (normalizePath f.path) = some old →
        old.content ≠ f.contents →
        (addFile st f).currentFiles.find? (normalizePath f.path) =
            some (getFileDataFromGulpFile st f) ∧
        (getFileDataFromGulpFile st f).ts =
            createSourceFile f.path f.contents st.version ∧
        (addFile st f).isFileChanged = true)
    ∧ (st.previousFiles.find? (normalizePath f.path) = none →
        (addFile st f).currentFiles.find? (normalizePath f.path) =
            some (getFileDataFromGulpFile st f) ∧
        (getFileDataFromGulpFile st f).ts =
            createSourceFile f.path f.contents st.version ∧
        (addFile st f).isFileChanged = true) := by
  refine ⟨?_, ?_, ?_⟩
  · intro old hfind hc
    constructor
    · have : (addFile st f).currentFiles =
          st.currentFiles.insert (normalizePath f.path)
            { file := some f, filename := old.filename,
              originalFilename := f.path, content := old.content,
              ts := old.ts } := by
        simp [addFile, hfind, hc]
      rw [this, StrMap.find?_insert_self]
    · simp [addFile, hfind, hc]
  · intro old hfind hc
    refine ⟨?_, rfl, ?_⟩
    · have : (addFile st f).currentFiles =
          st.currentFiles.insert (normalizePath f.path)
            (getFileDataFromGulpFile st f) := by
        simp [addFile, hfind, hc]
      rw [this, StrMap.find?_insert_self]
    · simp [addFile, hfind, hc]
  · intro hfind
    refine ⟨?_, rfl, ?_⟩
    · have : (addFile st f).currentFiles =
          st.currentFiles.insert (normalizePath f.path)
            (getFileDataFromGulpFile st f) := by
        simp [addFile, hfind]
      rw [this, StrMap.find?_insert_self]
    · simp [addFile, hfind]

/-- Concrete data for the C3 witness: a previous-generation entry for
`a.ts` with content `x`. -/
def oldW3 : FileData := mkFileData (str "a.ts") (str "x") 0

/-- The C3 witness project state. -/
def stW3 : ProjectState :=
  { mkProject none false false with
    previousFiles := StrMap.insert StrMap.empty (normalizePath (str "a.ts")) oldW3 }

/-- The C3 witness input file (byte-identical to the previous entry). -/
def fW3 : GulpFile := ⟨str "a.ts", str "x", [], []⟩

/-- Witness for C3: re-ingesting `a.ts` with unchanged content reuses
the stored handle and leaves the changed flag down. -/
theorem C3_addFile_change_detection_witness :
    (addFile stW3 fW3).currentFiles.find? (normalizePath (str "a.ts")) =
        some { file := some fW3, filename := oldW3.filename,
               originalFilename := fW3.path, content := oldW3.content,
               ts := oldW3.ts } ∧
    (addFile stW3 fW3).isFileChanged = stW3.isFileChanged :=
  (C3_addFile_change_detection stW3 fW3).1 oldW3 rfl rfl

/-! ## Claim C9: degenerate behaviour of removeSourceMapComment -/

/-- C9.  The result of `removeSourceMapComment` always ends with the
single appended `'\n'`; in particular when the content has no `'\n'`
at any index at most `length - 2` the whole artifact is discarded and
only `"\n"` remains. -/
theorem C9_removeSourceMapComment_discard :
    (∀ content : Str, ∃ p : Str, removeSourceMapComment content = p ++ ['\n'])
    ∧ (∀ content : Str,
        (∀ j, j + 2 ≤ content.length → content.get? j ≠ some '\n') →
        removeSourceMapComment content = ['\n']) :=
  ⟨fun content =>
    ⟨jsTake content (jsLastIndexOf content '\n' ((content.length : Int) - 2)),
      rfl⟩,
   fun content h => removeSourceMapComment_degenerate content h⟩

/-- Witness for C9: a single-line artifact with trailing newline is
discarded entirely. -/
theorem C9_removeSourceMapComment_discard_witness :
    removeSourceMapComment (str "abc\n") = ['\n'] :=
  C9_removeSourceMapComment_discard.2 (str "abc\n") (by
    intro j hj
    have hlen : (str "abc\n").length = 4 := rfl
    rw [hlen] at hj
    have hj2 : j ≤ 2 := by omega
    interval_cases j <;> decide)

/-! ## Generic preservation through the emission phase

Every path through the emission phase touches the `previousOutputJS`
cache and the pushed list only via the `emit` closure, which appends a
record and the corresponding file in lockstep.  The lemmas below push
an arbitrary relation `R` between cache and pushed list through the
sorted and unsorted drivers. -/

/-- The cache and stream effect of one `emit` call. -/
theorem emitOne_cachePushed (out : Option Str) (smaps : StrMap Str)
    (n : Str) (g : PushedFile) (es : EmitSt) :
    ∃ b : Option Unit,
      (emitOne out smaps n g es).cacheJS =
        es.cacheJS.map (fun l => l ++ [⟨g.path, g.contents, b⟩]) ∧
      (emitOne out smaps n g es).pushed =
        es.pushed ++ [{ g with sourceMap := b }] ∧
      (emitOne out smaps n g es).done = es.done := by
  unfold emitOne
  exact ⟨_, rfl, rfl, rfl⟩

theorem emitPres_visit (out : Option Str) (smaps : StrMap Str)
    (refNames : Str → List Str) (outputs : List PushedFile)
    (R : Option (List OutputFile) → List PushedFile → Prop)
    (hR : ∀ g, g ∈ outputs → ∀ (b : Option Unit) c p, R c p →
        R (c.map (fun l => l ++ [⟨g.path, g.contents, b⟩]))
          (p ++ [{ g with sourceMap := b }])) :
    ∀ (fuel : Nat) (nf : Str × PushedFile) (es : EmitSt), nf.2 ∈ outputs →
      R es.cacheJS es.pushed →
      R (sortedVisit out smaps refNames outputs fuel nf es).cacheJS
        (sortedVisit out smaps refNames outputs fuel nf es).pushed := by
  intro fuel
  induction fuel with
  | zero =>
      intro nf es _ h
      simpa [sortedVisit] using h
  | succ k ih =>
      have hch : ∀ (l : List PushedFile), (∀ x ∈ l, x ∈ outputs) →
          ∀ (refs : List Str) (es : EmitSt),
          R es.cacheJS es.pushed →
          R (visitChildren out smaps refNames outputs k refs l es).cacheJS
            (visitChildren out smaps refNames outputs k refs l es).pushed := by
        intro l
        induction l with
        | nil =>
            intro _ refs es h
            simpa [visitChildren] using h
        | cons other rest ihl =>
            intro hsub refs es h
            simp only [visitChildren]
            by_cases hin : getOriginalName other.path ∈ refs
            · rw [if_pos hin]
              exact ihl (fun x hx => hsub x (List.mem_cons_of_mem other hx))
                refs _
                (ih (getOriginalName other.path, other) es
                  (hsub other (List.mem_cons_self other rest)) h)
            · rw [if_neg hin]
              exact ihl (fun x hx => hsub x (List.mem_cons_of_mem other hx))
                refs es h
      intro nf es hmem h
      simp only [sortedVisit]
      by_cases hd : es.done.contains (normalizePath nf.1) = true
      · rw [if_pos hd]
        exact h
      · rw [if_neg hd]
        have h1 : R ({ es with
            done := es.done.insert (normalizePath nf.1) true } : EmitSt).cacheJS
            ({ es with
            done := es.done.insert (normalizePath nf.1) true } : EmitSt).pushed := h
        have h2 := hch outputs (fun x hx => hx) (refNames (normalizePath nf.1))
          { es with done := es.done.insert (normalizePath nf.1) true } h1
        obtain ⟨b, hc, hp, -⟩ := emitOne_cachePushed out smaps
          (normalizePath nf.1) nf.2
          (visitChildren out smaps refNames outputs k
            (refNames (normalizePath nf.1)) outputs
            { es with done := es.done.insert (normalizePath nf.1) true })
        rw [hc, hp]
        exact hR nf.2 hmem b _ _ h2

theorem emitPres_tops (out : Option Str) (smaps : StrMap Str)
    (refNames : Str → List Str) (outputs : List PushedFile)
    (R : Option (List OutputFile) → List PushedFile → Prop)
    (hR : ∀ g, g ∈ outputs → ∀ (b : Option Unit) c p, R c p →
        R (c.map (fun l => l ++ [⟨g.path, g.contents, b⟩]))
          (p ++ [{ g with sourceMap := b }])) (fuel : Nat) :
    ∀ (l : List PushedFile) (es : EmitSt), (∀ x ∈ l, x ∈ outputs) →
      R es.cacheJS es.pushed →
      R (sortedTops out smaps refNames outputs fuel l es).cacheJS
        (sortedTops out smaps refNames outputs fuel l es).pushed := by
  intro l
  induction l with
  | nil =>
      intro es _ h
      simpa [sortedTops] using h
  | cons f rest ih =>
      intro es hsub h
      simp only [sortedTops]
      exact ih _ (fun x hx => hsub x (List.mem_cons_of_mem f hx))
        (emitPres_visit out smaps refNames outputs R hR fuel
          (getOriginalName f.path, f) es (hsub f (List.mem_cons_self f rest)) h)

theorem emitPres_plain (out : Option Str) (smaps : StrMap Str)
    (outputs : List PushedFile)
    (R : Option (List OutputFile) → List PushedFile → Prop)
    (hR : ∀ g, g ∈ outputs → ∀ (b : Option Unit) c p, R c p →
        R (c.map (fun l => l ++ [⟨g.path, g.contents, b⟩]))
          (p ++ [{ g with sourceMap := b }])) :
    ∀ (l : List PushedFile) (es : EmitSt), (∀ x ∈ l, x ∈ outputs) →
      R es.cacheJS es.pushed →
      R (plainEmitAll out smaps l es).cacheJS
        (plainEmitAll out smaps l es).pushed := by
  intro l
  induction l with
  | nil =>
      intro es _ h
      simpa [plainEmitAll] using h
  | cons f rest ih =>
      intro es hsub h
      simp only [plainEmitAll]
      refine ih _ (fun x hx => hsub x (List.mem_cons_of_mem f hx)) ?_
      obtain ⟨b, hc, hp, -⟩ := emitOne_cachePushed out smaps
        (normalizePath (getOriginalName f.path)) f es
      rw [hc, hp]
      exact hR f (hsub f (List.mem_cons_self f rest)) b _ _ h

/-! ## Classification-loop lemmas -/

/-- Branch equations of the classification loop. -/
theorem classifyOne_eq_skip (st : ProjectState) (acc : ClassAcc)
    (art : Str × Str)
    (h : classifyFound st (getOriginalName (normalizePath art.1)) = none) :
    classifyOne st acc art = acc := by
  simp [classifyOne, h]

theorem classifyOne_eq_js (st : ProjectState) (acc : ClassAcc)
    (art : Str × Str) (pr : FileData × Str)
    (h : classifyFound st (getOriginalName (normalizePath art.1)) = some pr)
    (hjs : (str ".js").isSuffixOf art.1 = true) :
    classifyOne st acc art =
      { acc with outputJS := acc.outputJS ++
          [⟨dropExt pr.2 ++ str ".js", removeSourceMapComment art.2,
            cwdOf pr.1, baseOf pr.1, none⟩] } := by
  simp [classifyOne, h, hjs]

theorem classifyOne_eq_dts (st : ProjectState) (acc : ClassAcc)
    (art : Str × Str) (pr : FileData × Str)
    (h : classifyFound st (getOriginalName (normalizePath art.1)) = some pr)
    (hjs : (str ".js").isSuffixOf art.1 = false)
    (hdts : (str ".d.ts").isSuffixOf art.1 = true) :
    classifyOne st acc art =
      { acc with
        dtsPushed := acc.dtsPushed ++
          [⟨dropExt pr.2 ++ str ".d.ts", art.2, cwdOf pr.1, baseOf pr.1, none⟩]
        dtsCache := acc.dtsCache.map
          (fun l => l ++ [⟨dropExt pr.2 ++ str ".d.ts", art.2, none⟩]) } := by
  simp [classifyOne, h, hjs, hdts]

theorem classifyOne_eq_map (st : ProjectState) (acc : ClassAcc)
    (art : Str × Str) (pr : FileData × Str)
    (h : classifyFound st (getOriginalName (normalizePath art.1)) = some pr)
    (hjs : (str ".js").isSuffixOf art.1 = false)
    (hdts : (str ".d.ts").isSuffixOf art.1 = false)
    (hmap : (str ".map").isSuffixOf art.1 = true) :
    classifyOne st acc art =
      { acc with smaps := (acc.smaps.insert
          (smapKey st (getOriginalName (normalizePath art.1))) art.2) } := by
  simp [classifyOne, h, hjs, hdts, hmap]

theorem classifyOne_eq_other (st : ProjectState) (acc : ClassAcc)
    (art : Str × Str) (pr : FileData × Str)
    (h : classifyFound st (getOriginalName (normalizePath art.1)) = some pr)
    (hjs : (str ".js").isSuffixOf art.1 = false)
    (hdts : (str ".d.ts").isSuffixOf art.1 = false)
    (hmap : (str ".map").isSuffixOf art.1 = false) :
    classifyOne st acc art = acc := by
  simp [classifyOne, h, hjs, hdts, hmap]

/-- Case analysis skeleton over the classification branches. -/
theorem classifyOne_cases (st : ProjectState) (acc : ClassAcc)
    (art : Str × Str) (P : ClassAcc → Prop)
    (hskip : P acc)
    (hjsc : ∀ pr : FileData × Str,
      classifyFound st (getOriginalName (normalizePath art.1)) = some pr →
      (str ".js").isSuffixOf art.1 = true →
      P { acc with outputJS := acc.outputJS ++
          [⟨dropExt pr.2 ++ str ".js", removeSourceMapComment art.2,
            cwdOf pr.1, baseOf pr.1, none⟩] })
    (hdtsc : ∀ pr : FileData × Str,
      classifyFound st (getOriginalName (normalizePath art.1)) = some pr →
      (str ".d.ts").isSuffixOf art.1 = true →
      P { acc with
          dtsPushed := acc.dtsPushed ++
            [⟨dropExt pr.2 ++ str ".d.ts", art.2, cwdOf pr.1, baseOf pr.1, none⟩]
          dtsCache := acc.dtsCache.map
            (fun l => l ++ [⟨dropExt pr.2 ++ str ".d.ts", art.2, none⟩]) })
    (hmapc : ∀ k : Str, P { acc with smaps := acc.smaps.insert k art.2 }) :
    P (classifyOne st acc art) := by
  cases hf : classifyFound st (getOriginalName (normalizePath art.1)) with
  | none => rw [classifyOne_eq_skip st acc art hf]; exact hskip
  | some pr =>
      by_cases hjs : (str ".js").isSuffixOf art.1 = true
      · rw [classifyOne_eq_js st acc art pr hf hjs]
        exact hjsc pr hf hjs
      · have hjs' : (str ".js").isSuffixOf art.1 = false :=
          Bool.eq_false_iff.mpr hjs
        by_cases hdts : (str ".d.ts").isSuffixOf art.1 = true
        · rw [classifyOne_eq_dts st acc art pr hf hjs' hdts]
          exact hdtsc pr hf hdts
        · have hdts' : (str ".d.ts").isSuffixOf art.1 = false :=
            Bool.eq_false_iff.mpr hdts
          by_cases hmap : (str ".map").isSuffixOf art.1 = true
          · rw [classifyOne_eq_map st acc art pr hf hjs' hdts' hmap]
            exact hmapc _
          · have hmap' : (str ".map").isSuffixOf art.1 = false :=
              Bool.eq_false_iff.mpr hmap
            rw [classifyOne_eq_other st acc art pr hf hjs' hdts' hmap']
            exact hskip

theorem classifyOne_dtsCache_none (st : ProjectState) (acc : ClassAcc)
    (art : Str × Str) (h : acc.dtsCache = none) :
    (classifyOne st acc art).dtsCache = none := by
  apply classifyOne_cases st acc art (fun a => a.dtsCache = none)
  · exact h
  · intro pr _ _; exact h
  · intro pr _ _; simp [h]
  · intro k; exact h

theorem classify_dtsCache_none (st : ProjectState) (l : List (Str × Str)) :
    ∀ acc : ClassAcc, acc.dtsCache = none →
      (l.foldl (classifyOne st) acc).dtsCache = none := by
  induction l with
  | nil => intro acc h; exact h
  | cons a rest ih =>
      intro acc h
      exact ih (classifyOne st acc a) (classifyOne_dtsCache_none st acc a h)

/-- The cached declaration records mirror the pushed declaration files
entry by entry. -/
theorem classifyOne_dts_lockstep (st : ProjectState) (acc : ClassAcc)
    (art : Str × Str)
    (h : acc.dtsCache =
        some (acc.dtsPushed.map (fun f => ⟨f.path, f.contents, none⟩))) :
    (classifyOne st acc art).dtsCache =
      some ((classifyOne st acc art).dtsPushed.map
        (fun f => ⟨f.path, f.contents, none⟩)) := by
  apply classifyOne_cases st acc art
    (fun a => a.dtsCache =
      some (a.dtsPushed.map (fun f => ⟨f.path, f.contents, none⟩)))
  · exact h
  · intro pr _ _; exact h
  · intro pr _ _; simp [h]
  · intro k; exact h

theorem classify_dts_lockstep (st : ProjectState) (l : List (Str × Str)) :
    ∀ acc : ClassAcc,
      acc.dtsCache =
        some (acc.dtsPushed.map (fun f => ⟨f.path, f.contents, none⟩)) →
      (l.foldl (classifyOne st) acc).dtsCache =
        some ((l.foldl (classifyOne st) acc).dtsPushed.map
          (fun f => ⟨f.path, f.contents, none⟩)) := by
  induction l with
  | nil => intro acc h; exact h
  | cons a rest ih =>
      intro acc h
      exact ih (classifyOne st acc a) (classifyOne_dts_lockstep st acc a h)

/-- Every JavaScript artifact collected by the classification loop is
the source-map-comment-stripped content of an engine output whose name
ends in `.js`. -/
theorem classifyOne_outputJS_src (st : ProjectState) (acc : ClassAcc)
    (art : Str × Str) :
    ∀ g ∈ (classifyOne st acc art).outputJS,
      g ∈ acc.outputJS ∨
        ((str ".js").isSuffixOf art.1 = true ∧
         g.contents = removeSourceMapComment art.2) := by
  apply classifyOne_cases st acc art
    (fun a => ∀ g ∈ a.outputJS,
      g ∈ acc.outputJS ∨
        ((str ".js").isSuffixOf art.1 = true ∧
         g.contents = removeSourceMapComment art.2))
  · intro g hg; exact Or.inl hg
  · intro pr _ hjs g hg
    rcases List.mem_append.mp hg with h1 | h2
    · exact Or.inl h1
    · rcases List.mem_singleton.mp h2 with rfl
      exact Or.inr ⟨hjs, rfl⟩
  · intro pr _ _ g hg; exact Or.inl hg
  · intro k g hg; exact Or.inl hg

theorem classify_outputJS_src (st : ProjectState) (eo : List (Str × Str)) :
    ∀ (l : List (Str × Str)), (∀ a ∈ l, a ∈ eo) →
      ∀ acc : ClassAcc,
      (∀ g ∈ acc.outputJS, ∃ a, a ∈ eo ∧ (str ".js").isSuffixOf a.1 = true ∧
          g.contents = removeSourceMapComment a.2) →
      ∀ g ∈ (l.foldl (classifyOne st) acc).outputJS,
        ∃ a, a ∈ eo ∧ (str ".js").isSuffixOf a.1 = true ∧
          g.contents = removeSourceMapComment a.2 := by
  intro l
  induction l with
  | nil => intro _ acc hacc; exact hacc
  | cons a rest ih =>
      intro hsub acc hacc
      refine ih (fun x hx => hsub x (List.mem_cons_of_mem a hx))
        (classifyOne st acc a) ?_
      intro g hg
      rcases classifyOne_outputJS_src st acc a g hg with h1 | h2
      · exact hacc g h1
      · exact ⟨a, hsub a (List.mem_cons_self a rest), h2.1, h2.2⟩

/-! ## Projections of compile -/

@[simp] theorem compile_state_currentFiles (st : ProjectState)
    (rn : Str → List Str) (eo : List (Str × Str)) (d : Nat) :
    (compile st rn eo d).state.currentFiles = st.currentFiles := rfl

@[simp] theorem compile_state_previousFiles (st : ProjectState)
    (rn : Str → List Str) (eo : List (Str × Str)) (d : Nat) :
    (compile st rn eo d).state.previousFiles = st.previousFiles := rfl

@[simp] theorem compile_state_isFileChanged (st : ProjectState)
    (rn : Str → List Str) (eo : List (Str × Str)) (d : Nat) :
    (compile st rn eo d).state.isFileChanged = st.isFileChanged := rfl

@[simp] theorem compile_state_version (st : ProjectState)
    (rn : Str → List Str) (eo : List (Str × Str)) (d : Nat) :
    (compile st rn eo d).state.version = st.version := rfl

/-! ## Cache state after compile -/

theorem compileEmit_cacheJS_none (st : ProjectState) (rn : Str → List Str)
    (eo : List (Str × Str)) (d : Nat) (hd : d ≠ 0) :
    (compileEmit st rn eo d).cacheJS = none := by
  unfold compileEmit
  have h0 : (⟨StrMap.empty, if d ≠ 0 then none else some [], []⟩ : EmitSt).cacheJS
      = none := by simp [hd]
  by_cases hs : st.sortOutput = true
  · rw [if_pos hs]
    exact emitPres_tops st.optionsOut (compileAcc st eo d).smaps rn
      (compileAcc st eo d).outputJS (fun c _ => c = none)
      (by intro g _ b c p h; rw [h]; rfl)
      ((compileAcc st eo d).outputJS.length + 1)
      (compileAcc st eo d).outputJS _ (fun x hx => hx) h0
  · rw [if_neg hs]
    exact emitPres_plain st.optionsOut (compileAcc st eo d).smaps
      (compileAcc st eo d).outputJS (fun c _ => c = none)
      (by intro g _ b c p h; rw [h]; rfl)
      (compileAcc st eo d).outputJS _ (fun x hx => hx) h0

theorem compileEmit_cacheJS_some (st : ProjectState) (rn : Str → List Str)
    (eo : List (Str × Str)) (d : Nat) (hd : d = 0) :
    (compileEmit st rn eo d).cacheJS =
      some ((compileEmit st rn eo d).pushed.map
        (fun f => ⟨f.path, f.contents, f.sourceMap⟩)) := by
  have hR : ∀ g, g ∈ (compileAcc st eo d).outputJS → ∀ (b : Option Unit)
      (c : Option (List OutputFile)) (p : List PushedFile),
      (fun c p => c = some (p.map (fun f =>
        (⟨f.path, f.contents, f.sourceMap⟩ : OutputFile)))) c p →
      (fun c p => c = some (p.map (fun f =>
        (⟨f.path, f.contents, f.sourceMap⟩ : OutputFile))))
        (c.map (fun l => l ++ [⟨g.path, g.contents, b⟩]))
        (p ++ [{ g with sourceMap := b }]) := by
    intro g _ b c p h
    rw [h]
    simp
  have h0 : (⟨StrMap.empty, if d ≠ 0 then none else some [], []⟩ : EmitSt).cacheJS
      = some ((⟨StrMap.empty, if d ≠ 0 then none else some [], []⟩ : EmitSt).pushed.map
        (fun f => ⟨f.path, f.contents, f.sourceMap⟩)) := by simp [hd]
  unfold compileEmit
  by_cases hs : st.sortOutput = true
  · rw [if_pos hs]
    exact emitPres_tops st.optionsOut (compileAcc st eo d).smaps rn
      (compileAcc st eo d).outputJS _ hR
      ((compileAcc st eo d).outputJS.length + 1)
      (compileAcc st eo d).outputJS _ (fun x hx => hx) h0
  · rw [if_neg hs]
    exact emitPres_plain st.optionsOut (compileAcc st eo d).smaps
      (compileAcc st eo d).outputJS _ hR
      (compileAcc st eo d).outputJS _ (fun x hx => hx) h0

theorem compileAcc_dtsCache_none (st : ProjectState) (eo : List (Str × Str))
    (d : Nat) (hd : d ≠ 0) : (compileAcc st eo d).dtsCache = none := by
  unfold compileAcc
  apply classify_dtsCache_none
  simp [hd]

theorem compileAcc_dtsCache_some (st : ProjectState) (eo : List (Str × Str))
    (d : Nat) (hd : d = 0) :
    (compileAcc st eo d).dtsCache =
      some ((compileAcc st eo d).dtsPushed.map
        (fun f => ⟨f.path, f.contents, none⟩)) := by
  unfold compileAcc
  apply classify_dts_lockstep
  simp [hd]

/-- Every emitted JavaScript file's contents is the stripped content
of an engine artifact whose name ends in `.js`. -/
theorem compileEmit_pushed_src (st : ProjectState) (rn : Str → List Str)
    (eo : List (Str × Str)) (d : Nat) :
    ∀ f ∈ (compileEmit st rn eo d).pushed,
      ∃ a : Str × Str, a ∈ eo ∧ (str ".js").isSuffixOf a.1 = true ∧
        f.contents = removeSourceMapComment a.2 := by
  have hout : ∀ g ∈ (compileAcc st eo d).outputJS,
      ∃ a : Str × Str, a ∈ eo ∧ (str ".js").isSuffixOf a.1 = true ∧
        g.contents = removeSourceMapComment a.2 := by
    intro g hg
    obtain ⟨a, ha, hsuf, hc⟩ := classify_outputJS_src st eo eo
      (fun x hx => hx) ⟨[], [], if d ≠ 0 then none else some [], StrMap.empty⟩
      (by intro g hg; exact absurd hg (List.not_mem_nil g)) g hg
    exact ⟨a, ha, hsuf, hc⟩
  have hR : ∀ g, g ∈ (compileAcc st eo d).outputJS → ∀ (b : Option Unit)
      (c : Option (List OutputFile)) (p : List PushedFile),
      (fun _ p => ∀ f ∈ p,
        ∃ a : Str × Str, a ∈ eo ∧ (str ".js").isSuffixOf a.1 = true ∧
          f.contents = removeSourceMapComment a.2) c p →
      (fun _ p => ∀ f ∈ p,
        ∃ a : Str × Str, a ∈ eo ∧ (str ".js").isSuffixOf a.1 = true ∧
          f.contents = removeSourceMapComment a.2)
        (c.map (fun l => l ++ [⟨g.path, g.contents, b⟩]))
        (p ++ [{ g with sourceMap := b }]) := by
    intro g hg b c p h f hf
    rcases List.mem_append.mp hf with h1 | h2
    · exact h f h1
    · rcases List.mem_singleton.mp h2 with rfl
      exact hout g hg
  have h0 : ∀ f ∈ (⟨StrMap.empty, if d ≠ 0 then none else some [], []⟩ : EmitSt).pushed,
      ∃ a : Str × Str, a ∈ eo ∧ (str ".js").isSuffixOf a.1 = true ∧
        f.contents = removeSourceMapComment a.2 := by
    intro f hf
    exact absurd hf (List.not_mem_nil f)
  unfold compileEmit
  by_cases hs : st.sortOutput = true
  · rw [if_pos hs]
    exact emitPres_tops st.optionsOut (compileAcc st eo d).smaps rn
      (compileAcc st eo d).outputJS _ hR
      ((compileAcc st eo d).outputJS.length + 1)
      (compileAcc st eo d).outputJS _ (fun x hx => hx) h0
  · rw [if_neg hs]
    exact emitPres_plain st.optionsOut (compileAcc st eo d).smaps
      (compileAcc st eo d).outputJS _ hR
      (compileAcc st eo d).outputJS _ (fun x hx => hx) h0

/-! ## Claim C4: failure invalidation -/

/-- C4.  A generation with at least one diagnostic leaves both output
caches `undefined` (so the following generation cannot replay even
with unchanged inputs); a zero-diagnostic generation (re)initializes
the caches and populates them with exactly the emitted artifacts. -/
theorem C4_failure_invalidation (st : ProjectState) (rn : Str → List Str)
    (eo : List (Str × Str)) (d : Nat) :
    (d ≠ 0 →
      (compile st rn eo d).state.previousOutputJS = none ∧
      (compile st rn eo d).state.previousOutputDts = none ∧
      ∀ inputs : List GulpFile,
        (lazyCompile (addFiles (reset (compile st rn eo d).state) inputs)).ok
          = false)
    ∧ (d = 0 →
      (compile st rn eo d).state.previousOutputJS =
        some ((compile st rn eo d).jsFiles.map
          (fun f => ⟨f.path, f.contents, f.sourceMap⟩)) ∧
      (compile st rn eo d).state.previousOutputDts =
        some ((compile st rn eo d).dtsFiles.map
          (fun f => ⟨f.path, f.contents, none⟩))) := by
  constructor
  · intro hd
    have hj : (compile st rn eo d).state.previousOutputJS = none :=
      compileEmit_cacheJS_none st rn eo d hd
    have hdts : (compile st rn eo d).state.previousOutputDts = none :=
      compileAcc_dtsCache_none st eo d hd
    refine ⟨hj, hdts, ?_⟩
    intro inputs
    have h1 : (addFiles (reset (compile st rn eo d).state) inputs).previousOutputJS
        = none := by
      rw [addFiles_previousOutputJS]
      exact hj
    have hcond : lazyCompileCond
        (addFiles (reset (compile st rn eo d).state) inputs) = false := by
      unfold lazyCompileCond
      rw [h1]
      simp
    unfold lazyCompile
    rw [hcond]
    simp
  · intro hd
    exact ⟨compileEmit_cacheJS_some st rn eo d hd,
      compileAcc_dtsCache_some st eo d hd⟩

/-- Witness for C4: one diagnostic clears both caches and blocks the
next generation's replay. -/
theorem C4_failure_invalidation_witness :
    (compile (mkProject none false false) (fun _ => []) [] 1).state.previousOutputJS
        = none ∧
    (compile (mkProject none false false) (fun _ => []) [] 1).state.previousOutputDts
        = none ∧
    (lazyCompile (addFiles
      (reset (compile (mkProject none false false) (fun _ => []) [] 1).state)
      [])).ok = false := by
  obtain ⟨h1, h2, h3⟩ :=
    (C4_failure_invalidation (mkProject none false false) (fun _ => []) [] 1).1
      (by decide)
  exact ⟨h1, h2, h3 []⟩

/-! ## Claim C5: source-map comment stripping -/

/-- C5.  `removeSourceMapComment` truncates at the last line terminator
preceding the final line (the last `'\n'` at an index at most
`length - 2`) and appends exactly one `'\n'`; this trimming is applied
to every primary-script artifact that `compile` pushes, and therefore
also to every record it caches for replay. -/
theorem C5_removeSourceMapComment_applied :
    (∀ (content : Str) (i : Nat),
        i + 2 ≤ content.length →
        content.get? i = some '\n' →
        (∀ j, i < j → j + 2 ≤ content.length → content.get? j ≠ some '\n') →
        removeSourceMapComment content = content.take i ++ ['\n'])
    ∧ (∀ (st : ProjectState) (rn : Str → List Str) (eo : List (Str × Str))
         (d : Nat),
        ∀ f ∈ (compile st rn eo d).jsFiles,
          ∃ a : Str × Str, a ∈ eo ∧ (str ".js").isSuffixOf a.1 = true ∧
            f.contents = removeSourceMapComment a.2)
    ∧ (∀ (st : ProjectState) (rn : Str → List Str) (eo : List (Str × Str))
         (d : Nat),
        ∀ r ∈ ((compile st rn eo d).state.previousOutputJS.getD []),
          ∃ a : Str × Str, a ∈ eo ∧ (str ".js").isSuffixOf a.1 = true ∧
            r.content = removeSourceMapComment a.2) := by
  refine ⟨removeSourceMapComment_of_last_newline, ?_, ?_⟩
  · intro st rn eo d f hf
    exact compileEmit_pushed_src st rn eo d f hf
  · intro st rn eo d r hr
    by_cases hd : d = 0
    · have hsome := compileEmit_cacheJS_some st rn eo d hd
      have : (compile st rn eo d).state.previousOutputJS.getD [] =
          (compileEmit st rn eo d).pushed.map
            (fun f => ⟨f.path, f.contents, f.sourceMap⟩) := by
        show (compileEmit st rn eo d).cacheJS.getD [] = _
        rw [hsome]
        rfl
      rw [this] at hr
      obtain ⟨f, hf, hfr⟩ := List.mem_map.mp hr
      obtain ⟨a, ha, hsuf, hc⟩ := compileEmit_pushed_src st rn eo d f hf
      refine ⟨a, ha, hsuf, ?_⟩
      rw [← hfr]
      exact hc
    · have hnone := compileEmit_cacheJS_none st rn eo d hd
      have : (compile st rn eo d).state.previousOutputJS.getD [] = [] := by
        show (compileEmit st rn eo d).cacheJS.getD [] = _
        rw [hnone]
        rfl
      rw [this] at hr
      exact absurd hr (List.not_mem_nil r)

/-- Witness for C5: trimming a two-line artifact keeps the first line
and one line break. -/
theorem C5_removeSourceMapComment_applied_witness :
    removeSourceMapComment (str "ab\nc\n") = (str "ab\nc\n").take 2 ++ ['\n'] :=
  C5_removeSourceMapComment_applied.1 (str "ab\nc\n") 2 (by decide) (by decide)
    (by
      intro j hj hj2
      have hlen : (str "ab\nc\n").length = 5 := rfl
      rw [hlen] at hj2
      have : j = 3 := by omega
      subst this
      decide)

/-! ## Resolver invariants -/

/-- The outstanding-task counter always equals the number of pending
reads, and the completion callback has fired exactly when no read is
pending. -/
def taskInv (r : RState) : Prop :=
  r.tasks = (r.pending.length : Int) ∧
  r.fired = (if r.pending = [] then 1 else 0)

/-- The C8 invariants: `additionalFiles` never collides with
`currentFiles`, each normalized reference path is read at most once
(`issued` has no duplicates), every issued path is occupied in
`additionalFiles` from issue time on, and every pending read's slot is
occupied. -/
def resolverInv (r : RState) : Prop :=
  (∀ k : Str, r.additional.contains k = true → r.current.contains k = false) ∧
  r.issued.Nodup ∧
  (∀ n ∈ r.issued, r.additional.contains n = true) ∧
  (∀ pr ∈ r.pending, r.additional.contains pr.normalizedRef = true)

theorem StrMap.contains_mono {α : Type} (m : StrMap α) (k k' : Str) (v : α)
    (h : m.contains k' = true) : (m.insert k v).contains k' = true := by
  rw [StrMap.contains_insert, h]
  rfl

theorem resolveOneRef_taskDiff (r : RState) (ref : Str) :
    (resolveOneRef r ref).tasks - ((resolveOneRef r ref).pending.length : Int)
      = r.tasks - (r.pending.length : Int) ∧
    (resolveOneRef r ref).fired = r.fired ∧
    (resolveOneRef r ref).current = r.current := by
  unfold resolveOneRef
  by_cases h : (r.current.contains (normalizePath ref)
      || r.additional.contains (normalizePath ref)) = true
  · rw [if_pos h]
    exact ⟨rfl, rfl, rfl⟩
  · rw [if_neg h]
    refine ⟨?_, rfl, rfl⟩
    show r.tasks + 1
        - ((r.pending ++ [(⟨ref, normalizePath ref⟩ : PendingRead)]).length : Int)
      = r.tasks - (r.pending.length : Int)
    rw [List.length_append, List.length_singleton]
    push_cast
    omega

theorem resolveRefs_taskDiff (references : List Str) :
    ∀ r : RState,
    (resolveRefs r references).tasks
        - ((resolveRefs r references).pending.length : Int)
      = r.tasks - (r.pending.length : Int) ∧
    (resolveRefs r references).fired = r.fired ∧
    (resolveRefs r references).current = r.current := by
  induction references with
  | nil => intro r; exact ⟨rfl, rfl, rfl⟩
  | cons ref rest ih =>
      intro r
      have h1 := resolveOneRef_taskDiff r ref
      have h2 := ih (resolveOneRef r ref)
      exact ⟨by rw [show resolveRefs r (ref :: rest)
            = resolveRefs (resolveOneRef r ref) rest from rfl, h2.1, h1.1],
        by rw [show resolveRefs r (ref :: rest)
            = resolveRefs (resolveOneRef r ref) rest from rfl, h2.2.1, h1.2.1],
        by rw [show resolveRefs r (ref :: rest)
            = resolveRefs (resolveOneRef r ref) rest from rfl, h2.2.2, h1.2.2]⟩

theorem resolveSeed_taskDiff (refsOf : FileData → List Str)
    (fds : List FileData) :
    ∀ r : RState,
    (resolveSeed refsOf r fds).tasks
        - ((resolveSeed refsOf r fds).pending.length : Int)
      = r.tasks - (r.pending.length : Int) ∧
    (resolveSeed refsOf r fds).fired = r.fired ∧
    (resolveSeed refsOf r fds).current = r.current := by
  induction fds with
  | nil => intro r; exact ⟨rfl, rfl, rfl⟩
  | cons fd rest ih =>
      intro r
      have h1 := resolveRefs_taskDiff (refsOf fd) r
      have h2 := ih (resolveRefs r (refsOf fd))
      exact ⟨by rw [show resolveSeed refsOf r (fd :: rest)
            = resolveSeed refsOf (resolveRefs r (refsOf fd)) rest from rfl,
          h2.1, h1.1],
        by rw [show resolveSeed refsOf r (fd :: rest)
            = resolveSeed refsOf (resolveRefs r (refsOf fd)) rest from rfl,
          h2.2.1, h1.2.1],
        by rw [show resolveSeed refsOf r (fd :: rest)
            = resolveSeed refsOf (resolveRefs r (refsOf fd)) rest from rfl,
          h2.2.2, h1.2.2]⟩

theorem resolveAllStart_taskInv (refsOf : FileData → List Str)
    (st : ProjectState) : taskInv (resolveAllStart refsOf st) := by
  unfold resolveAllStart taskInv
  by_cases hn : st.noExternalResolve = true
  · rw [if_pos hn]
    exact ⟨rfl, rfl⟩
  · rw [if_neg hn]
    obtain ⟨hdiff, hfired, -⟩ := resolveSeed_taskDiff refsOf
      st.currentFiles.values ⟨st.currentFiles, st.additionalFiles, 0, [], 0, []⟩
    set r := resolveSeed refsOf
      ⟨st.currentFiles, st.additionalFiles, 0, [], 0, []⟩ st.currentFiles.values
      with hr
    have htp : r.tasks = (r.pending.length : Int) := by
      have : r.tasks - (r.pending.length : Int) = 0 - 0 := hdiff
      omega
    by_cases hz : r.tasks = 0
    · rw [if_pos hz]
      have hpe : r.pending = [] := by
        have : (r.pending.length : Int) = 0 := by omega
        have : r.pending.length = 0 := by omega
        exact List.length_eq_zero.mp this
      exact ⟨by show r.tasks = _; rw [htp], by show r.fired + 1 = _; rw [hfired, hpe]; rfl⟩
    · rw [if_neg hz]
      have hpne : r.pending ≠ [] := by
        intro hpe
        apply hz
        rw [htp, hpe]
        rfl
      exact ⟨htp, by rw [hfired, if_neg hpne]⟩

theorem deliverCore_taskDiff (refsOf : FileData → List Str)
    (readResult : Str → Option Str) (version : Nat) (r : RState)
    (pr : PendingRead) (idx : Nat) :
    (deliverCore refsOf readResult version r pr idx).tasks
        - ((deliverCore refsOf readResult version r pr idx).pending.length : Int)
      = r.tasks - ((r.pending.eraseIdx idx).length : Int) ∧
    (deliverCore refsOf readResult version r pr idx).fired = r.fired ∧
    (deliverCore refsOf readResult version r pr idx).current = r.current := by
  unfold deliverCore
  cases hread : readResult pr.ref with
  | none => exact ⟨rfl, rfl, rfl⟩
  | some data =>
      obtain ⟨h1, h2, h3⟩ := resolveRefs_taskDiff
        (refsOf (mkFileData pr.ref data version))
        { r with
          pending := r.pending.eraseIdx idx
          additional := (r.additional.insert pr.normalizedRef
            (FDEntry.data (mkFileData pr.ref data version))) }
      exact ⟨by rw [h1], h2, h3⟩

theorem finishTask_taskInv (r2 : RState)
    (ht2 : r2.tasks = (r2.pending.length : Int) + 1)
    (hf : r2.fired = 0) : taskInv (finishTask r2) := by
  unfold finishTask
  by_cases hz : r2.tasks - 1 = 0
  · rw [if_pos hz]
    have hpe : r2.pending = [] := List.length_eq_zero.mp (by omega)
    refine ⟨?_, ?_⟩
    · show r2.tasks - 1 = (r2.pending.length : Int)
      omega
    · show r2.fired + 1 = if r2.pending = [] then 1 else 0
      rw [hf, hpe, if_pos rfl]
  · rw [if_neg hz]
    have hpne : r2.pending ≠ [] := by
      intro hpe
      apply hz
      rw [ht2, hpe]
      simp
    refine ⟨?_, ?_⟩
    · show r2.tasks - 1 = (r2.pending.length : Int)
      omega
    · show r2.fired = if r2.pending = [] then 1 else 0
      rw [hf, if_neg hpne]

theorem deliver_taskInv (refsOf : FileData → List Str)
    (readResult : Str → Option Str) (version : Nat) (r : RState) (idx : Nat)
    (h : taskInv r) : taskInv (deliver refsOf readResult version r idx) := by
  unfold deliver
  cases hget : r.pending.get? idx with
  | none => exact h
  | some pr =>
      show taskInv (finishTask (deliverCore refsOf readResult version r pr idx))
      have hidx : idx < r.pending.length := by
        by_cases hlt : idx < r.pending.length
        · exact hlt
        · rw [List.get?_eq_none.mpr (le_of_not_lt hlt)] at hget
          exact absurd hget (by simp)
      have hlen : (r.pending.eraseIdx idx).length = r.pending.length - 1 :=
        List.length_eraseIdx_of_lt hidx
      have hne : r.pending ≠ [] := by
        intro hpe
        rw [hpe] at hidx
        exact absurd hidx (by simp)
      have hfired0 : r.fired = 0 := by
        rw [h.2, if_neg hne]
      obtain ⟨hdiff, hfired, -⟩ :=
        deliverCore_taskDiff refsOf readResult version r pr idx
      have hpos : 1 ≤ r.pending.length := Nat.one_le_iff_ne_zero.mpr
        (fun h0 => hne (List.length_eq_zero.mp h0))
      apply finishTask_taskInv
      · have := h.1
        rw [hlen] at hdiff
        omega
      · rw [hfired, hfired0]

/-- A full resolution run keeps the counter / callback invariant. -/
theorem runResolution_taskInv (refsOf : FileData → List Str)
    (readResult : Str → Option Str) (version : Nat) (st : ProjectState)
    (trace : List Nat) :
    taskInv (runResolution refsOf readResult version st trace) := by
  unfold runResolution
  have h0 := resolveAllStart_taskInv refsOf st
  revert h0
  generalize resolveAllStart refsOf st = r0
  intro h0
  induction trace generalizing r0 with
  | nil => exact h0
  | cons idx rest ih =>
      exact ih (deliver refsOf readResult version r0 idx)
        (deliver_taskInv refsOf readResult version r0 idx h0)

/-! ## Claim C7: the completion callback fires exactly once -/

/-- C7.  Over any schedule of read completions the callback count is 1
exactly when no read is outstanding and 0 before (so it fires exactly
once per run, when the counter returns to zero); with external
resolution disabled, or when no unresolved reference exists, it has
already fired synchronously. -/
theorem C7_resolveAll_callback_once :
    (∀ (refsOf : FileData → List Str) (readResult : Str → Option Str)
       (version : Nat) (st : ProjectState) (trace : List Nat),
      (runResolution refsOf readResult version st trace).fired =
        (if (runResolution refsOf readResult version st trace).pending = []
         then 1 else 0))
    ∧ (∀ (refsOf : FileData → List Str) (st : ProjectState),
        st.noExternalResolve = true →
        (resolveAllStart refsOf st).fired = 1 ∧
        (resolveAllStart refsOf st).pending = [])
    ∧ (∀ (refsOf : FileData → List Str) (st : ProjectState),
        (resolveAllStart refsOf st).tasks = 0 →
        (resolveAllStart refsOf st).fired = 1 ∧
        (resolveAllStart refsOf st).pending = []) := by
  refine ⟨?_, ?_, ?_⟩
  · intro refsOf readResult version st trace
    exact (runResolution_taskInv refsOf readResult version st trace).2
  · intro refsOf st hn
    unfold resolveAllStart
    rw [if_pos hn]
    exact ⟨rfl, rfl⟩
  · intro refsOf st h0
    have hti := resolveAllStart_taskInv refsOf st
    have hpe : (resolveAllStart refsOf st).pending = [] := by
      have h1 := hti.1
      rw [h0] at h1
      exact List.length_eq_zero.mp (by omega)
    refine ⟨?_, hpe⟩
    rw [hti.2, if_pos hpe]

/-- Witness for C7: with external resolution disabled the callback has
fired exactly once, synchronously. -/
theorem C7_resolveAll_callback_once_witness :
    (resolveAllStart (fun _ => []) (mkProject none true false)).fired = 1 ∧
    (resolveAllStart (fun _ => []) (mkProject none true false)).pending = [] :=
  C7_resolveAll_callback_once.2.1 (fun _ => []) (mkProject none true false) rfl

/-! ## Claim C8: file-set disjointness and the single-read guarantee -/

theorem resolveOneRef_resolverInv (r : RState) (ref : Str)
    (h : resolverInv r) : resolverInv (resolveOneRef r ref) := by
  unfold resolveOneRef
  by_cases hg : (r.current.contains (normalizePath ref)
      || r.additional.contains (normalizePath ref)) = true
  · rw [if_pos hg]
    exact h
  · rw [if_neg hg]
    have hor : (r.current.contains (normalizePath ref)
        || r.additional.contains (normalizePath ref)) = false :=
      Bool.eq_false_iff.mpr hg
    obtain ⟨hcur, hadd⟩ := Bool.or_eq_false_iff.mp hor
    obtain ⟨h1, h2, h3, h4⟩ := h
    refine ⟨?_, ?_, ?_, ?_⟩
    · intro k hk
      show r.current.contains k = false
      rw [StrMap.contains_insert] at hk
      rcases Bool.or_eq_true_iff.mp hk with ha | hb
      · exact h1 k ha
      · have : k = normalizePath ref := of_decide_eq_true hb
        rw [this]
        exact hcur
    · show (r.issued ++ [normalizePath ref]).Nodup
      refine List.Nodup.append h2 (List.nodup_singleton _) ?_
      intro a ha hb
      rw [List.mem_singleton] at hb
      rw [← hb] at hadd
      rw [h3 a ha] at hadd
      exact Bool.noConfusion hadd
    · intro n hn
      show (r.additional.insert _ _).contains n = true
      rcases List.mem_append.mp hn with ha | hb
      · exact StrMap.contains_mono _ _ _ _ (h3 n ha)
      · rw [List.mem_singleton] at hb
        subst hb
        rw [StrMap.contains_insert]
        simp
    · intro pr hpr
      show (r.additional.insert _ _).contains pr.normalizedRef = true
      rcases List.mem_append.mp hpr with ha | hb
      · exact StrMap.contains_mono _ _ _ _ (h4 pr ha)
      · rw [List.mem_singleton] at hb
        subst hb
        rw [StrMap.contains_insert]
        simp

theorem resolveRefs_resolverInv (references : List Str) :
    ∀ r : RState, resolverInv r → resolverInv (resolveRefs r references) := by
  induction references with
  | nil => intro r h; exact h
  | cons ref rest ih =>
      intro r h
      exact ih (resolveOneRef r ref) (resolveOneRef_resolverInv r ref h)

theorem resolveSeed_resolverInv (refsOf : FileData → List Str)
    (fds : List FileData) :
    ∀ r : RState, resolverInv r → resolverInv (resolveSeed refsOf r fds) := by
  induction fds with
  | nil => intro r h; exact h
  | cons fd rest ih =>
      intro r h
      exact ih (resolveRefs r (refsOf fd))
        (resolveRefs_resolverInv (refsOf fd) r h)

theorem deliverCore_resolverInv (refsOf : FileData → List Str)
    (readResult : Str → Option Str) (version : Nat) (r : RState)
    (pr : PendingRead) (idx : Nat) (h : resolverInv r)
    (hpr : r.additional.contains pr.normalizedRef = true) :
    resolverInv (deliverCore refsOf readResult version r pr idx) := by
  obtain ⟨h1, h2, h3, h4⟩ := h
  have hr1 : resolverInv { r with pending := r.pending.eraseIdx idx } := by
    refine ⟨h1, h2, h3, ?_⟩
    intro q hq
    exact h4 q ((List.eraseIdx_sublist r.pending idx).subset hq)
  unfold deliverCore
  cases hread : readResult pr.ref with
  | none => exact hr1
  | some data =>
      apply resolveRefs_resolverInv
      obtain ⟨g1, g2, g3, g4⟩ := hr1
      refine ⟨?_, g2, ?_, ?_⟩
      · intro k hk
        rw [StrMap.contains_insert] at hk
        rcases Bool.or_eq_true_iff.mp hk with ha | hb
        · exact g1 k ha
        · have : k = pr.normalizedRef := of_decide_eq_true hb
          rw [this]
          exact h1 pr.normalizedRef hpr
      · intro n hn
        exact StrMap.contains_mono _ _ _ _ (g3 n hn)
      · intro q hq
        exact StrMap.contains_mono _ _ _ _ (g4 q hq)

theorem finishTask_resolverInv (r : RState) (h : resolverInv r) :
    resolverInv (finishTask r) := by
  unfold finishTask
  by_cases hz : r.tasks - 1 = 0
  · rw [if_pos hz]
    exact h
  · rw [if_neg hz]
    exact h

theorem deliver_resolverInv (refsOf : FileData → List Str)
    (readResult : Str → Option Str) (version : Nat) (r : RState) (idx : Nat)
    (h : resolverInv r) : resolverInv (deliver refsOf readResult version r idx) := by
  unfold deliver
  cases hget : r.pending.get? idx with
  | none => exact h
  | some pr =>
      show resolverInv (finishTask (deliverCore refsOf readResult version r pr idx))
      exact finishTask_resolverInv _
        (deliverCore_resolverInv refsOf readResult version r pr idx h
          (h.2.2.2 pr (List.get?_mem hget)))

theorem resolveAllStart_resolverInv (refsOf : FileData → List Str)
    (st : ProjectState) (hemp : st.additionalFiles = StrMap.empty) :
    resolverInv (resolveAllStart refsOf st) := by
  have h0 : resolverInv ⟨st.currentFiles, st.additionalFiles, 0, [], 0, []⟩ := by
    refine ⟨?_, List.nodup_nil, ?_, ?_⟩
    · intro k hk
      rw [hemp] at hk
      exact absurd hk (by rw [StrMap.contains_empty]; simp)
    · intro n hn
      exact absurd hn (List.not_mem_nil n)
    · intro q hq
      exact absurd hq (List.not_mem_nil q)
  unfold resolveAllStart
  by_cases hn : st.noExternalResolve = true
  · rw [if_pos hn]
    exact ⟨h0.1, h0.2.1, h0.2.2.1, h0.2.2.2⟩
  · rw [if_neg hn]
    have hs := resolveSeed_resolverInv refsOf st.currentFiles.values _ h0
    by_cases hz : (resolveSeed refsOf
        ⟨st.currentFiles, st.additionalFiles, 0, [], 0, []⟩
        st.currentFiles.values).tasks = 0
    · rw [if_pos hz]
      exact ⟨hs.1, hs.2.1, hs.2.2.1, hs.2.2.2⟩
    · rw [if_neg hz]
      exact hs

theorem runResolution_resolverInv (refsOf : FileData → List Str)
    (readResult : Str → Option Str) (version : Nat) (st : ProjectState)
    (trace : List Nat) (hemp : st.additionalFiles = StrMap.empty) :
    resolverInv (runResolution refsOf readResult version st trace) := by
  unfold runResolution
  have h0 := resolveAllStart_resolverInv refsOf st hemp
  revert h0
  generalize resolveAllStart refsOf st = r0
  intro h0
  induction trace generalizing r0 with
  | nil => exact h0
  | cons idx rest ih =>
      exact ih (deliver refsOf readResult version r0 idx)
        (deliver_resolverInv refsOf readResult version r0 idx h0)

/-- C8.  Throughout a build generation's resolution run the
`additionalFiles` keys never collide with `currentFiles`, at most one
read is ever issued per normalized reference path, and every issued
path is occupied in `additionalFiles` (by the placeholder from before
the read, or by the resolved data). -/
theorem C8_resolver_disjoint_single_read :
    ∀ (refsOf : FileData → List Str) (readResult : Str → Option Str)
      (version : Nat) (st : ProjectState) (trace : List Nat),
      st.additionalFiles = StrMap.empty →
      (∀ k : Str,
        (runResolution refsOf readResult version st trace).additional.contains k
            = true →
        (runResolution refsOf readResult version st trace).current.contains k
            = false)
      ∧ (runResolution refsOf readResult version st trace).issued.Nodup
      ∧ (∀ n ∈ (runResolution refsOf readResult version st trace).issued,
          (runResolution refsOf readResult version st trace).additional.contains n
            = true) := by
  intro refsOf readResult version st trace hemp
  obtain ⟨h1, h2, h3, -⟩ :=
    runResolution_resolverInv refsOf readResult version st trace hemp
  exact ⟨h1, h2, h3⟩

/-- Witness for C8 at a concrete empty project and empty schedule. -/
theorem C8_resolver_disjoint_single_read_witness :
    (∀ k : Str,
      (runResolution (fun _ => []) (fun _ => none) 0
          (mkProject none false false) []).additional.contains k = true →
      (runResolution (fun _ => []) (fun _ => none) 0
          (mkProject none false false) []).current.contains k = false)
    ∧ (runResolution (fun _ => []) (fun _ => none) 0
        (mkProject none false false) []).issued.Nodup
    ∧ (∀ n ∈ (runResolution (fun _ => []) (fun _ => none) 0
          (mkProject none false false) []).issued,
        (runResolution (fun _ => []) (fun _ => none) 0
            (mkProject none false false) []).additional.contains n = true) :=
  C8_resolver_disjoint_single_read (fun _ => []) (fun _ => none) 0
    (mkProject none false false) [] rfl

/-! ## Character-level lower-casing lemmas -/

theorem char_toNat_ofNat (n : Nat) (h : n < 55296) :
    (Char.ofNat n).toNat = n := by
  have hv : n.isValidChar := Or.inl h
  rw [Char.ofNat, dif_pos hv]
  rfl

theorem toLower_hi (c : Char) (h : c.toNat ≥ 65 ∧ c.toNat ≤ 90) :
    c.toLower = Char.ofNat (c.toNat + 32) := by
  unfold Char.toLower
  rw [if_pos h]

theorem toLower_lo (c : Char) (h : ¬(c.toNat ≥ 65 ∧ c.toNat ≤ 90)) :
    c.toLower = c := by
  unfold Char.toLower
  rw [if_neg h]

theorem toNat_toLower_hi (c : Char) (h : c.toNat ≥ 65 ∧ c.toNat ≤ 90) :
    c.toLower.toNat = c.toNat + 32 := by
  rw [toLower_hi c h]
  exact char_toNat_ofNat _ (by omega)

theorem toLower_toLower (c : Char) : c.toLower.toLower = c.toLower := by
  by_cases h : c.toNat ≥ 65 ∧ c.toNat ≤ 90
  · apply toLower_lo
    rw [toNat_toLower_hi c h]
    omega
  · rw [toLower_lo c h, toLower_lo c h]

/-- Lower-casing cannot produce a character below `'A'`, so equality
with such a character (`'/'`, `'.'`, …) is preserved in both
directions. -/
theorem toLower_eq_low_iff (c t : Char) (ht : t.toNat < 65) :
    c.toLower = t ↔ c = t := by
  constructor
  · intro hc
    by_cases h : c.toNat ≥ 65 ∧ c.toNat ≤ 90
    · exfalso
      have h1 : c.toLower.toNat = c.toNat + 32 := toNat_toLower_hi c h
      rw [hc] at h1
      omega
    · rw [toLower_lo c h] at hc
      exact hc
  · intro hc
    rw [hc]
    exact toLower_lo t (by omega)

/-! ## String-level lower-casing lemmas -/

theorem lowerStr_lowerStr (s : Str) : lowerStr (lowerStr s) = lowerStr s := by
  unfold lowerStr
  rw [List.map_map]
  apply List.map_congr_left
  intro c _
  exact toLower_toLower c

theorem lowerStr_eq_nil_iff (s : Str) : lowerStr s = [] ↔ s = [] := by
  unfold lowerStr
  rw [List.map_eq_nil_iff]

theorem lowerStr_eq_single_low_iff (s : Str) (t : Char) (ht : t.toNat < 65) :
    lowerStr s = [t] ↔ s = [t] := by
  cases s with
  | nil => simp [lowerStr]
  | cons c rest =>
      cases rest with
      | nil =>
          show [c.toLower] = [t] ↔ [c] = [t]
          simp only [List.cons.injEq, and_true]
          exact toLower_eq_low_iff c t ht
      | cons d rest2 => simp [lowerStr]

theorem lowerStr_eq_dotdot_iff (s : Str) :
    lowerStr s = ['.', '.'] ↔ s = ['.', '.'] := by
  cases s with
  | nil => simp [lowerStr]
  | cons c rest =>
      cases rest with
      | nil => simp [lowerStr]
      | cons d rest2 =>
          cases rest2 with
          | nil =>
              show [c.toLower, d.toLower] = ['.', '.'] ↔ [c, d] = ['.', '.']
              simp only [List.cons.injEq, and_true]
              rw [toLower_eq_low_iff c '.' (by decide),
                toLower_eq_low_iff d '.' (by decide)]
          | cons e rest3 => simp [lowerStr]

theorem lowerStr_eq_dot_iff (s : Str) : lowerStr s = ['.'] ↔ s = ['.'] :=
  lowerStr_eq_single_low_iff s '.' (by decide)

/-! ## splitSlash lemmas -/

theorem splitSlash_ne_nil (s : Str) : splitSlash s ≠ [] := by
  cases s with
  | nil => simp [splitSlash]
  | cons c rest =>
      unfold splitSlash
      cases splitSlash rest with
      | nil => simp
      | cons a as => by_cases h : c = '/' <;> simp [h]

theorem splitSlash_cons (c : Char) (rest : Str) (a : Str) (as : List Str)
    (hs : splitSlash rest = a :: as) :
    splitSlash (c :: rest) =
      if c = '/' then [] :: a :: as else (c :: a) :: as := by
  unfold splitSlash
  rw [hs]

theorem splitSlash_lower (s : Str) :
    splitSlash (lowerStr s) = (splitSlash s).map lowerStr := by
  induction s with
  | nil => rfl
  | cons c rest ih =>
      cases hs : splitSlash rest with
      | nil => exact absurd hs (splitSlash_ne_nil rest)
      | cons a as =>
          have h1 := splitSlash_cons c rest a as hs
          have h2 := splitSlash_cons c.toLower (lowerStr rest) (lowerStr a)
            (as.map lowerStr) (by rw [ih, hs]; rfl)
          show splitSlash (c.toLower :: lowerStr rest) = _
          rw [h2, h1]
          by_cases h : c = '/'
          · rw [if_pos ((toLower_eq_low_iff c '/' (by decide)).mpr h), if_pos h]
            rfl
          · rw [if_neg (fun hh => h ((toLower_eq_low_iff c '/' (by decide)).mp hh)),
              if_neg h]
            rfl

theorem splitSlash_no_slash (s : Str) :
    ∀ seg ∈ splitSlash s, '/' ∉ seg := by
  induction s with
  | nil =>
      intro seg hseg
      rw [show splitSlash [] = [[]] from rfl, List.mem_singleton] at hseg
      subst hseg
      simp
  | cons c rest ih =>
      intro seg hseg
      cases hs : splitSlash rest with
      | nil => exact absurd hs (splitSlash_ne_nil rest)
      | cons a as =>
          rw [splitSlash_cons c rest a as hs] at hseg
          by_cases h : c = '/'
          · rw [if_pos h] at hseg
            rcases List.mem_cons.mp hseg with h1 | h2
            · subst h1; simp
            · exact ih seg (hs ▸ h2)
          · rw [if_neg h] at hseg
            rcases List.mem_cons.mp hseg with h1 | h2
            · subst h1
              intro hmem
              rcases List.mem_cons.mp hmem with hc | hc
              · exact h hc.symm
              · exact ih a (hs ▸ List.mem_cons_self a as) hc
            · exact ih seg (hs ▸ List.mem_cons_of_mem a h2)

/-! ## normStep / normStackR equations -/

theorem normStackR_nil (aar : Bool) (acc : List Str) :
    normStackR aar acc [] = acc := rfl

theorem normStackR_cons (aar : Bool) (acc : List Str) (seg : Str)
    (rest : List Str) :
    normStackR aar acc (seg :: rest) =
      normStackR aar (normStep aar acc seg) rest := rfl

theorem normStackR_append (aar : Bool) (acc : List Str) (s1 s2 : List Str) :
    normStackR aar acc (s1 ++ s2) = normStackR aar (normStackR aar acc s1) s2 :=
  List.foldl_append _ _ _ _

theorem normStep_skip (aar : Bool) (acc : List Str) (seg : Str)
    (h : seg = [] ∨ seg = ['.']) : normStep aar acc seg = acc := by
  unfold normStep
  rw [if_pos h]

theorem normStep_ddot_empty (aar : Bool) :
    normStep aar [] ['.', '.'] = (if aar then [['.', '.']] else []) := by
  unfold normStep
  rw [if_neg (by decide), if_pos rfl]

theorem normStep_ddot_push (aar : Bool) (last : Str) (acc' : List Str)
    (h : last = ['.', '.']) :
    normStep aar (last :: acc') ['.', '.'] =
      (if aar then ['.', '.'] :: last :: acc' else last :: acc') := by
  subst h
  rfl

theorem normStep_ddot_pop (aar : Bool) (last : Str) (acc' : List Str)
    (h : last ≠ ['.', '.']) :
    normStep aar (last :: acc') ['.', '.'] = acc' := by
  unfold normStep
  rw [if_neg (by decide), if_pos rfl]
  show (if last = ['.', '.']
    then (if aar then ['.', '.'] :: last :: acc' else last :: acc')
    else acc') = acc'
  rw [if_neg h]

theorem normStep_push (aar : Bool) (acc : List Str) (seg : Str)
    (h1 : ¬(seg = [] ∨ seg = ['.'])) (h2 : seg ≠ ['.', '.']) :
    normStep aar acc seg = seg :: acc := by
  unfold normStep
  rw [if_neg h1, if_neg h2]

/-- `normStep` commutes with lower-casing of every segment. -/
theorem normStep_lower (aar : Bool) (acc : List Str) (seg : Str) :
    normStep aar (acc.map lowerStr) (lowerStr seg)
      = (normStep aar acc seg).map lowerStr := by
  by_cases h1 : seg = [] ∨ seg = ['.']
  · have h1' : lowerStr seg = [] ∨ lowerStr seg = ['.'] := by
      rcases h1 with h | h
      · exact Or.inl (by rw [h]; rfl)
      · exact Or.inr (by rw [h]; decide)
    rw [normStep_skip aar _ _ h1', normStep_skip aar acc seg h1]
  · have h1' : ¬(lowerStr seg = [] ∨ lowerStr seg = ['.']) := by
      intro hh
      rcases hh with h | h
      · exact h1 (Or.inl ((lowerStr_eq_nil_iff seg).mp h))
      · exact h1 (Or.inr ((lowerStr_eq_dot_iff seg).mp h))
    by_cases h2 : seg = ['.', '.']
    · subst h2
      rw [show lowerStr ['.', '.'] = ['.', '.'] from by decide]
      cases acc with
      | nil =>
          rw [show (([] : List Str).map lowerStr) = [] from rfl,
            normStep_ddot_empty aar]
          cases aar <;> decide
      | cons a acc' =>
          rw [List.map_cons]
          by_cases h3 : a = ['.', '.']
          · have h3' : lowerStr a = ['.', '.'] :=
              (lowerStr_eq_dotdot_iff a).mpr h3
            rw [normStep_ddot_push aar _ _ h3', normStep_ddot_push aar a acc' h3]
            cases aar
            · rfl
            · show ['.', '.'] :: lowerStr a :: acc'.map lowerStr
                = List.map lowerStr (['.', '.'] :: a :: acc')
              rw [List.map_cons, List.map_cons,
                show lowerStr ['.', '.'] = ['.', '.'] from by decide]
          · have h3' : lowerStr a ≠ ['.', '.'] :=
              fun hh => h3 ((lowerStr_eq_dotdot_iff a).mp hh)
            rw [normStep_ddot_pop aar _ _ h3', normStep_ddot_pop aar a acc' h3]
    · have h2' : lowerStr seg ≠ ['.', '.'] :=
        fun hh => h2 ((lowerStr_eq_dotdot_iff seg).mp hh)
      rw [normStep_push aar _ _ h1' h2', normStep_push aar acc seg h1 h2]
      rfl

/-- `normStackR` commutes with lower-casing of every segment. -/
theorem normStackR_lower (aar : Bool) (segs : List Str) :
    ∀ acc : List Str,
      normStackR aar (acc.map lowerStr) (segs.map lowerStr)
        = (normStackR aar acc segs).map lowerStr := by
  induction segs with
  | nil => intro acc; rfl
  | cons seg rest ih =>
      intro acc
      rw [List.map_cons, normStackR_cons, normStackR_cons, normStep_lower]
      exact ih (normStep aar acc seg)

/-! ## posixNormalize commutes with lower-casing -/

theorem lowerStr_append (a b : Str) :
    lowerStr (a ++ b) = lowerStr a ++ lowerStr b := List.map_append _ _ _

theorem lowerStr_cons (c : Char) (s : Str) :
    lowerStr (c :: s) = c.toLower :: lowerStr s := rfl

theorem joinSlash_lower (ss : List Str) :
    joinSlash (ss.map lowerStr) = lowerStr (joinSlash ss) := by
  induction ss with
  | nil => rfl
  | cons s rest ih =>
      cases rest with
      | nil => rfl
      | cons t ts =>
          show lowerStr s ++ '/' :: joinSlash ((t :: ts).map lowerStr)
            = lowerStr (s ++ '/' :: joinSlash (t :: ts))
          rw [ih, lowerStr_append, lowerStr_cons,
            show ('/').toLower = '/' from by decide]

/-- Definitional unfolding of `posixNormalize` on a non-empty path. -/
theorem posixNormalize_cons (c : Char) (rest : Str) :
    posixNormalize (c :: rest) =
      (if (normStackR (!decide (c = '/')) [] (splitSlash (c :: rest))).reverse
          = [] then
        (if c = '/' then ['/']
         else if (c :: rest).getLast? = some '/' then ['.', '/'] else ['.'])
       else
        (if c = '/' then ['/'] else []) ++
          joinSlash (normStackR (!decide (c = '/')) []
            (splitSlash (c :: rest))).reverse ++
          (if (c :: rest).getLast? = some '/' then ['/'] else [])) := rfl

theorem posixNormalize_lower (q : Str) :
    posixNormalize (lowerStr q) = lowerStr (posixNormalize q) := by
  cases q with
  | nil => decide
  | cons c rest =>
      have habs : (c.toLower = '/') ↔ (c = '/') :=
        toLower_eq_low_iff c '/' (by decide)
      have htrail : ((c.toLower :: lowerStr rest).getLast? = some '/')
          ↔ ((c :: rest).getLast? = some '/') := by
        show ((List.map Char.toLower (c :: rest)).getLast? = some '/') ↔ _
        rw [List.getLast?_map]
        cases hL : (c :: rest).getLast? with
        | none =>
            exact absurd (List.getLast?_eq_none_iff.mp hL) (by simp)
        | some d =>
            show (some d.toLower = some '/') ↔ (some d = some '/')
            simp only [Option.some.injEq]
            exact toLower_eq_low_iff d '/' (by decide)
      show posixNormalize (c.toLower :: lowerStr rest) = _
      rw [posixNormalize_cons, posixNormalize_cons]
      have hd : (decide (c.toLower = '/')) = (decide (c = '/')) :=
        decide_eq_decide.mpr habs
      have hsplit : splitSlash (c.toLower :: lowerStr rest)
          = (splitSlash (c :: rest)).map lowerStr := splitSlash_lower (c :: rest)
      rw [hsplit, hd]
      have hns : normStackR (!decide (c = '/')) []
            ((splitSlash (c :: rest)).map lowerStr)
          = (normStackR (!decide (c = '/')) []
              (splitSlash (c :: rest))).map lowerStr :=
        normStackR_lower (!decide (c = '/')) (splitSlash (c :: rest)) []
      rw [hns, ← List.map_reverse]
      by_cases hS : (normStackR (!decide (c = '/')) []
          (splitSlash (c :: rest))).reverse = []
      · rw [hS]
        rw [if_pos (by rfl), if_pos rfl]
        by_cases hc : c = '/'
        · rw [if_pos (habs.mpr hc), if_pos hc]
          decide
        · rw [if_neg (fun hh => hc (habs.mp hh)), if_neg hc]
          by_cases ht : (c :: rest).getLast? = some '/'
          · rw [if_pos (htrail.mpr ht), if_pos ht]
            decide
          · rw [if_neg (fun hh => ht (htrail.mp hh)), if_neg ht]
            decide
      · rw [if_neg (by
            intro hh
            exact hS (List.map_eq_nil_iff.mp hh)), if_neg hS]
        rw [joinSlash_lower, lowerStr_append, lowerStr_append]
        by_cases hc : c = '/'
        · rw [if_pos (habs.mpr hc), if_pos hc]
          by_cases ht : (c :: rest).getLast? = some '/'
          · rw [if_pos (htrail.mpr ht), if_pos ht]
            rfl
          · rw [if_neg (fun hh => ht (htrail.mp hh)), if_neg ht]
            rfl
        · rw [if_neg (fun hh => hc (habs.mp hh)), if_neg hc]
          by_cases ht : (c :: rest).getLast? = some '/'
          · rw [if_pos (htrail.mpr ht), if_pos ht]
            rfl
          · rw [if_neg (fun hh => ht (htrail.mp hh)), if_neg ht]
            rfl

/-! ## splitSlash / joinSlash roundtrip -/

theorem splitSlash_no_slash_id (s : Str) (h : '/' ∉ s) :
    splitSlash s = [s] := by
  induction s with
  | nil => rfl
  | cons c rest ih =>
      have hc : c ≠ '/' := fun hh => h (hh ▸ List.mem_cons_self c rest)
      have hr : '/' ∉ rest := fun hh => h (List.mem_cons_of_mem c hh)
      rw [splitSlash_cons c rest rest [] (ih hr), if_neg hc]

theorem splitSlash_slash_cons (x : Str) :
    splitSlash ('/' :: x) = [] :: splitSlash x := by
  cases hs : splitSlash x with
  | nil => exact absurd hs (splitSlash_ne_nil x)
  | cons a as => rw [splitSlash_cons '/' x a as hs, if_pos rfl]

theorem splitSlash_seg_slash (s : Str) :
    ∀ x : Str, '/' ∉ s → splitSlash (s ++ '/' :: x) = s :: splitSlash x := by
  induction s with
  | nil => intro x _; exact splitSlash_slash_cons x
  | cons c s' ih =>
      intro x h
      have hc : c ≠ '/' := fun hh => h (hh ▸ List.mem_cons_self c s')
      have h' : '/' ∉ s' := fun hh => h (List.mem_cons_of_mem c hh)
      rw [show (c :: s') ++ '/' :: x = c :: (s' ++ '/' :: x) from rfl,
        splitSlash_cons c (s' ++ '/' :: x) s' (splitSlash x) (ih x h'),
        if_neg hc]

theorem splitSlash_joinSlash (stack : List Str) :
    stack ≠ [] → (∀ s ∈ stack, '/' ∉ s) →
    splitSlash (joinSlash stack) = stack := by
  induction stack with
  | nil => intro h _; exact absurd rfl h
  | cons s rest ih =>
      intro _ h
      cases rest with
      | nil =>
          exact splitSlash_no_slash_id s (h s (List.mem_cons_self s []))
      | cons t ts =>
          show splitSlash (s ++ '/' :: joinSlash (t :: ts)) = _
          rw [splitSlash_seg_slash s _ (h s (List.mem_cons_self s (t :: ts))),
            ih (by simp) (fun u hu => h u (List.mem_cons_of_mem s hu))]

theorem splitSlash_snoc_slash (x : Str) :
    splitSlash (x ++ ['/']) = splitSlash x ++ [[]] := by
  induction x with
  | nil => rfl
  | cons c x' ih =>
      cases hs : splitSlash x' with
      | nil => exact absurd hs (splitSlash_ne_nil x')
      | cons a as =>
          have hs2 : splitSlash (x' ++ ['/']) = a :: (as ++ [[]]) := by
            rw [ih, hs]
            rfl
          rw [show (c :: x') ++ ['/'] = c :: (x' ++ ['/']) from rfl,
            splitSlash_cons c (x' ++ ['/']) a (as ++ [[]]) hs2,
            splitSlash_cons c x' a as hs]
          by_cases hc : c = '/' <;> simp [hc]

/-- The head structure of a joined non-empty stack. -/
theorem joinSlash_cons_eq (s : Str) (rest : List Str) :
    ∃ t : Str, joinSlash (s :: rest) = s ++ t := by
  cases rest with
  | nil => exact ⟨[], by simp [joinSlash]⟩
  | cons u us => exact ⟨'/' :: joinSlash (u :: us), rfl⟩

/-- The final character of a joined stack of non-empty segments lies in
the last segment. -/
theorem joinSlash_getLast (stack : List Str) :
    stack ≠ [] → (∀ s ∈ stack, s ≠ []) →
    ∃ (s : Str) (e : Char), stack.getLast? = some s ∧ e ∈ s ∧
      (joinSlash stack).getLast? = some e := by
  induction stack with
  | nil => intro h _; exact absurd rfl h
  | cons s rest ih =>
      intro _ h
      cases rest with
      | nil =>
          have hs : s ≠ [] := h s (List.mem_cons_self s [])
          refine ⟨s, s.getLast hs, rfl, List.getLast_mem hs, ?_⟩
          show s.getLast? = some (s.getLast hs)
          exact List.getLast?_eq_getLast s hs
      | cons t ts =>
          obtain ⟨u, e, hu, he, hj⟩ := ih (by simp)
            (fun v hv => h v (List.mem_cons_of_mem s hv))
          refine ⟨u, e, ?_, he, ?_⟩
          · rw [← hu]
            exact List.getLast?_cons_cons
          · show (s ++ '/' :: joinSlash (t :: ts)).getLast? = some e
            rw [List.getLast?_append]
            have hne : joinSlash (t :: ts) ≠ [] := by
              intro hnil
              rw [hnil] at hj
              exact Option.noConfusion hj
            have : ('/' :: joinSlash (t :: ts)).getLast? =
                (joinSlash (t :: ts)).getLast? := by
              rw [show ('/' :: joinSlash (t :: ts)) = ['/'] ++ joinSlash (t :: ts)
                  from rfl, List.getLast?_append]
              rw [hj]
              rfl
            rw [this, hj]
            rfl

/-! ## Idempotence of posixNormalize -/

/-- A normal path segment: non-empty, slash-free and not `"."`. -/
def GoodSeg (s : Str) : Prop := s ≠ [] ∧ '/' ∉ s ∧ s ≠ ['.']

/-- Shape invariant of the reversed `normStep` accumulator: a run of
normal segments on top of a run of `".."` markers, the latter possible
only when above-root segments are allowed. -/
def GoodAcc (aar : Bool) (acc : List Str) : Prop :=
  ∃ (k : Nat) (ns : List Str),
    acc = ns.reverse ++ List.replicate k ['.', '.'] ∧
    (∀ s ∈ ns, GoodSeg s ∧ s ≠ ['.', '.']) ∧ (aar = false → k = 0)

/-- Shape of a finished (re-reversed) segment stack. -/
def GoodStack (aar : Bool) (stack : List Str) : Prop :=
  ∃ (k : Nat) (ns : List Str),
    stack = List.replicate k ['.', '.'] ++ ns ∧
    (∀ s ∈ ns, GoodSeg s ∧ s ≠ ['.', '.']) ∧ (aar = false → k = 0)

theorem goodAcc_nil (aar : Bool) : GoodAcc aar [] :=
  ⟨0, [], by simp, by simp, fun _ => rfl⟩

theorem goodStack_of_goodAcc (aar : Bool) (acc : List Str)
    (h : GoodAcc aar acc) : GoodStack aar acc.reverse := by
  obtain ⟨k, ns, hacc, hns, hk⟩ := h
  refine ⟨k, ns, ?_, hns, hk⟩
  rw [hacc, List.reverse_append, List.reverse_reverse, List.reverse_replicate]

theorem goodStack_segs (aar : Bool) (stack : List Str)
    (h : GoodStack aar stack) : ∀ s ∈ stack, s ≠ [] ∧ '/' ∉ s := by
  obtain ⟨k, ns, hst, hns, _⟩ := h
  intro s hs
  rw [hst] at hs
  rcases List.mem_append.mp hs with hs | hs
  · rw [List.eq_of_mem_replicate hs]
    exact ⟨by decide, by decide⟩
  · exact ⟨(hns s hs).1.1, (hns s hs).1.2.1⟩

/-- One `normStep` on a slash-free segment preserves the accumulator
shape invariant. -/
theorem normStep_goodAcc (aar : Bool) (acc : List Str) (seg : Str)
    (hsl : '/' ∉ seg) (h : GoodAcc aar acc) :
    GoodAcc aar (normStep aar acc seg) := by
  obtain ⟨k, ns, hacc, hns, hk⟩ := h
  by_cases h1 : seg = [] ∨ seg = ['.']
  · rw [normStep_skip aar acc seg h1]
    exact ⟨k, ns, hacc, hns, hk⟩
  by_cases h2 : seg = ['.', '.']
  · subst h2
    rcases List.eq_nil_or_concat ns with hn | ⟨ms, a, hn⟩
    · subst hn
      simp only [List.reverse_nil, List.nil_append] at hacc
      cases k with
      | zero =>
          rw [hacc, List.replicate_zero, normStep_ddot_empty]
          cases aar
          · exact ⟨0, [], by simp, by simp, fun _ => rfl⟩
          · exact ⟨1, [], by simp, by simp, by simp⟩
      | succ k' =>
          rw [hacc, List.replicate_succ, normStep_ddot_push aar _ _ rfl]
          cases haar : aar
          · exact absurd (hk haar) (by omega)
          · refine ⟨k' + 1 + 1, [], ?_, by simp, by simp⟩
            simp [List.replicate_succ]
    · rw [List.concat_eq_append] at hn
      subst hn
      have ha := hns a (by simp)
      have hacc' : acc = a :: (ms.reverse ++ List.replicate k ['.', '.']) := by
        rw [hacc, List.reverse_append]
        simp
      rw [hacc', normStep_ddot_pop aar a _ ha.2]
      exact ⟨k, ms, rfl, fun s hsm => hns s (List.mem_append_left _ hsm), hk⟩
  · have hGS : GoodSeg seg :=
      ⟨fun hh => h1 (Or.inl hh), hsl, fun hh => h1 (Or.inr hh)⟩
    rw [normStep_push aar acc seg h1 h2]
    refine ⟨k, ns ++ [seg], ?_, ?_, hk⟩
    · rw [hacc, List.reverse_append]
      simp
    · intro s hs
      rcases List.mem_append.mp hs with hs | hs
      · exact hns s hs
      · rw [List.mem_singleton.mp hs]
        exact ⟨hGS, h2⟩

theorem normStackR_goodAcc (aar : Bool) (segs : List Str) :
    ∀ acc : List Str, (∀ seg ∈ segs, '/' ∉ seg) → GoodAcc aar acc →
      GoodAcc aar (normStackR aar acc segs) := by
  induction segs with
  | nil => intro acc _ h; exact h
  | cons seg rest ih =>
      intro acc hsl h
      rw [normStackR_cons]
      exact ih _ (fun s hs => hsl s (List.mem_cons_of_mem seg hs))
        (normStep_goodAcc aar acc seg (hsl seg (List.mem_cons_self seg rest)) h)

theorem mem_of_getLast_opt {α : Type} (l : List α) (a : α)
    (h : l.getLast? = some a) : a ∈ l := by
  cases l with
  | nil => exact Option.noConfusion h
  | cons b bs =>
      rw [List.getLast?_eq_getLast (b :: bs) (by simp)] at h
      rw [show a = (b :: bs).getLast (by simp) from (Option.some_inj.mp h).symm]
      exact List.getLast_mem (by simp)

/-- Processing a run of `".."` markers above root keeps them all. -/
theorem normStackR_rep_true (k : Nat) :
    ∀ j : Nat, normStackR true (List.replicate j ['.', '.'])
        (List.replicate k ['.', '.'])
      = List.replicate (j + k) ['.', '.'] := by
  induction k with
  | zero => intro j; rfl
  | succ k' ih =>
      intro j
      rw [List.replicate_succ, normStackR_cons]
      cases j with
      | zero =>
          rw [List.replicate_zero, normStep_ddot_empty, if_pos rfl]
          rw [show ([['.', '.']] : List Str) = List.replicate 1 ['.', '.']
              from rfl, ih 1]
          congr 1
          omega
      | succ j' =>
          rw [List.replicate_succ, normStep_ddot_push true _ _ rfl, if_pos rfl]
          rw [show (['.', '.'] :: ['.', '.'] :: List.replicate j' ['.', '.']
                : List Str)
              = List.replicate (j' + 1 + 1) ['.', '.'] from by
            rw [List.replicate_succ, List.replicate_succ], ih (j' + 1 + 1)]
          congr 1
          omega

/-- A run of normal segments is pushed verbatim. -/
theorem normStackR_normal (aar : Bool) (ns : List Str) :
    ∀ acc : List Str, (∀ s ∈ ns, GoodSeg s ∧ s ≠ ['.', '.']) →
      normStackR aar acc ns = ns.reverse ++ acc := by
  induction ns with
  | nil => intro acc _; rfl
  | cons s rest ih =>
      intro acc h
      have hs := h s (List.mem_cons_self s rest)
      have h1 : ¬(s = [] ∨ s = ['.']) := by
        rintro (hh | hh)
        · exact hs.1.1 hh
        · exact hs.1.2.2 hh
      rw [normStackR_cons, normStep_push aar acc s h1 hs.2,
        ih (s :: acc) (fun u hu => h u (List.mem_cons_of_mem s hu))]
      simp

/-- Good stacks are stable: re-running the segment processor on a good
stack returns it (reversed) unchanged. -/
theorem normStackR_stable (aar : Bool) (k : Nat) (ns : List Str)
    (hns : ∀ s ∈ ns, GoodSeg s ∧ s ≠ ['.', '.']) (hk : aar = false → k = 0) :
    normStackR aar [] (List.replicate k ['.', '.'] ++ ns)
      = (List.replicate k ['.', '.'] ++ ns).reverse := by
  rw [normStackR_append]
  cases haar : aar
  · rw [hk haar, List.replicate_zero, normStackR_nil,
      normStackR_normal false ns [] hns]
    simp
  · have h1 := normStackR_rep_true k 0
    rw [List.replicate_zero] at h1
    rw [h1, normStackR_normal true ns _ hns]
    simp [List.reverse_append, List.reverse_replicate]

/-- Stability through optional empty segments produced by a leading
and/or trailing slash. -/
theorem normStackR_full (aar : Bool) (stack tpre tpost segs : List Str)
    (hgood : GoodStack aar stack)
    (hpre : tpre = [] ∨ tpre = [[]]) (hpost : tpost = [] ∨ tpost = [[]])
    (hsegs : segs = tpre ++ (stack ++ tpost)) :
    normStackR aar [] segs = stack.reverse := by
  obtain ⟨k, ns, hst, hns, hk⟩ := hgood
  have core : normStackR aar [] (stack ++ tpost) = stack.reverse := by
    rcases hpost with h | h
    · rw [h, List.append_nil, hst]
      exact normStackR_stable aar k ns hns hk
    · rw [h, normStackR_append, hst, normStackR_stable aar k ns hns hk,
        normStackR_cons, normStep_skip _ _ _ (Or.inl rfl), normStackR_nil,
        ← hst]
  rcases hpre with h | h
  · rw [hsegs, h, List.nil_append]
    exact core
  · rw [hsegs, h, show ([[]] : List Str) ++ (stack ++ tpost)
        = [] :: (stack ++ tpost) from rfl,
      normStackR_cons, normStep_skip _ _ _ (Or.inl rfl)]
    exact core

/-- Generic fixed-point builder for `posixNormalize`: if the parse of
`q` recovers the stack `S` and rendering `S` gives back `q`, then `q`
is a fixed point. -/
theorem posixNormalize_fixed (q : Str) (c : Char) (qr : Str) (hq : q = c :: qr)
    (S : List Str)
    (hS : (normStackR (!decide (c = '/')) [] (splitSlash (c :: qr))).reverse
      = S)
    (hSne : S ≠ [])
    (hrender : (if c = '/' then ['/'] else []) ++ joinSlash S ++
        (if (c :: qr).getLast? = some '/' then ['/'] else []) = q) :
    posixNormalize q = q := by
  rw [hq, posixNormalize_cons, hS, if_neg hSne]
  rw [hq] at hrender
  exact hrender

/-- Rendered good stacks are fixed points of `posixNormalize`. -/
theorem posixNormalize_render (isAbs trail : Bool) (stack : List Str)
    (hgood : GoodStack (!isAbs) stack) (hne : stack ≠ []) :
    posixNormalize ((if isAbs then ['/'] else []) ++ joinSlash stack ++
        (if trail then ['/'] else []))
      = (if isAbs then ['/'] else []) ++ joinSlash stack ++
        (if trail then ['/'] else []) := by
  have hsegs := goodStack_segs (!isAbs) stack hgood
  have hsplitJ : splitSlash (joinSlash stack) = stack :=
    splitSlash_joinSlash stack hne (fun s hs => (hsegs s hs).2)
  obtain ⟨s0, stack', hstack⟩ : ∃ s0 stack', stack = s0 :: stack' := by
    cases stack with
    | nil => exact absurd rfl hne
    | cons a l => exact ⟨a, l, rfl⟩
  have hs0 : s0 ≠ [] ∧ '/' ∉ s0 := by
    apply hsegs
    rw [hstack]
    exact List.mem_cons_self s0 stack'
  obtain ⟨d, s0', hs0eq⟩ : ∃ d s0', s0 = d :: s0' := by
    cases s0 with
    | nil => exact absurd rfl hs0.1
    | cons a l => exact ⟨a, l, rfl⟩
  have hd : d ≠ '/' := by
    intro hh
    apply hs0.2
    rw [hs0eq, hh]
    exact List.mem_cons_self '/' s0'
  obtain ⟨t, hJ0⟩ := joinSlash_cons_eq s0 stack'
  have hJq : joinSlash stack = d :: (s0' ++ t) := by
    rw [hstack, hJ0, hs0eq]
    rfl
  obtain ⟨e, hje, hene⟩ : ∃ e : Char,
      (joinSlash stack).getLast? = some e ∧ e ≠ '/' := by
    obtain ⟨s, e, hsl, hes, hj⟩ := joinSlash_getLast stack hne
      (fun s hs => (hsegs s hs).1)
    refine ⟨e, hj, fun hh => ?_⟩
    exact (hsegs s (mem_of_getLast_opt stack s hsl)).2 (hh ▸ hes)
  cases isAbs with
  | false =>
      have hgood' : GoodStack true stack := hgood
      have hdec : (!decide (d = '/')) = true := by
        rw [decide_eq_false hd]
        rfl
      cases trail with
      | false =>
          show posixNormalize (joinSlash stack ++ []) = joinSlash stack ++ []
          rw [List.append_nil]
          refine posixNormalize_fixed (joinSlash stack) d (s0' ++ t) hJq
            stack ?_ hne ?_
          · rw [show splitSlash (d :: (s0' ++ t))
                = splitSlash (joinSlash stack) from by rw [hJq],
              hsplitJ, hdec,
              normStackR_full true stack [] [] stack hgood' (Or.inl rfl)
                (Or.inl rfl) (by simp),
              List.reverse_reverse]
          · have hlastD : ¬((d :: (s0' ++ t)).getLast? = some '/') := by
              rw [← hJq, hje]
              exact fun hh => hene (Option.some_inj.mp hh)
            rw [if_neg hd, if_neg hlastD, List.append_nil]
            rfl
      | true =>
          show posixNormalize (joinSlash stack ++ ['/'])
            = joinSlash stack ++ ['/']
          refine posixNormalize_fixed (joinSlash stack ++ ['/']) d
            ((s0' ++ t) ++ ['/'])
            (by rw [hJq]; exact List.cons_append d (s0' ++ t) ['/'])
            stack ?_ hne ?_
          · rw [show splitSlash (d :: ((s0' ++ t) ++ ['/']))
                = splitSlash (joinSlash stack ++ ['/'])
                from by rw [hJq, List.cons_append],
              splitSlash_snoc_slash, hsplitJ, hdec,
              normStackR_full true stack [] [[]] (stack ++ [[]]) hgood'
                (Or.inl rfl) (Or.inr rfl) (by simp),
              List.reverse_reverse]
          · have hlastC : (d :: ((s0' ++ t) ++ ['/'])).getLast? = some '/' := by
              rw [show (d :: ((s0' ++ t) ++ ['/']))
                  = (d :: (s0' ++ t)) ++ ['/'] from rfl]
              exact List.getLast?_concat _
            rw [if_neg hd, if_pos hlastC]
            rfl
  | true =>
      have hgood' : GoodStack false stack := hgood
      have hdecA : (!decide (('/' : Char) = '/')) = false := by decide
      cases trail with
      | false =>
          show posixNormalize (['/'] ++ (joinSlash stack ++ []))
            = ['/'] ++ (joinSlash stack ++ [])
          rw [List.append_nil]
          refine posixNormalize_fixed (['/'] ++ joinSlash stack) '/'
            (joinSlash stack) rfl stack ?_ hne ?_
          · rw [splitSlash_slash_cons, hsplitJ, hdecA,
              normStackR_full false stack [[]] [] ([] :: stack) hgood'
                (Or.inr rfl) (Or.inl rfl) (by simp),
              List.reverse_reverse]
          · have hlastB : ('/' :: joinSlash stack).getLast? = some e := by
              rw [show ('/' :: joinSlash stack) = ['/'] ++ joinSlash stack
                  from rfl, List.getLast?_append, hje]
              rfl
            rw [if_pos rfl,
              if_neg (show ¬(('/' :: joinSlash stack).getLast? = some '/') from
                by rw [hlastB]; exact fun hh => hene (Option.some_inj.mp hh)),
              List.append_nil]
      | true =>
          show posixNormalize (['/'] ++ (joinSlash stack ++ ['/']))
            = ['/'] ++ (joinSlash stack ++ ['/'])
          refine posixNormalize_fixed (['/'] ++ (joinSlash stack ++ ['/'])) '/'
            (joinSlash stack ++ ['/']) rfl stack ?_ hne ?_
          · rw [splitSlash_slash_cons, splitSlash_snoc_slash, hsplitJ, hdecA,
              normStackR_full false stack [[]] [[]] ([] :: (stack ++ [[]]))
                hgood' (Or.inr rfl) (Or.inr rfl) (by simp),
              List.reverse_reverse]
          · have hlastA : ('/' :: (joinSlash stack ++ ['/'])).getLast?
                = some '/' := by
              rw [show ('/' :: (joinSlash stack ++ ['/']))
                  = ('/' :: joinSlash stack) ++ ['/'] from rfl]
              exact List.getLast?_concat _
            rw [if_pos rfl, if_pos hlastA]
            exact List.append_assoc ['/'] (joinSlash stack) ['/']

/-- Classification of `posixNormalize` results: one of the three
constant outputs, or the rendering of a non-empty good stack. -/
theorem posixNormalize_shape (p : Str) :
    posixNormalize p = ['.'] ∨ posixNormalize p = ['.', '/'] ∨
    posixNormalize p = ['/'] ∨
    ∃ (isAbs trail : Bool) (stack : List Str),
      GoodStack (!isAbs) stack ∧ stack ≠ [] ∧
      posixNormalize p = (if isAbs then ['/'] else []) ++ joinSlash stack ++
        (if trail then ['/'] else []) := by
  cases p with
  | nil => exact Or.inl rfl
  | cons c rest =>
      have hgoodS := goodStack_of_goodAcc (!decide (c = '/'))
        (normStackR (!decide (c = '/')) [] (splitSlash (c :: rest)))
        (normStackR_goodAcc (!decide (c = '/')) (splitSlash (c :: rest)) []
          (splitSlash_no_slash (c :: rest)) (goodAcc_nil _))
      rw [posixNormalize_cons]
      by_cases hSe : (normStackR (!decide (c = '/')) []
          (splitSlash (c :: rest))).reverse = []
      · rw [if_pos hSe]
        by_cases hc : c = '/'
        · rw [if_pos hc]
          exact Or.inr (Or.inr (Or.inl rfl))
        · rw [if_neg hc]
          by_cases ht : (c :: rest).getLast? = some '/'
          · rw [if_pos ht]
            exact Or.inr (Or.inl rfl)
          · rw [if_neg ht]
            exact Or.inl rfl
      · rw [if_neg hSe]
        refine Or.inr (Or.inr (Or.inr ⟨decide (c = '/'),
          decide ((c :: rest).getLast? = some '/'),
          (normStackR (!decide (c = '/')) [] (splitSlash (c :: rest))).reverse,
          hgoodS, hSe, ?_⟩))
        by_cases hc : c = '/' <;>
          by_cases ht : (c :: rest).getLast? = some '/' <;>
            simp [hc, ht]

/-- `path.normalize` is idempotent. -/
theorem posixNormalize_idem (p : Str) :
    posixNormalize (posixNormalize p) = posixNormalize p := by
  rcases posixNormalize_shape p with h | h | h | ⟨isAbs, trail, stack, hg, hne, h⟩
  · rw [h]; decide
  · rw [h]; decide
  · rw [h]; decide
  · rw [h]
    exact posixNormalize_render isAbs trail stack hg hne

/-- C10: `normalizePath` (posix `path.normalize` followed by
`toLowerCase`) is idempotent — `normalizePath (normalizePath p) =
normalizePath p` for every path string — and consequently every key
stored into `currentFiles` by `addFile` is either a key that was
already present or a fixed point of the normalization used for
lookups. -/
theorem C10_normalizePath_idempotent :
    (∀ p : Str, normalizePath (normalizePath p) = normalizePath p) ∧
    (∀ (st : ProjectState) (f : GulpFile) (k : Str),
      k ∈ (addFile st f).currentFiles.keys →
      k ∈ st.currentFiles.keys ∨ normalizePath k = k) := by
  have hidem : ∀ p : Str, normalizePath (normalizePath p) = normalizePath p := by
    intro p
    unfold normalizePath
    rw [posixNormalize_lower, posixNormalize_idem, lowerStr_lowerStr]
  refine ⟨hidem, ?_⟩
  intro st f k hk
  obtain ⟨fd, hcf, -, -, -⟩ := addFile_currentFiles_spec st f
  rw [hcf] at hk
  cases hcc : st.currentFiles.contains (normalizePath f.path) with
  | true =>
      rw [StrMap.keys_insert_of_contains _ _ _ hcc] at hk
      exact Or.inl hk
  | false =>
      rw [StrMap.keys_insert_of_not_contains _ _ _ hcc] at hk
      rcases List.mem_append.mp hk with h | h
      · exact Or.inl h
      · right
        rw [List.mem_singleton.mp h]
        exact hidem f.path

/-- Witness for C10: a concrete ingestion into a fresh project, with
the hypothesis discharged by computation. -/
theorem C10_normalizePath_idempotent_witness :
    str "a/b.ts" ∈ (addFile (mkProject none false false)
      ⟨str "a//B.ts", str "x", str "", str ""⟩).currentFiles.keys ∧
    (str "a/b.ts" ∈ (mkProject none false false).currentFiles.keys ∨
      normalizePath (str "a/b.ts") = str "a/b.ts") :=
  ⟨by decide, C10_normalizePath_idempotent.2 (mkProject none false false)
    ⟨str "a//B.ts", str "x", str "", str ""⟩ (str "a/b.ts") (by decide)⟩

/-! ## Sorted emission: visited-set, ordering and termination -/

/-- The normalized original name under which an artifact is visited and
emitted by `sortedEmit`. -/
def nameOf (f : PushedFile) : Str := normalizePath (getOriginalName f.path)

/-- The reference edge on normalized names: `x`'s reference list names
an artifact of `outputs` whose normalized original name is `y`. -/
def edgeR (refNames : Str → List Str) (outputs : List PushedFile)
    (x y : Str) : Prop :=
  ∃ h ∈ outputs, getOriginalName h.path ∈ refNames x ∧ nameOf h = y

/-- The `done` visited-set holds exactly the emitted names plus the
ghost stack `G` of in-progress (grey) nodes. -/
def DoneIff (es : EmitSt) (G : List Str) : Prop :=
  ∀ x : Str, es.done.contains x = true ↔
    (x ∈ es.pushed.map nameOf ∨ x ∈ G)

/-- Every referenced artifact of an already-pushed file either appears
earlier in the stream or (only along a cycle) reaches the referencing
file through the reference graph. -/
def OrdInvE (refNames : Str → List Str) (outputs : List PushedFile)
    (es : EmitSt) : Prop :=
  ∀ (j : Nat) (f : PushedFile), es.pushed[j]? = some f →
    ∀ g ∈ outputs, getOriginalName g.path ∈ refNames (nameOf f) →
      nameOf g ∈ (es.pushed.take j).map nameOf ∨
        Relation.ReflTransGen (edgeR refNames outputs) (nameOf g) (nameOf f)

/-- Distinct output names not yet visited (the fuel measure). -/
def undoneNames (outputs : List PushedFile) (es : EmitSt) : List Str :=
  ((outputs.map nameOf).dedup).filter (fun x => !es.done.contains x)

/-- Common post-condition of one emission phase starting at `es`. -/
def StepPost (refNames : Str → List Str) (outputs : List PushedFile)
    (es es' : EmitSt) (G : List Str) : Prop :=
  (∀ x, es.done.contains x = true → es'.done.contains x = true) ∧
  DoneIff es' G ∧ (es'.pushed.map nameOf).Nodup ∧
  OrdInvE refNames outputs es' ∧
  (∃ Δ, es'.pushed = es.pushed ++ Δ ∧
    ∀ x ∈ Δ.map nameOf, es.done.contains x = false)

theorem StepPost_refl (refNames : Str → List Str) (outputs : List PushedFile)
    (es : EmitSt) (G : List Str) (h1 : DoneIff es G)
    (h2 : (es.pushed.map nameOf).Nodup) (h3 : OrdInvE refNames outputs es) :
    StepPost refNames outputs es es G :=
  ⟨fun _ hx => hx, h1, h2, h3, ⟨[], by simp, by simp⟩⟩

theorem StepPost_trans (refNames : Str → List Str) (outputs : List PushedFile)
    (es es' es'' : EmitSt) (G : List Str)
    (h1 : StepPost refNames outputs es es' G)
    (h2 : StepPost refNames outputs es' es'' G) :
    StepPost refNames outputs es es'' G := by
  obtain ⟨g1, d1, n1, o1, Δ1, p1, f1⟩ := h1
  obtain ⟨g2, d2, n2, o2, Δ2, p2, f2⟩ := h2
  refine ⟨fun x hx => g2 x (g1 x hx), d2, n2, o2, Δ1 ++ Δ2, ?_, ?_⟩
  · rw [p2, p1, List.append_assoc]
  · intro x hx
    rw [List.map_append] at hx
    rcases List.mem_append.mp hx with hx | hx
    · exact f1 x hx
    · cases hcc : es.done.contains x with
      | false => rfl
      | true =>
          have hco := g1 x hcc
          rw [f2 x hx] at hco
          exact Bool.noConfusion hco

theorem sortedVisit_succ (out : Option Str) (smaps : StrMap Str)
    (refNames : Str → List Str) (outputs : List PushedFile) (f : Nat)
    (nf : Str × PushedFile) (es : EmitSt) :
    sortedVisit out smaps refNames outputs (f + 1) nf es =
      (if es.done.contains (normalizePath nf.1) then es
       else
        emitOne out smaps (normalizePath nf.1) nf.2
          (visitChildren out smaps refNames outputs f
            (refNames (normalizePath nf.1)) outputs
            { es with done := es.done.insert (normalizePath nf.1) true })) := by
  simp only [sortedVisit]

theorem sortedVisit_zero (out : Option Str) (smaps : StrMap Str)
    (refNames : Str → List Str) (outputs : List PushedFile)
    (nf : Str × PushedFile) (es : EmitSt) :
    sortedVisit out smaps refNames outputs 0 nf es = es := by
  simp only [sortedVisit]

theorem visitChildren_nil (out : Option Str) (smaps : StrMap Str)
    (refNames : Str → List Str) (outputs : List PushedFile) (fuel : Nat)
    (refs : List Str) (es : EmitSt) :
    visitChildren out smaps refNames outputs fuel refs [] es = es := by
  simp only [visitChildren]

theorem visitChildren_cons (out : Option Str) (smaps : StrMap Str)
    (refNames : Str → List Str) (outputs : List PushedFile) (fuel : Nat)
    (refs : List Str) (other : PushedFile) (rest : List PushedFile)
    (es : EmitSt) :
    visitChildren out smaps refNames outputs fuel refs (other :: rest) es =
      visitChildren out smaps refNames outputs fuel refs rest
        (if getOriginalName other.path ∈ refs then
          sortedVisit out smaps refNames outputs fuel
            (getOriginalName other.path, other) es
        else es) := by
  simp only [visitChildren]

theorem sortedTops_cons (out : Option Str) (smaps : StrMap Str)
    (refNames : Str → List Str) (outputs : List PushedFile) (fuel : Nat)
    (f : PushedFile) (rest : List PushedFile) (es : EmitSt) :
    sortedTops out smaps refNames outputs fuel (f :: rest) es =
      sortedTops out smaps refNames outputs fuel rest
        (sortedVisit out smaps refNames outputs fuel
          (getOriginalName f.path, f) es) := rfl

theorem emitOne_done (out : Option Str) (smaps : StrMap Str) (n : Str)
    (g : PushedFile) (es : EmitSt) :
    (emitOne out smaps n g es).done = es.done := rfl

theorem length_filter_mono {α : Type} (l : List α) (p q : α → Bool)
    (h : ∀ x, p x = true → q x = true) :
    (l.filter p).length ≤ (l.filter q).length := by
  induction l with
  | nil => exact Nat.le_refl 0
  | cons a rest ih =>
      rw [List.filter_cons, List.filter_cons]
      cases hp : p a with
      | true =>
          rw [h a hp, if_pos rfl, if_pos rfl, List.length_cons,
            List.length_cons]
          exact Nat.succ_le_succ ih
      | false =>
          rw [if_neg (by simp)]
          cases hq : q a with
          | true =>
              rw [if_pos rfl, List.length_cons]
              exact Nat.le_trans ih (Nat.le_succ _)
          | false =>
              rw [if_neg (by simp)]
              exact ih

theorem nodup_mem_filter_ne_length (a : Str) :
    ∀ l : List Str, l.Nodup → a ∈ l →
      (l.filter (fun x => !decide (x = a))).length + 1 = l.length := by
  intro l
  induction l with
  | nil => intro _ h; cases h
  | cons b rest ih =>
      intro hnd hmem
      rw [List.nodup_cons] at hnd
      rw [List.filter_cons]
      by_cases hb : b = a
      · rw [if_neg (by simp [hb])]
        have hrest : rest.filter (fun x => !decide (x = a)) = rest := by
          apply List.filter_eq_self.mpr
          intro x hx
          have hxa : x ≠ a := by
            intro hxa
            exact hnd.1 (by rw [hb, ← hxa]; exact hx)
          simp [hxa]
        rw [hrest, List.length_cons]
      · have hmem' : a ∈ rest := by
          rcases List.mem_cons.mp hmem with h | h
          · exact absurd h.symm hb
          · exact h
        rw [if_pos (by simp [hb]), List.length_cons, List.length_cons,
          ih hnd.2 hmem']

theorem undoneNames_mono (outputs : List PushedFile) (es es' : EmitSt)
    (h : ∀ x, es.done.contains x = true → es'.done.contains x = true) :
    (undoneNames outputs es').length ≤ (undoneNames outputs es).length := by
  apply length_filter_mono
  intro x hx
  cases hcc : es.done.contains x with
  | false => rfl
  | true =>
      rw [h x hcc] at hx
      simp at hx

theorem undoneNames_insert (outputs : List PushedFile) (es : EmitSt) (n : Str)
    (hU : n ∈ (outputs.map nameOf).dedup)
    (hdn : es.done.contains n = false) :
    (undoneNames outputs
        { es with done := es.done.insert n true }).length + 1
      = (undoneNames outputs es).length := by
  have hset : undoneNames outputs { es with done := es.done.insert n true }
      = (undoneNames outputs es).filter (fun x => !decide (x = n)) := by
    unfold undoneNames
    rw [List.filter_filter]
    apply List.filter_congr
    intro x _
    show (!(es.done.insert n true).contains x)
        = ((!decide (x = n)) && (!es.done.contains x))
    rw [StrMap.contains_insert]
    cases es.done.contains x <;> cases hxn : decide (x = n) <;> simp
  rw [hset]
  apply nodup_mem_filter_ne_length
  · exact List.Nodup.filter _ (List.nodup_dedup _)
  · unfold undoneNames
    rw [List.mem_filter]
    exact ⟨hU, by rw [hdn]; rfl⟩

/-- The visited-set only ever grows during the depth-first traversal. -/
theorem sorted_growth (out : Option Str) (smaps : StrMap Str)
    (refNames : Str → List Str) (outputs : List PushedFile) :
    ∀ fuel : Nat,
      (∀ (nf : Str × PushedFile) (es : EmitSt) (x : Str),
        es.done.contains x = true →
        (sortedVisit out smaps refNames outputs fuel nf es).done.contains x
          = true) ∧
      (∀ (refs : List Str) (lst : List PushedFile), ∀ (es : EmitSt) (x : Str),
        es.done.contains x = true →
        (visitChildren out smaps refNames outputs fuel refs lst es).done.contains
          x = true) := by
  intro fuel
  induction fuel with
  | zero =>
      constructor
      · intro nf es x hx
        rw [sortedVisit_zero]
        exact hx
      · intro refs lst
        induction lst with
        | nil =>
            intro es x hx
            rw [visitChildren_nil]
            exact hx
        | cons other rest ihl =>
            intro es x hx
            rw [visitChildren_cons]
            apply ihl
            by_cases hin : getOriginalName other.path ∈ refs
            · rw [if_pos hin, sortedVisit_zero]
              exact hx
            · rw [if_neg hin]
              exact hx
  | succ f ihf =>
      have hv : ∀ (nf : Str × PushedFile) (es : EmitSt) (x : Str),
          es.done.contains x = true →
          (sortedVisit out smaps refNames outputs (f + 1) nf es).done.contains x
            = true := by
        intro nf es x hx
        rw [sortedVisit_succ]
        by_cases hdn : es.done.contains (normalizePath nf.1) = true
        · rw [if_pos hdn]
          exact hx
        · rw [if_neg hdn, emitOne_done]
          apply ihf.2
          show (es.done.insert (normalizePath nf.1) true).contains x = true
          rw [StrMap.contains_insert, hx, Bool.true_or]
      refine ⟨hv, ?_⟩
      intro refs lst
      induction lst with
      | nil =>
          intro es x hx
          rw [visitChildren_nil]
          exact hx
      | cons other rest ihl =>
          intro es x hx
          rw [visitChildren_cons]
          apply ihl
          by_cases hin : getOriginalName other.path ∈ refs
          · rw [if_pos hin]
            exact hv _ es x hx
          · rw [if_neg hin]
            exact hx

/-- Invariant preservation of the depth-first emission: with adequate
fuel, nodes drawn from the output list and ghost grey stack `G`, one
`sortedVisit` (resp. one children sweep) preserves the visited-set
characterization, stream deduplication and the ordering invariant, and
completes its node (resp. all referenced nodes of its list). -/
theorem sorted_spec (out : Option Str) (smaps : StrMap Str)
    (refNames : Str → List Str) (outputs : List PushedFile) :
    ∀ fuel : Nat,
      (∀ (nf : Str × PushedFile) (es : EmitSt) (G : List Str),
        (undoneNames outputs es).length + 1 ≤ fuel →
        nf.1 = getOriginalName nf.2.path → nf.2 ∈ outputs →
        DoneIff es G → (es.pushed.map nameOf).Nodup →
        OrdInvE refNames outputs es →
        (∀ a ∈ G, Relation.ReflTransGen (edgeR refNames outputs) a
          (normalizePath nf.1)) →
        StepPost refNames outputs es
          (sortedVisit out smaps refNames outputs fuel nf es) G ∧
        (sortedVisit out smaps refNames outputs fuel nf es).done.contains
          (normalizePath nf.1) = true) ∧
      (∀ (lst : List PushedFile), ∀ (ncur : Str) (es : EmitSt) (G : List Str),
        (undoneNames outputs es).length + 1 ≤ fuel →
        (∀ g ∈ lst, g ∈ outputs) →
        DoneIff es G → (es.pushed.map nameOf).Nodup →
        OrdInvE refNames outputs es →
        (∀ a ∈ G, Relation.ReflTransGen (edgeR refNames outputs) a ncur) →
        StepPost refNames outputs es
          (visitChildren out smaps refNames outputs fuel (refNames ncur) lst
            es) G ∧
        (∀ g ∈ lst, getOriginalName g.path ∈ refNames ncur →
          (visitChildren out smaps refNames outputs fuel (refNames ncur) lst
              es).done.contains (nameOf g) = true)) := by
  intro fuel
  induction fuel with
  | zero =>
      constructor
      · intro nf es G hfuel _ _ _ _ _ _
        exact absurd hfuel (by omega)
      · intro lst ncur es G hfuel _ _ _ _ _
        exact absurd hfuel (by omega)
  | succ f ihf =>
      have hvisit : ∀ (nf : Str × PushedFile) (es : EmitSt) (G : List Str),
          (undoneNames outputs es).length + 1 ≤ f + 1 →
          nf.1 = getOriginalName nf.2.path → nf.2 ∈ outputs →
          DoneIff es G → (es.pushed.map nameOf).Nodup →
          OrdInvE refNames outputs es →
          (∀ a ∈ G, Relation.ReflTransGen (edgeR refNames outputs) a
            (normalizePath nf.1)) →
          StepPost refNames outputs es
            (sortedVisit out smaps refNames outputs (f + 1) nf es) G ∧
          (sortedVisit out smaps refNames outputs (f + 1) nf es).done.contains
            (normalizePath nf.1) = true := by
        intro nf es G hfuel hname hmem hdiff hnodup hord hG
        rw [sortedVisit_succ]
        by_cases hdn : es.done.contains (normalizePath nf.1) = true
        · rw [if_pos hdn]
          exact ⟨StepPost_refl refNames outputs es G hdiff hnodup hord, hdn⟩
        · rw [if_neg hdn]
          have hdnf : es.done.contains (normalizePath nf.1) = false := by
            cases h : es.done.contains (normalizePath nf.1)
            · rfl
            · exact absurd h hdn
          have hnU : normalizePath nf.1 ∈ (outputs.map nameOf).dedup := by
            rw [List.mem_dedup]
            refine List.mem_map.mpr ⟨nf.2, hmem, ?_⟩
            show normalizePath (getOriginalName nf.2.path) = normalizePath nf.1
            rw [← hname]
          have hins := undoneNames_insert outputs es (normalizePath nf.1) hnU
            hdnf
          have hdiff1 : DoneIff
              { es with done := es.done.insert (normalizePath nf.1) true }
              (normalizePath nf.1 :: G) := by
            intro x
            show (es.done.insert (normalizePath nf.1) true).contains x = true ↔
              (x ∈ es.pushed.map nameOf ∨ x ∈ normalizePath nf.1 :: G)
            rw [StrMap.contains_insert, Bool.or_eq_true, decide_eq_true_eq,
              hdiff x]
            constructor
            · rintro ((h | h) | h)
              · exact Or.inl h
              · exact Or.inr (List.mem_cons_of_mem _ h)
              · exact Or.inr (by rw [h]; exact List.mem_cons_self _ _)
            · rintro (h | h)
              · exact Or.inl (Or.inl h)
              · rcases List.mem_cons.mp h with h | h
                · exact Or.inr h
                · exact Or.inl (Or.inr h)
          have hfuel1 : (undoneNames outputs
              { es with done := es.done.insert (normalizePath nf.1) true
              }).length + 1 ≤ f := by omega
          have hnodup1 :
              ((({ es with done := es.done.insert (normalizePath nf.1) true }
                : EmitSt)).pushed.map nameOf).Nodup :=
            hnodup
          have hord1 : OrdInvE refNames outputs
              { es with done := es.done.insert (normalizePath nf.1) true } :=
            hord
          have hGreach : ∀ a ∈ normalizePath nf.1 :: G,
              Relation.ReflTransGen (edgeR refNames outputs) a
                (normalizePath nf.1) := by
            intro a ha
            rcases List.mem_cons.mp ha with h | h
            · rw [h]
            · exact hG a h
          obtain ⟨⟨hgrow2, hdiff2, hnodup2, hord2, Δc, hΔc, hΔcnew⟩, hmark2⟩ :=
            ihf.2 outputs (normalizePath nf.1)
              { es with done := es.done.insert (normalizePath nf.1) true }
              (normalizePath nf.1 :: G) hfuel1 (fun g hg => hg) hdiff1 hnodup1
              hord1 hGreach
          obtain ⟨b, hcch, hpsh, hdone3⟩ := emitOne_cachePushed out smaps
            (normalizePath nf.1) nf.2
            (visitChildren out smaps refNames outputs f
              (refNames (normalizePath nf.1)) outputs
              { es with done := es.done.insert (normalizePath nf.1) true })
          set es2 := visitChildren out smaps refNames outputs f
            (refNames (normalizePath nf.1)) outputs
            { es with done := es.done.insert (normalizePath nf.1) true }
            with hes2
          have hnamef : nameOf { nf.2 with sourceMap := b }
              = normalizePath nf.1 := by
            show normalizePath (getOriginalName nf.2.path) = normalizePath nf.1
            rw [← hname]
          have hes1p :
              (({ es with done := es.done.insert (normalizePath nf.1) true }
                : EmitSt)).pushed = es.pushed := rfl
          refine ⟨⟨?_, ?_, ?_, ?_, ?_⟩, ?_⟩
          · intro x hx
            rw [hdone3]
            apply hgrow2
            show (es.done.insert (normalizePath nf.1) true).contains x = true
            rw [StrMap.contains_insert, hx, Bool.true_or]
          · intro x
            rw [hdone3, hpsh, List.map_append, hdiff2 x]
            simp only [List.mem_append, List.map_cons, List.map_nil,
              List.mem_singleton, List.mem_cons, hnamef]
            tauto
          · rw [hpsh, List.map_append]
            have hnp2 : normalizePath nf.1 ∉ es2.pushed.map nameOf := by
              rw [hΔc, hes1p, List.map_append]
              intro hmemn
              rcases List.mem_append.mp hmemn with h | h
              · have hco : es.done.contains (normalizePath nf.1) = true :=
                  (hdiff (normalizePath nf.1)).mpr (Or.inl h)
                rw [hdnf] at hco
                exact Bool.noConfusion hco
              · have hfalse := hΔcnew (normalizePath nf.1) h
                have htrue :
                    (({ es with
                        done := es.done.insert (normalizePath nf.1) true }
                      : EmitSt)).done.contains (normalizePath nf.1) = true := by
                  show (es.done.insert (normalizePath nf.1) true).contains
                    (normalizePath nf.1) = true
                  rw [StrMap.contains_insert]
                  simp
                rw [hfalse] at htrue
                exact Bool.noConfusion htrue
            simp only [List.map_cons, List.map_nil, hnamef]
            rw [List.nodup_append]
            refine ⟨hnodup2, List.nodup_singleton _, ?_⟩
            intro y hy hy2
            rw [List.mem_singleton.mp hy2] at hy
            exact hnp2 hy
          · intro j fj hj g hgmem hgref
            rw [hpsh] at hj
            rw [hpsh]
            by_cases hlt : j < es2.pushed.length
            · rw [List.getElem?_append_left hlt] at hj
              rw [List.take_append_of_le_length (Nat.le_of_lt hlt)]
              exact hord2 j fj hj g hgmem hgref
            · have hlen : j = es2.pushed.length := by
                by_contra hne
                have hle : (es2.pushed
                    ++ [{ nf.2 with sourceMap := b }]).length ≤ j := by
                  rw [List.length_append, List.length_singleton]
                  omega
                rw [List.getElem?_eq_none hle] at hj
                exact Option.noConfusion hj
              subst hlen
              rw [List.getElem?_concat_length] at hj
              have hfj : fj = { nf.2 with sourceMap := b } :=
                (Option.some_inj.mp hj).symm
              rw [hfj, hnamef] at hgref
              have hgdone := hmark2 g hgmem hgref
              rcases (hdiff2 (nameOf g)).mp hgdone with hgp | hgG
              · left
                rw [List.take_append_of_le_length (Nat.le_refl _),
                  List.take_length]
                exact hgp
              · right
                rw [hfj, hnamef]
                rcases List.mem_cons.mp hgG with hgn | hgG0
                · rw [hgn]
                · exact hG (nameOf g) hgG0
          · refine ⟨Δc ++ [{ nf.2 with sourceMap := b }], ?_, ?_⟩
            · rw [hpsh, hΔc, hes1p, List.append_assoc]
            · intro x hx
              rw [List.map_append] at hx
              rcases List.mem_append.mp hx with hx | hx
              · have h1 := hΔcnew x hx
                show es.done.contains x = false
                have h2 : (es.done.insert (normalizePath nf.1) true).contains x
                    = false := h1
                rw [StrMap.contains_insert] at h2
                exact (Bool.or_eq_false_iff.mp h2).1
              · simp only [List.map_cons, List.map_nil, List.mem_singleton,
                  hnamef] at hx
                rw [hx]
                exact hdnf
          · rw [hdone3]
            apply hgrow2
            show (es.done.insert (normalizePath nf.1) true).contains
              (normalizePath nf.1) = true
            rw [StrMap.contains_insert]
            simp
      have hchildren : ∀ (lst : List PushedFile), ∀ (ncur : Str) (es : EmitSt)
          (G : List Str),
          (undoneNames outputs es).length + 1 ≤ f + 1 →
          (∀ g ∈ lst, g ∈ outputs) →
          DoneIff es G → (es.pushed.map nameOf).Nodup →
          OrdInvE refNames outputs es →
          (∀ a ∈ G, Relation.ReflTransGen (edgeR refNames outputs) a ncur) →
          StepPost refNames outputs es
            (visitChildren out smaps refNames outputs (f + 1) (refNames ncur)
              lst es) G ∧
          (∀ g ∈ lst, getOriginalName g.path ∈ refNames ncur →
            (visitChildren out smaps refNames outputs (f + 1) (refNames ncur)
                lst es).done.contains (nameOf g) = true) := by
        intro lst
        induction lst with
        | nil =>
            intro ncur es G _ _ hdiff hnodup hord _
            rw [visitChildren_nil]
            exact ⟨StepPost_refl refNames outputs es G hdiff hnodup hord,
              fun g hg => absurd hg (List.not_mem_nil g)⟩
        | cons other rest ihl =>
            intro ncur es G hfuel hsub hdiff hnodup hord hG
            rw [visitChildren_cons]
            by_cases hin : getOriginalName other.path ∈ refNames ncur
            · rw [if_pos hin]
              obtain ⟨hstep1, hmark1⟩ := hvisit
                (getOriginalName other.path, other) es G hfuel rfl
                (hsub other (List.mem_cons_self other rest)) hdiff hnodup hord
                (fun a ha => Relation.ReflTransGen.tail (hG a ha)
                  ⟨other, hsub other (List.mem_cons_self other rest), hin,
                    rfl⟩)
              obtain ⟨hg1, hd1, hn1, ho1, hΔ1⟩ := hstep1
              obtain ⟨hstep2, hmark2⟩ := ihl ncur
                (sortedVisit out smaps refNames outputs (f + 1)
                  (getOriginalName other.path, other) es) G
                (by have hm := undoneNames_mono outputs es _ hg1; omega)
                (fun g hg => hsub g (List.mem_cons_of_mem other hg)) hd1 hn1
                ho1 hG
              refine ⟨StepPost_trans refNames outputs es _ _ G
                ⟨hg1, hd1, hn1, ho1, hΔ1⟩ hstep2, ?_⟩
              intro g hg hgref
              rcases List.mem_cons.mp hg with hg | hg
              · obtain ⟨hg2, _, _, _, _⟩ := hstep2
                rw [hg]
                exact hg2 (nameOf other) hmark1
              · exact hmark2 g hg hgref
            · rw [if_neg hin]
              obtain ⟨hstep2, hmark2⟩ := ihl ncur es G hfuel
                (fun g hg => hsub g (List.mem_cons_of_mem other hg)) hdiff
                hnodup hord hG
              refine ⟨hstep2, ?_⟩
              intro g hg hgref
              rcases List.mem_cons.mp hg with hg | hg
              · exact absurd (by rw [← hg]; exact hgref) hin
              · exact hmark2 g hg hgref
      exact ⟨hvisit, hchildren⟩

/-- With adequate fuel the traversal result does not depend on the
fuel: the recursion depth is bounded by the number of distinct output
names even on cyclic reference graphs. -/
theorem sorted_stab (out : Option Str) (smaps : StrMap Str)
    (refNames : Str → List Str) (outputs : List PushedFile) :
    ∀ f1 : Nat,
      (∀ (f2 : Nat) (nf : Str × PushedFile) (es : EmitSt),
        nf.1 = getOriginalName nf.2.path → nf.2 ∈ outputs →
        (undoneNames outputs es).length + 1 ≤ f1 →
        (undoneNames outputs es).length + 1 ≤ f2 →
        sortedVisit out smaps refNames outputs f1 nf es
          = sortedVisit out smaps refNames outputs f2 nf es) ∧
      (∀ (f2 : Nat) (refs : List Str) (lst : List PushedFile) (es : EmitSt),
        (∀ g ∈ lst, g ∈ outputs) →
        (undoneNames outputs es).length + 1 ≤ f1 →
        (undoneNames outputs es).length + 1 ≤ f2 →
        visitChildren out smaps refNames outputs f1 refs lst es
          = visitChildren out smaps refNames outputs f2 refs lst es) := by
  intro f1
  induction f1 with
  | zero =>
      constructor
      · intro f2 nf es _ _ hf1 _
        exact absurd hf1 (by omega)
      · intro f2 refs lst es _ hf1 _
        exact absurd hf1 (by omega)
  | succ f ihf =>
      have hv : ∀ (f2 : Nat) (nf : Str × PushedFile) (es : EmitSt),
          nf.1 = getOriginalName nf.2.path → nf.2 ∈ outputs →
          (undoneNames outputs es).length + 1 ≤ f + 1 →
          (undoneNames outputs es).length + 1 ≤ f2 →
          sortedVisit out smaps refNames outputs (f + 1) nf es
            = sortedVisit out smaps refNames outputs f2 nf es := by
        intro f2 nf es hname hmem hf1 hf2
        cases f2 with
        | zero => exact absurd hf2 (by omega)
        | succ f2' =>
            rw [sortedVisit_succ, sortedVisit_succ]
            by_cases hdn : es.done.contains (normalizePath nf.1) = true
            · rw [if_pos hdn, if_pos hdn]
            · rw [if_neg hdn, if_neg hdn]
              have hdnf : es.done.contains (normalizePath nf.1) = false := by
                cases h : es.done.contains (normalizePath nf.1)
                · rfl
                · exact absurd h hdn
              have hnU : normalizePath nf.1 ∈ (outputs.map nameOf).dedup := by
                rw [List.mem_dedup]
                refine List.mem_map.mpr ⟨nf.2, hmem, ?_⟩
                show normalizePath (getOriginalName nf.2.path)
                  = normalizePath nf.1
                rw [← hname]
              have hins := undoneNames_insert outputs es (normalizePath nf.1)
                hnU hdnf
              congr 1
              exact ihf.2 f2' (refNames (normalizePath nf.1)) outputs
                { es with done := es.done.insert (normalizePath nf.1) true }
                (fun g hg => hg) (by omega) (by omega)
      refine ⟨hv, ?_⟩
      intro f2 refs lst
      induction lst with
      | nil =>
          intro es _ _ _
          rw [visitChildren_nil, visitChildren_nil]
      | cons other rest ihl =>
          intro es hsub hf1 hf2
          cases f2 with
          | zero => exact absurd hf2 (by omega)
          | succ f2' =>
              rw [visitChildren_cons, visitChildren_cons]
              by_cases hin : getOriginalName other.path ∈ refs
              · rw [if_pos hin, if_pos hin]
                have hchild := hv (f2' + 1) (getOriginalName other.path, other)
                  es rfl (hsub other (List.mem_cons_self other rest)) hf1 hf2
                rw [← hchild]
                have hmono := undoneNames_mono outputs es
                  (sortedVisit out smaps refNames outputs (f + 1)
                    (getOriginalName other.path, other) es)
                  (fun x hx => (sorted_growth out smaps refNames outputs
                    (f + 1)).1 _ es x hx)
                exact ihl (sortedVisit out smaps refNames outputs (f + 1)
                    (getOriginalName other.path, other) es)
                  (fun g hg => hsub g (List.mem_cons_of_mem other hg))
                  (by omega) (by omega)
              · rw [if_neg hin, if_neg hin]
                exact ihl es
                  (fun g hg => hsub g (List.mem_cons_of_mem other hg)) hf1 hf2

/-- The top-level loop of the sorted branch preserves the invariants. -/
theorem sortedTops_spec (out : Option Str) (smaps : StrMap Str)
    (refNames : Str → List Str) (outputs : List PushedFile) (fuel : Nat) :
    ∀ (lst : List PushedFile), ∀ es : EmitSt,
      (undoneNames outputs es).length + 1 ≤ fuel →
      (∀ g ∈ lst, g ∈ outputs) →
      DoneIff es [] → (es.pushed.map nameOf).Nodup →
      OrdInvE refNames outputs es →
      StepPost refNames outputs es
        (sortedTops out smaps refNames outputs fuel lst es) [] := by
  intro lst
  induction lst with
  | nil =>
      intro es _ _ hdiff hnodup hord
      exact StepPost_refl refNames outputs es [] hdiff hnodup hord
  | cons fl rest ihl =>
      intro es hfuel hsub hdiff hnodup hord
      rw [sortedTops_cons]
      obtain ⟨hstep1, hmark1⟩ := (sorted_spec out smaps refNames outputs
          fuel).1 (getOriginalName fl.path, fl) es [] hfuel rfl
        (hsub fl (List.mem_cons_self fl rest)) hdiff hnodup hord
        (fun a ha => absurd ha (List.not_mem_nil a))
      obtain ⟨hg1, hd1, hn1, ho1, hΔ1⟩ := hstep1
      have hstep2 := ihl (sortedVisit out smaps refNames outputs fuel
          (getOriginalName fl.path, fl) es)
        (by have hm := undoneNames_mono outputs es _ hg1; omega)
        (fun g hg => hsub g (List.mem_cons_of_mem fl hg)) hd1 hn1 ho1
      exact StepPost_trans refNames outputs es _ _ []
        ⟨hg1, hd1, hn1, ho1, hΔ1⟩ hstep2

/-- Fuel-stability of the top-level loop. -/
theorem sortedTops_stab (out : Option Str) (smaps : StrMap Str)
    (refNames : Str → List Str) (outputs : List PushedFile) :
    ∀ (lst : List PushedFile) (f1 f2 : Nat) (es : EmitSt),
      (∀ g ∈ lst, g ∈ outputs) →
      (undoneNames outputs es).length + 1 ≤ f1 →
      (undoneNames outputs es).length + 1 ≤ f2 →
      sortedTops out smaps refNames outputs f1 lst es
        = sortedTops out smaps refNames outputs f2 lst es := by
  intro lst
  induction lst with
  | nil => intro f1 f2 es _ _ _; rfl
  | cons fl rest ihl =>
      intro f1 f2 es hsub hf1 hf2
      rw [sortedTops_cons, sortedTops_cons]
      have hchild := (sorted_stab out smaps refNames outputs f1).1 f2
        (getOriginalName fl.path, fl) es rfl
        (hsub fl (List.mem_cons_self fl rest)) hf1 hf2
      rw [← hchild]
      have hmono := undoneNames_mono outputs es
        (sortedVisit out smaps refNames outputs f1
          (getOriginalName fl.path, fl) es)
        (fun x hx => (sorted_growth out smaps refNames outputs f1).1 _ es x hx)
      exact ihl f1 f2 (sortedVisit out smaps refNames outputs f1
          (getOriginalName fl.path, fl) es)
        (fun g hg => hsub g (List.mem_cons_of_mem fl hg)) (by omega) (by omega)

/-- The initial fuel of `compileEmit` is always adequate. -/
theorem undoneNames_initial (outputs : List PushedFile) (cache :
    Option (List OutputFile)) :
    (undoneNames outputs (⟨StrMap.empty, cache, []⟩ : EmitSt)).length + 1
      ≤ outputs.length + 1 := by
  have h1 : (undoneNames outputs (⟨StrMap.empty, cache, []⟩ : EmitSt)).length
      ≤ ((outputs.map nameOf).dedup).length := List.length_filter_le _ _
  have h2 : ((outputs.map nameOf).dedup).length ≤ (outputs.map nameOf).length :=
    (List.dedup_sublist _).length_le
  rw [List.length_map] at h2
  omega

/-- `compileEmit` in sorted mode. -/
theorem compileEmit_sorted (st : ProjectState) (refNames : Str → List Str)
    (engineOutput : List (Str × Str)) (diagnostics : Nat)
    (hsort : st.sortOutput = true) :
    compileEmit st refNames engineOutput diagnostics =
      sortedTops st.optionsOut (compileAcc st engineOutput diagnostics).smaps
        refNames (compileAcc st engineOutput diagnostics).outputJS
        ((compileAcc st engineOutput diagnostics).outputJS.length + 1)
        (compileAcc st engineOutput diagnostics).outputJS
        ⟨StrMap.empty, if diagnostics ≠ 0 then none else some [], []⟩ := by
  rw [show compileEmit st refNames engineOutput diagnostics =
      (if st.sortOutput then
        sortedTops st.optionsOut (compileAcc st engineOutput diagnostics).smaps
          refNames (compileAcc st engineOutput diagnostics).outputJS
          ((compileAcc st engineOutput diagnostics).outputJS.length + 1)
          (compileAcc st engineOutput diagnostics).outputJS
          ⟨StrMap.empty, if diagnostics ≠ 0 then none else some [], []⟩
      else
        plainEmitAll st.optionsOut
          (compileAcc st engineOutput diagnostics).smaps
          (compileAcc st engineOutput diagnostics).outputJS
          ⟨StrMap.empty, if diagnostics ≠ 0 then none else some [], []⟩)
    from rfl, hsort]
  rw [if_pos rfl]

/-- The children sweep with an explicit visiting function (computable
clone of `visitChildren`). -/
def childrenGo (visit : Str × PushedFile → EmitSt → EmitSt)
    (refs : List Str) : List PushedFile → EmitSt → EmitSt
  | [], es => es
  | other :: rest, es =>
      childrenGo visit refs rest
        (if getOriginalName other.path ∈ refs then
          visit (getOriginalName other.path, other) es
        else es)

/-- Fuel-structural clone of `sortedVisit`, used to evaluate concrete
runs (the mutual recursion is compiled by well-founded recursion and
does not reduce definitionally). -/
def sortedVisitX (out : Option Str) (smaps : StrMap Str)
    (refNames : Str → List Str) (outputs : List PushedFile) :
    Nat → Str × PushedFile → EmitSt → EmitSt
  | 0, _, es => es
  | fuel + 1, nf, es =>
      let n := normalizePath nf.1
      if es.done.contains n then es
      else
        emitOne out smaps n nf.2
          (childrenGo (sortedVisitX out smaps refNames outputs fuel)
            (refNames n) outputs
            { es with done := es.done.insert n true })

/-- The top-level loop with an explicit visiting function. -/
def topsGo (visit : Str × PushedFile → EmitSt → EmitSt) :
    List PushedFile → EmitSt → EmitSt
  | [], es => es
  | fl :: rest, es =>
      topsGo visit rest (visit (getOriginalName fl.path, fl) es)

theorem sorted_eq_X (out : Option Str) (smaps : StrMap Str)
    (refNames : Str → List Str) (outputs : List PushedFile) :
    ∀ fuel : Nat,
      (∀ (nf : Str × PushedFile) (es : EmitSt),
        sortedVisit out smaps refNames outputs fuel nf es
          = sortedVisitX out smaps refNames outputs fuel nf es) ∧
      (∀ (refs : List Str) (lst : List PushedFile) (es : EmitSt),
        visitChildren out smaps refNames outputs fuel refs lst es
          = childrenGo (sortedVisitX out smaps refNames outputs fuel) refs
              lst es) := by
  intro fuel
  induction fuel with
  | zero =>
      have hv : ∀ (nf : Str × PushedFile) (es : EmitSt),
          sortedVisit out smaps refNames outputs 0 nf es
            = sortedVisitX out smaps refNames outputs 0 nf es := by
        intro nf es
        rw [sortedVisit_zero]
        rfl
      refine ⟨hv, ?_⟩
      intro refs lst
      induction lst with
      | nil =>
          intro es
          rw [visitChildren_nil]
          rfl
      | cons other rest ihl =>
          intro es
          rw [visitChildren_cons, ihl]
          show childrenGo _ refs rest _ = childrenGo _ refs rest _
          congr 1
          by_cases hin : getOriginalName other.path ∈ refs
          · rw [if_pos hin, if_pos hin, hv]
          · rw [if_neg hin, if_neg hin]
  | succ f ihf =>
      have hv : ∀ (nf : Str × PushedFile) (es : EmitSt),
          sortedVisit out smaps refNames outputs (f + 1) nf es
            = sortedVisitX out smaps refNames outputs (f + 1) nf es := by
        intro nf es
        rw [sortedVisit_succ]
        rw [show sortedVisitX out smaps refNames outputs (f + 1) nf es
            = (if es.done.contains (normalizePath nf.1) then es
               else emitOne out smaps (normalizePath nf.1) nf.2
                 (childrenGo (sortedVisitX out smaps refNames outputs f)
                   (refNames (normalizePath nf.1)) outputs
                   { es with
                     done := es.done.insert (normalizePath nf.1) true }))
          from rfl]
        by_cases hdn : es.done.contains (normalizePath nf.1) = true
        · rw [if_pos hdn, if_pos hdn]
        · rw [if_neg hdn, if_neg hdn, ihf.2]
      refine ⟨hv, ?_⟩
      intro refs lst
      induction lst with
      | nil =>
          intro es
          rw [visitChildren_nil]
          rfl
      | cons other rest ihl =>
          intro es
          rw [visitChildren_cons, ihl]
          show childrenGo _ refs rest _ = childrenGo _ refs rest _
          congr 1
          by_cases hin : getOriginalName other.path ∈ refs
          · rw [if_pos hin, if_pos hin, hv]
          · rw [if_neg hin, if_neg hin]

theorem sortedTops_eq_X (out : Option Str) (smaps : StrMap Str)
    (refNames : Str → List Str) (outputs : List PushedFile) (fuel : Nat) :
    ∀ (lst : List PushedFile) (es : EmitSt),
      sortedTops out smaps refNames outputs fuel lst es
        = topsGo (sortedVisitX out smaps refNames outputs fuel) lst es := by
  intro lst
  induction lst with
  | nil => intro es; rfl
  | cons fl rest ihl =>
      intro es
      rw [sortedTops_cons, ihl]
      show topsGo _ rest _ = topsGo _ rest _
      congr 1
      exact (sorted_eq_X out smaps refNames outputs fuel).1 _ es

/-- `compileEmit` in sorted mode, through the computable clone. -/
theorem compileEmit_sorted_X (st : ProjectState) (refNames : Str → List Str)
    (engineOutput : List (Str × Str)) (diagnostics : Nat)
    (hsort : st.sortOutput = true) :
    compileEmit st refNames engineOutput diagnostics =
      topsGo (sortedVisitX st.optionsOut
          (compileAcc st engineOutput diagnostics).smaps refNames
          (compileAcc st engineOutput diagnostics).outputJS
          ((compileAcc st engineOutput diagnostics).outputJS.length + 1))
        (compileAcc st engineOutput diagnostics).outputJS
        ⟨StrMap.empty, if diagnostics ≠ 0 then none else some [], []⟩ := by
  rw [compileEmit_sorted st refNames engineOutput diagnostics hsort]
  exact sortedTops_eq_X _ _ _ _ _ _ _

/-- C6 (amended): when `sortOutput` is active, (1) the JavaScript
stream never receives two artifacts with the same normalized original
name — the `done` visited-set deduplicates; (2) the traversal
terminates even on cyclic reference graphs: its result is
fuel-insensitive from `outputs.length + 1` onwards; (3) when the
reference graph is acyclic, for every pair where emitted artifact A's
reference list names output B, B's artifact is pushed strictly before
A's.  The spec's ordering clause holds only under acyclicity: on a
reference cycle the traversal emits a referencing unit before its
referenced unit (see the counterexample). -/
theorem C6_sorted_emission_order (st : ProjectState)
    (refNames : Str → List Str) (engineOutput : List (Str × Str))
    (diagnostics : Nat) (hsort : st.sortOutput = true) :
    (((compile st refNames engineOutput diagnostics).jsFiles.map
      nameOf).Nodup) ∧
    (∀ fuel : Nat,
      (compileAcc st engineOutput diagnostics).outputJS.length + 1 ≤ fuel →
      sortedTops st.optionsOut (compileAcc st engineOutput diagnostics).smaps
          refNames (compileAcc st engineOutput diagnostics).outputJS fuel
          (compileAcc st engineOutput diagnostics).outputJS
          ⟨StrMap.empty, if diagnostics ≠ 0 then none else some [], []⟩
        = compileEmit st refNames engineOutput diagnostics) ∧
    ((∀ x, ¬ Relation.TransGen
        (edgeR refNames (compileAcc st engineOutput diagnostics).outputJS)
        x x) →
      ∀ (j : Nat) (fj : PushedFile),
        (compile st refNames engineOutput diagnostics).jsFiles[j]? = some fj →
        ∀ g ∈ (compileAcc st engineOutput diagnostics).outputJS,
          getOriginalName g.path ∈ refNames (nameOf fj) →
          nameOf g ∈ ((compile st refNames engineOutput
            diagnostics).jsFiles.take j).map nameOf) := by
  have hjs : (compile st refNames engineOutput diagnostics).jsFiles
      = (compileEmit st refNames engineOutput diagnostics).pushed := rfl
  have hinit : DoneIff (⟨StrMap.empty,
      if diagnostics ≠ 0 then none else some [], []⟩ : EmitSt) [] := by
    intro x
    show StrMap.empty.contains x = true ↔
      (x ∈ ([] : List PushedFile).map nameOf ∨ x ∈ ([] : List Str))
    rw [StrMap.contains_empty]
    simp
  have hnodupinit : (((⟨StrMap.empty,
      if diagnostics ≠ 0 then none else some [], []⟩ :
        EmitSt)).pushed.map nameOf).Nodup := by
    show (([] : List PushedFile).map nameOf).Nodup
    simp
  have hordinit : OrdInvE refNames
      (compileAcc st engineOutput diagnostics).outputJS
      (⟨StrMap.empty, if diagnostics ≠ 0 then none else some [], []⟩ :
        EmitSt) := by
    intro j fj hj
    have hj0 : (([] : List PushedFile))[j]? = some fj := hj
    rw [List.getElem?_nil] at hj0
    exact Option.noConfusion hj0
  have hce := compileEmit_sorted st refNames engineOutput diagnostics hsort
  have hspec := sortedTops_spec st.optionsOut
    (compileAcc st engineOutput diagnostics).smaps refNames
    (compileAcc st engineOutput diagnostics).outputJS
    ((compileAcc st engineOutput diagnostics).outputJS.length + 1)
    (compileAcc st engineOutput diagnostics).outputJS
    (⟨StrMap.empty, if diagnostics ≠ 0 then none else some [], []⟩ : EmitSt)
    (undoneNames_initial _ _) (fun g hg => hg) hinit hnodupinit hordinit
  rw [← hce] at hspec
  obtain ⟨hgrow, hdiffF, hnodupF, hordF, hΔF⟩ := hspec
  refine ⟨?_, ?_, ?_⟩
  · rw [hjs]
    exact hnodupF
  · intro fuel hfl
    rw [hce]
    apply sortedTops_stab
    · exact fun g hg => hg
    · have hin := undoneNames_initial
        (compileAcc st engineOutput diagnostics).outputJS
        (if diagnostics ≠ 0 then none else some [])
      omega
    · exact undoneNames_initial _ _
  · intro hacy j fj hj g hgmem hgref
    rw [hjs] at hj ⊢
    rcases hordF j fj hj g hgmem hgref with hleft | hrtg
    · exact hleft
    · exfalso
      have hedge : edgeR refNames
          (compileAcc st engineOutput diagnostics).outputJS
          (nameOf fj) (nameOf g) := ⟨g, hgmem, hgref, rfl⟩
      rcases Relation.reflTransGen_iff_eq_or_transGen.mp hrtg with heq | htg
      · rw [← heq] at hedge
        exact hacy (nameOf fj) (Relation.TransGen.single hedge)
      · exact hacy (nameOf fj)
          (Relation.TransGen.trans (Relation.TransGen.single hedge) htg)

/-- Cyclic-reference scenario: two units referencing each other. -/
def CE6refs : Str → List Str := fun x =>
  if x = str "a.ts" then [str "b.ts"]
  else if x = str "b.ts" then [str "a.ts"] else []

def CE6st : ProjectState :=
  addFiles (mkProject none false true)
    [⟨str "a.ts", str "ca", [], []⟩, ⟨str "b.ts", str "cb", [], []⟩]

def CE6out : List (Str × Str) :=
  [(str "a.js", str "A\n\n"), (str "b.js", str "B\n\n")]

/-- The concrete run on the cyclic project: `b.js` is pushed first. -/
theorem CE6_run : (compile CE6st CE6refs CE6out 0).jsFiles
    = [⟨str "b.js", str "B\n", [], [], none⟩,
       ⟨str "a.js", str "A\n", [], [], none⟩] := by
  show (compileEmit CE6st CE6refs CE6out 0).pushed = _
  rw [compileEmit_sorted_X CE6st CE6refs CE6out 0 rfl]
  decide

/-- On the cycle `a.ts ↔ b.ts` the sorted emission pushes `b.js` first
even though `b.ts`'s reference list names `a.ts`: the referenced
artifact `a.js` does not precede it, refuting the unconditional
ordering clause of the claim. -/
theorem C6_sorted_emission_order_counterexample :
    CE6st.sortOutput = true ∧
    (compile CE6st CE6refs CE6out 0).jsFiles
      = [⟨str "b.js", str "B\n", [], [], none⟩,
         ⟨str "a.js", str "A\n", [], [], none⟩] ∧
    (⟨str "a.js", str "A\n", [], [], none⟩ : PushedFile)
      ∈ (compileAcc CE6st CE6out 0).outputJS ∧
    getOriginalName (str "a.js")
      ∈ CE6refs (nameOf ⟨str "b.js", str "B\n", [], [], none⟩) ∧
    ¬ (nameOf (⟨str "a.js", str "A\n", [], [], none⟩ : PushedFile)
      ∈ (((compile CE6st CE6refs CE6out 0).jsFiles.take 0).map nameOf)) :=
  ⟨rfl, CE6_run, by decide, by decide, by decide⟩

/-- Acyclic scenario for the witness: `a.ts` references `b.ts` only. -/
def W6refs : Str → List Str := fun x =>
  if x = str "a.ts" then [str "b.ts"] else []

def W6st : ProjectState :=
  addFiles (mkProject none false true)
    [⟨str "a.ts", str "ca", [], []⟩, ⟨str "b.ts", str "cb", [], []⟩]

def W6out : List (Str × Str) :=
  [(str "a.js", str "A\n\n"), (str "b.js", str "B\n\n")]

def W6rank (x : Str) : Nat := if x = str "a.ts" then 0 else 1

theorem W6_edge_rank : ∀ a b : Str,
    edgeR W6refs (compileAcc W6st W6out 0).outputJS a b →
    W6rank a < W6rank b := by
  intro a b h
  obtain ⟨h0, hmem, href, hnm⟩ := h
  have houts : (compileAcc W6st W6out 0).outputJS
      = [⟨str "a.js", str "A\n", [], [], none⟩,
         ⟨str "b.js", str "B\n", [], [], none⟩] := by decide
  rw [houts] at hmem
  by_cases ha : a = str "a.ts"
  · have hrefs : W6refs a = [str "b.ts"] := by
      show (if a = str "a.ts" then [str "b.ts"] else []) = [str "b.ts"]
      rw [if_pos ha]
    rw [hrefs] at href
    rcases List.mem_cons.mp hmem with h1 | h1
    · rw [h1] at href
      exact absurd href (by decide)
    · rcases List.mem_cons.mp h1 with h2 | h2
      · rw [h2] at hnm
        rw [ha, ← hnm]
        decide
      · exact absurd h2 (List.not_mem_nil _)
  · have hrefs : W6refs a = [] := by
      show (if a = str "a.ts" then [str "b.ts"] else []) = []
      rw [if_neg ha]
    rw [hrefs] at href
    exact absurd href (List.not_mem_nil _)

theorem W6_acyclic : ∀ x, ¬ Relation.TransGen
    (edgeR W6refs (compileAcc W6st W6out 0).outputJS) x x := by
  have hrank : ∀ a b, Relation.TransGen
      (edgeR W6refs (compileAcc W6st W6out 0).outputJS) a b →
      W6rank a < W6rank b := by
    intro a b h
    induction h with
    | single h1 => exact W6_edge_rank _ _ h1
    | tail h1 h2 ih => exact Nat.lt_trans ih (W6_edge_rank _ _ h2)
  intro x hx
  exact Nat.lt_irrefl _ (hrank x x hx)

/-- The concrete run on the acyclic project. -/
theorem W6_run : (compile W6st W6refs W6out 0).jsFiles
    = [⟨str "b.js", str "B\n", [], [], none⟩,
       ⟨str "a.js", str "A\n", [], [], none⟩] := by
  show (compileEmit W6st W6refs W6out 0).pushed = _
  rw [compileEmit_sorted_X W6st W6refs W6out 0 rfl]
  decide

/-- Witness for C6 on a concrete acyclic project: the stream is
duplicate-free, extra fuel does not change the traversal, and the
referenced `b.js` precedes the referencing `a.js`. -/
theorem C6_sorted_emission_order_witness :
    ((compile W6st W6refs W6out 0).jsFiles.map nameOf).Nodup ∧
    (sortedTops W6st.optionsOut (compileAcc W6st W6out 0).smaps W6refs
        (compileAcc W6st W6out 0).outputJS
        ((compileAcc W6st W6out 0).outputJS.length + 2)
        (compileAcc W6st W6out 0).outputJS
        ⟨StrMap.empty, if (0 : Nat) ≠ 0 then none else some [], []⟩
      = compileEmit W6st W6refs W6out 0) ∧
    nameOf (⟨str "b.js", str "B\n", [], [], none⟩ : PushedFile)
      ∈ (((compile W6st W6refs W6out 0).jsFiles.take 1).map nameOf) :=
  have h := C6_sorted_emission_order W6st W6refs W6out 0 rfl
  ⟨h.1,
   h.2.1 ((compileAcc W6st W6out 0).outputJS.length + 2) (Nat.le_succ _),
   h.2.2 W6_acyclic 1 ⟨str "a.js", str "A\n", [], [], none⟩
     (by rw [W6_run]; rfl) ⟨str "b.js", str "B\n", [], [], none⟩ (by decide)
     (by decide)⟩

/-! ## Claim C1: replay idempotence -/

theorem getOriginalName_cons (c : Char) (rest : Str) :
    getOriginalName (c :: rest) =
      (if altMatch (c :: rest) then str ".ts" else c :: getOriginalName rest) :=
  rfl

/-- No alternative of the anchored regex can match strictly before the
final `".js"`. -/
theorem altMatch_append_js (A : Str) (hA : A ≠ []) :
    altMatch (A ++ str ".js") = false := by
  have h1 : (A ++ str ".js" == str ".d.ts") = false := by
    rw [beq_eq_false_iff_ne]
    intro he
    have hrev := congrArg List.reverse he
    rw [List.reverse_append,
      show List.reverse (str ".js") = ['s', 'j', '.'] from rfl,
      show List.reverse (str ".d.ts") = ['s', 't', '.', 'd', '.'] from rfl]
      at hrev
    simp at hrev
  have h2 : (A ++ str ".js" == str ".js") = false := by
    rw [beq_eq_false_iff_ne]
    intro he
    have hlen := congrArg List.length he
    rw [List.length_append] at hlen
    have h0 : A.length = 0 := by
      have h3 : (str ".js").length = 3 := rfl
      omega
    exact hA (List.length_eq_zero.mp h0)
  have h3 : (match A ++ str ".js" with
     | '.' :: 'j' :: 's' :: _ :: 'm' :: 'a' :: 'p' :: [] => true
     | _ => false) = false := by
    split
    next x heq =>
      have hrev := congrArg List.reverse heq
      rw [List.reverse_append,
        show List.reverse (str ".js") = ['s', 'j', '.'] from rfl] at hrev
      simp at hrev
    next => rfl
  unfold altMatch
  rw [h1, h2, h3]
  rfl

/-- No alternative of the anchored regex can match strictly before the
final `".d.ts"`. -/
theorem altMatch_append_dts (A : Str) (hA : A ≠ []) :
    altMatch (A ++ str ".d.ts") = false := by
  have h1 : (A ++ str ".d.ts" == str ".d.ts") = false := by
    rw [beq_eq_false_iff_ne]
    intro he
    have hlen := congrArg List.length he
    rw [List.length_append] at hlen
    have h0 : A.length = 0 := by
      have h3 : (str ".d.ts").length = 5 := rfl
      omega
    exact hA (List.length_eq_zero.mp h0)
  have h2 : (A ++ str ".d.ts" == str ".js") = false := by
    rw [beq_eq_false_iff_ne]
    intro he
    have hrev := congrArg List.reverse he
    rw [List.reverse_append,
      show List.reverse (str ".d.ts") = ['s', 't', '.', 'd', '.'] from rfl,
      show List.reverse (str ".js") = ['s', 'j', '.'] from rfl] at hrev
    simp at hrev
  have h3 : (match A ++ str ".d.ts" with
     | '.' :: 'j' :: 's' :: _ :: 'm' :: 'a' :: 'p' :: [] => true
     | _ => false) = false := by
    split
    next x heq =>
      have hrev := congrArg List.reverse heq
      rw [List.reverse_append,
        show List.reverse (str ".d.ts") = ['s', 't', '.', 'd', '.'] from rfl]
        at hrev
      simp at hrev
    next => rfl
  unfold altMatch
  rw [h1, h2, h3]
  rfl

/-- The regex replacement on a name ending in `".js"` always rewrites
exactly that suffix to `".ts"`. -/
theorem getOriginalName_append_js (X : Str) :
    getOriginalName (X ++ str ".js") = X ++ str ".ts" := by
  induction X with
  | nil => decide
  | cons c X' ih =>
      show getOriginalName (c :: (X' ++ str ".js")) = (c :: X') ++ str ".ts"
      rw [getOriginalName_cons,
        show altMatch (c :: (X' ++ str ".js")) = false from
          altMatch_append_js (c :: X') (List.cons_ne_nil c X'),
        if_neg (by simp), ih]
      rfl

/-- The regex replacement on a name ending in `".d.ts"` always rewrites
exactly that suffix to `".ts"`. -/
theorem getOriginalName_append_dts (X : Str) :
    getOriginalName (X ++ str ".d.ts") = X ++ str ".ts" := by
  induction X with
  | nil => decide
  | cons c X' ih =>
      show getOriginalName (c :: (X' ++ str ".d.ts")) = (c :: X') ++ str ".ts"
      rw [getOriginalName_cons,
        show altMatch (c :: (X' ++ str ".d.ts")) = false from
          altMatch_append_dts (c :: X') (List.cons_ne_nil c X'),
        if_neg (by simp), ih]
      rfl

theorem jsLastIndexOfAll_eq (s : Str) (c : Char) :
    jsLastIndexOfAll s c = lastIndexFrom s c s.length := by
  unfold jsLastIndexOfAll jsLastIndexOf
  congr 1
  omega

/-- `fullOriginalName.substring(0, lastDot)` on a name ending in
`".ts"` strips exactly that extension. -/
theorem dropExt_append_ts (Y : Str) : dropExt (Y ++ str ".ts") = Y := by
  have hm : (Y ++ str ".ts").length = Y.length + 3 := by
    rw [List.length_append]
    rfl
  have hidx : jsLastIndexOfAll (Y ++ str ".ts") '.' = (Y.length : Int) := by
    rw [jsLastIndexOfAll_eq]
    apply lastIndexFrom_eq_of_last
    · omega
    · rw [List.get?_append_right (Nat.le_refl _), Nat.sub_self]
      rfl
    · intro j hj1 hj2
      rw [List.get?_append_right (by omega)]
      rw [hm] at hj2
      have h3 : j - Y.length = 1 ∨ j - Y.length = 2 ∨ j - Y.length = 3 := by
        omega
      rcases h3 with h3 | h3 | h3 <;> rw [h3] <;> decide
  simp only [dropExt]
  rw [hidx, if_neg (by omega),
    show ((Y.length : Int)).toNat = Y.length from by omega]
  exact List.take_left Y (str ".ts")

/-- The replay's `substr(0, length - 3)` on a name ending in `".ts"`
strips exactly that extension. -/
theorem substr0_append_ts (Y : Str) :
    substr0 (Y ++ str ".ts") (((Y ++ str ".ts").length : Int) - 3) = Y := by
  have hm : (Y ++ str ".ts").length = Y.length + 3 := by
    rw [List.length_append]
    rfl
  unfold substr0
  rw [show (((Y ++ str ".ts").length : Int) - 3).toNat = Y.length from by
    rw [hm]; omega]
  exact List.take_left Y (str ".ts")

theorem filterMap_id_of_some {α : Type} (fg : α → Option α) :
    ∀ l : List α, (∀ x ∈ l, fg x = some x) → l.filterMap fg = l := by
  intro l
  induction l with
  | nil => intro _; rfl
  | cons a rest ih =>
      intro h
      have h1 := h a (List.mem_cons_self a rest)
      have h2 := ih (fun x hx => h x (List.mem_cons_of_mem a hx))
      simp [List.filterMap_cons, h1, h2]

theorem joinSlash_single (s : Str) : joinSlash [s] = s := rfl

theorem joinSlash_cons2 (s t : Str) (ts : List Str) :
    joinSlash (s :: t :: ts) = s ++ '/' :: joinSlash (t :: ts) := rfl

theorem joinSlash_append_last (l : List Str) (x : Str) :
    joinSlash (l ++ [x])
      = (if l = [] then [] else joinSlash l ++ ['/']) ++ x := by
  induction l with
  | nil =>
      rw [if_pos rfl]
      rfl
  | cons a rest ih =>
      rw [if_neg (List.cons_ne_nil a rest)]
      cases rest with
      | nil =>
          show joinSlash (a :: [x]) = (joinSlash [a] ++ ['/']) ++ x
          rw [joinSlash_cons2 a x [], joinSlash_single, joinSlash_single,
            List.append_assoc]
          rfl
      | cons b rest' =>
          have ih' : joinSlash (b :: (rest' ++ [x]))
              = (if b :: rest' = [] then []
                 else joinSlash (b :: rest') ++ ['/']) ++ x := ih
          show joinSlash (a :: b :: (rest' ++ [x]))
            = (joinSlash (a :: b :: rest') ++ ['/']) ++ x
          rw [joinSlash_cons2 a b (rest' ++ [x]), ih',
            if_neg (List.cons_ne_nil b rest'), joinSlash_cons2 a b rest']
          simp [List.append_assoc]

/-- Splitting after appending a slash-free suffix extends exactly the
final segment. -/
theorem splitSlash_append_no_slash (Y : Str) :
    ∃ (init : List Str) (S : Str), splitSlash Y = init ++ [S] ∧
      ∀ suf : Str, '/' ∉ suf → splitSlash (Y ++ suf) = init ++ [S ++ suf] := by
  induction Y with
  | nil =>
      refine ⟨[], [], rfl, ?_⟩
      intro suf h
      rw [List.nil_append, splitSlash_no_slash_id suf h]
      rfl
  | cons c Y' ih =>
      obtain ⟨init', S', hY', hsuf'⟩ := ih
      by_cases hc : c = '/'
      · subst hc
        refine ⟨[] :: init', S', ?_, ?_⟩
        · rw [splitSlash_slash_cons, hY']
          rfl
        · intro suf h
          show splitSlash ('/' :: (Y' ++ suf)) = ([] :: init') ++ [S' ++ suf]
          rw [splitSlash_slash_cons, hsuf' suf h]
          rfl
      · cases init' with
        | nil =>
            refine ⟨[], c :: S', ?_, ?_⟩
            · rw [splitSlash_cons c Y' S' [] (hY'.trans rfl), if_neg hc]
              rfl
            · intro suf h
              show splitSlash (c :: (Y' ++ suf)) = [] ++ [(c :: S') ++ suf]
              rw [splitSlash_cons c (Y' ++ suf) (S' ++ suf) []
                ((hsuf' suf h).trans rfl), if_neg hc]
              rfl
        | cons a0 rest0 =>
            refine ⟨(c :: a0) :: rest0, S', ?_, ?_⟩
            · rw [splitSlash_cons c Y' a0 (rest0 ++ [S']) (hY'.trans rfl),
                if_neg hc]
              rfl
            · intro suf h
              show splitSlash (c :: (Y' ++ suf))
                = ((c :: a0) :: rest0) ++ [S' ++ suf]
              rw [splitSlash_cons c (Y' ++ suf) a0 (rest0 ++ [S' ++ suf])
                ((hsuf' suf h).trans rfl), if_neg hc]
              rfl

/-- The normalized form of a path with a slash-free suffix of length at
least three is a fixed base followed by that suffix verbatim. -/
theorem normalizePath_suffix (Y : Str) :
    ∃ B : Str, ∀ suf : Str, '/' ∉ suf → 3 ≤ suf.length → lowerStr suf = suf →
      normalizePath (Y ++ suf) = B ++ suf := by
  cases Y with
  | nil =>
      refine ⟨[], ?_⟩
      intro suf hsl hlen hlow
      rw [List.nil_append]
      cases suf with
      | nil => simp at hlen
      | cons d rest =>
          have hd : d ≠ '/' := fun hh => hsl (hh ▸ List.mem_cons_self d rest)
          have hsplit : splitSlash (d :: rest) = [d :: rest] :=
            splitSlash_no_slash_id (d :: rest) hsl
          rw [List.length_cons] at hlen
          have h1 : ¬((d :: rest) = [] ∨ (d :: rest) = ['.']) := by
            rintro (hh | hh)
            · exact List.noConfusion hh
            · have h2 := congrArg List.length hh
              simp only [List.length_cons, List.length_nil] at h2
              omega
          have h2 : (d :: rest) ≠ ['.', '.'] := by
            intro hh
            have h3 := congrArg List.length hh
            simp only [List.length_cons, List.length_nil] at h3
            omega
          show lowerStr (posixNormalize (d :: rest)) = [] ++ (d :: rest)
          rw [posixNormalize_cons, hsplit, normStackR_cons,
            normStep_push _ _ _ h1 h2, normStackR_nil, List.reverse_singleton,
            if_neg (show ¬([d :: rest] = ([] : List Str)) from by simp),
            if_neg hd]
          have hlast : ¬((d :: rest).getLast? = some '/') := by
            rw [List.getLast?_eq_getLast _ (List.cons_ne_nil d rest)]
            intro hh
            have hmem := List.getLast_mem (List.cons_ne_nil d rest)
            rw [Option.some_inj.mp hh] at hmem
            exact hsl hmem
          rw [if_neg hlast, joinSlash_single, List.append_nil,
            List.nil_append]
          exact hlow
  | cons c Y0 =>
      obtain ⟨init, S, hYsplit, hsufsplit⟩ := splitSlash_append_no_slash
        (c :: Y0)
      refine ⟨lowerStr ((if c = '/' then ['/'] else []) ++
        ((if (normStackR (!decide (c = '/')) [] init).reverse = [] then []
          else joinSlash (normStackR (!decide (c = '/')) [] init).reverse
            ++ ['/']) ++ S)), ?_⟩
      intro suf hsl hlen hlow
      have hne : suf ≠ [] := by
        intro hh
        rw [hh] at hlen
        simp at hlen
      have hle : suf.getLast? = some (suf.getLast hne) :=
        List.getLast?_eq_getLast _ hne
      have hene : suf.getLast hne ≠ '/' := by
        intro hh
        exact hsl (hh ▸ List.getLast_mem hne)
      show lowerStr (posixNormalize (c :: (Y0 ++ suf))) = _
      rw [posixNormalize_cons,
        show splitSlash (c :: (Y0 ++ suf)) = init ++ [S ++ suf] from
          hsufsplit suf hsl]
      have hSne : ¬(S ++ suf = [] ∨ S ++ suf = ['.']) := by
        rintro (hh | hh) <;>
        · have h2 := congrArg List.length hh
          rw [List.length_append] at h2
          simp only [List.length_cons, List.length_nil] at h2
          omega
      have hSne2 : S ++ suf ≠ ['.', '.'] := by
        intro hh
        have h2 := congrArg List.length hh
        rw [List.length_append] at h2
        simp only [List.length_cons, List.length_nil] at h2
        omega
      rw [normStackR_append, normStackR_cons, normStep_push _ _ _ hSne hSne2,
        normStackR_nil, List.reverse_cons]
      rw [if_neg (show ¬((normStackR (!decide (c = '/')) [] init).reverse
          ++ [S ++ suf] = []) from by simp)]
      have hlastall : (c :: (Y0 ++ suf)).getLast? = some (suf.getLast hne) := by
        rw [show (c :: (Y0 ++ suf)) = (c :: Y0) ++ suf from rfl,
          List.getLast?_append, hle]
        rfl
      rw [if_neg (show ¬((c :: (Y0 ++ suf)).getLast? = some '/') from by
        rw [hlastall]
        exact fun hh => hene (Option.some_inj.mp hh))]
      rw [joinSlash_append_last, List.append_nil]
      simp only [lowerStr_append, hlow, List.append_assoc]

/-! ## Replay provenance (claim C1) -/

theorem addFile_optionsOut (st : ProjectState) (f : GulpFile) :
    (addFile st f).optionsOut = st.optionsOut := rfl

theorem addFiles_optionsOut (st : ProjectState) (inputs : List GulpFile) :
    (addFiles st inputs).optionsOut = st.optionsOut := by
  induction inputs generalizing st with
  | nil => rfl
  | cons f rest ih => rw [addFiles_cons, ih]; rfl

theorem reset_optionsOut (st : ProjectState) :
    (reset st).optionsOut = st.optionsOut := rfl

theorem reset_previousFiles (st : ProjectState) :
    (reset st).previousFiles = st.currentFiles := rfl

theorem reset_currentFiles (st : ProjectState) :
    (reset st).currentFiles = StrMap.empty := rfl

theorem reset_isFileChanged (st : ProjectState) :
    (reset st).isFileChanged = false := rfl

theorem reset_previousOutputJS (st : ProjectState) :
    (reset st).previousOutputJS = st.previousOutputJS := rfl

theorem reset_previousOutputDts (st : ProjectState) :
    (reset st).previousOutputDts = st.previousOutputDts := rfl

theorem compile_state_previousOutputJS (st : ProjectState)
    (rn : Str → List Str) (eo : List (Str × Str)) (d : Nat) :
    (compile st rn eo d).state.previousOutputJS
      = (compileEmit st rn eo d).cacheJS := rfl

theorem compile_state_previousOutputDts (st : ProjectState)
    (rn : Str → List Str) (eo : List (Str × Str)) (d : Nat) :
    (compile st rn eo d).state.previousOutputDts
      = (compileAcc st eo d).dtsCache := rfl

theorem compile_jsFiles_eq (st : ProjectState) (rn : Str → List Str)
    (eo : List (Str × Str)) (d : Nat) :
    (compile st rn eo d).jsFiles = (compileEmit st rn eo d).pushed := rfl

theorem compile_dtsFiles_eq (st : ProjectState) (rn : Str → List Str)
    (eo : List (Str × Str)) (d : Nat) :
    (compile st rn eo d).dtsFiles = (compileAcc st eo d).dtsPushed := rfl

/-- In per-file mode the recovered pair is the current-generation unit
found under the recovered original name, together with its own original
filename. -/
theorem classifyFound_none_mode (st : ProjectState) (n : Str)
    (hout : st.optionsOut = none) (pr : FileData × Str)
    (h : classifyFound st n = some pr) :
    st.currentFiles.find? n = some pr.1 ∧ pr.2 = pr.1.originalFilename := by
  unfold classifyFound at h
  rw [hout] at h
  cases hf : st.currentFiles.find? n with
  | none => rw [hf] at h; exact Option.noConfusion h
  | some orig =>
      rw [hf] at h
      injection h with h2
      rw [← h2]
      exact ⟨rfl, rfl⟩

/-- Provenance of a collected JavaScript artifact in per-file mode: its
target path, cwd and base derive from some current-generation unit. -/
def ProvJS (st : ProjectState) (g : PushedFile) : Prop :=
  ∃ (orig : FileData) (k : Str),
    st.currentFiles.find? k = some orig ∧
    g.path = dropExt orig.originalFilename ++ str ".js" ∧
    g.cwd = cwdOf orig ∧ g.base = baseOf orig

/-- Provenance of a pushed declaration artifact in per-file mode. -/
def ProvDts (st : ProjectState) (g : PushedFile) : Prop :=
  ∃ (orig : FileData) (k : Str),
    st.currentFiles.find? k = some orig ∧
    g.path = dropExt orig.originalFilename ++ str ".d.ts" ∧
    g.cwd = cwdOf orig ∧ g.base = baseOf orig ∧ g.sourceMap = none

theorem classifyOne_provJS (st : ProjectState) (acc : ClassAcc)
    (art : Str × Str) (hout : st.optionsOut = none)
    (h : ∀ g ∈ acc.outputJS, ProvJS st g) :
    ∀ g ∈ (classifyOne st acc art).outputJS, ProvJS st g := by
  apply classifyOne_cases st acc art (fun a => ∀ g ∈ a.outputJS, ProvJS st g)
  · exact h
  · intro pr hf _ g hg
    rcases List.mem_append.mp hg with h1 | h2
    · exact h g h1
    · rcases List.mem_singleton.mp h2 with rfl
      obtain ⟨hfind, hsnd⟩ := classifyFound_none_mode st _ hout pr hf
      refine ⟨pr.1, _, hfind, ?_, rfl, rfl⟩
      show dropExt pr.2 ++ str ".js" = dropExt pr.1.originalFilename ++ str ".js"
      rw [hsnd]
  · intro pr _ _ g hg
    exact h g hg
  · intro k g hg
    exact h g hg

theorem classifyOne_provDts (st : ProjectState) (acc : ClassAcc)
    (art : Str × Str) (hout : st.optionsOut = none)
    (h : ∀ g ∈ acc.dtsPushed, ProvDts st g) :
    ∀ g ∈ (classifyOne st acc art).dtsPushed, ProvDts st g := by
  apply classifyOne_cases st acc art (fun a => ∀ g ∈ a.dtsPushed, ProvDts st g)
  · exact h
  · intro pr _ _ g hg
    exact h g hg
  · intro pr hf _ g hg
    rcases List.mem_append.mp hg with h1 | h2
    · exact h g h1
    · rcases List.mem_singleton.mp h2 with rfl
      obtain ⟨hfind, hsnd⟩ := classifyFound_none_mode st _ hout pr hf
      refine ⟨pr.1, _, hfind, ?_, rfl, rfl, rfl⟩
      show dropExt pr.2 ++ str ".d.ts" = dropExt pr.1.originalFilename ++ str ".d.ts"
      rw [hsnd]
  · intro k g hg
    exact h g hg

theorem classify_provJS (st : ProjectState) (hout : st.optionsOut = none) :
    ∀ (l : List (Str × Str)) (acc : ClassAcc),
      (∀ g ∈ acc.outputJS, ProvJS st g) →
      ∀ g ∈ (l.foldl (classifyOne st) acc).outputJS, ProvJS st g := by
  intro l
  induction l with
  | nil => intro acc h; exact h
  | cons a rest ih =>
      intro acc h
      exact ih (classifyOne st acc a) (classifyOne_provJS st acc a hout h)

theorem classify_provDts (st : ProjectState) (hout : st.optionsOut = none) :
    ∀ (l : List (Str × Str)) (acc : ClassAcc),
      (∀ g ∈ acc.dtsPushed, ProvDts st g) →
      ∀ g ∈ (l.foldl (classifyOne st) acc).dtsPushed, ProvDts st g := by
  intro l
  induction l with
  | nil => intro acc h; exact h
  | cons a rest ih =>
      intro acc h
      exact ih (classifyOne st acc a) (classifyOne_provDts st acc a hout h)

theorem compileAcc_outputJS_prov (st : ProjectState) (eo : List (Str × Str))
    (d : Nat) (hout : st.optionsOut = none) :
    ∀ g ∈ (compileAcc st eo d).outputJS, ProvJS st g := by
  unfold compileAcc
  apply classify_provJS st hout
  intro g hg
  exact absurd hg (List.not_mem_nil g)

theorem compileAcc_dtsPushed_prov (st : ProjectState) (eo : List (Str × Str))
    (d : Nat) (hout : st.optionsOut = none) :
    ∀ g ∈ (compileAcc st eo d).dtsPushed, ProvDts st g := by
  unfold compileAcc
  apply classify_provDts st hout
  intro g hg
  exact absurd hg (List.not_mem_nil g)

/-- Provenance lifts from the collected artifacts to the emitted
stream: emission only reorders, deduplicates and re-flags the
source-map presence bit, which `ProvJS` ignores. -/
theorem compileEmit_pushed_prov (st : ProjectState) (rn : Str → List Str)
    (eo : List (Str × Str)) (d : Nat) (hout : st.optionsOut = none) :
    ∀ f ∈ (compileEmit st rn eo d).pushed, ProvJS st f := by
  have houtJS := compileAcc_outputJS_prov st eo d hout
  have hR : ∀ g, g ∈ (compileAcc st eo d).outputJS → ∀ (b : Option Unit)
      (c : Option (List OutputFile)) (p : List PushedFile),
      (fun _ p => ∀ f ∈ p, ProvJS st f) c p →
      (fun _ p => ∀ f ∈ p, ProvJS st f)
        (c.map (fun l => l ++ [⟨g.path, g.contents, b⟩]))
        (p ++ [{ g with sourceMap := b }]) := by
    intro g hg b c p h f hf
    rcases List.mem_append.mp hf with h1 | h2
    · exact h f h1
    · rcases List.mem_singleton.mp h2 with rfl
      obtain ⟨orig, k, hfind, hpath, hcwd, hbase⟩ := houtJS g hg
      exact ⟨orig, k, hfind, hpath, hcwd, hbase⟩
  have h0 : ∀ f ∈ (⟨StrMap.empty, if d ≠ 0 then none else some [], []⟩ : EmitSt).pushed,
      ProvJS st f := fun f hf => absurd hf (List.not_mem_nil f)
  unfold compileEmit
  by_cases hs : st.sortOutput = true
  · rw [if_pos hs]
    exact emitPres_tops st.optionsOut (compileAcc st eo d).smaps rn
      (compileAcc st eo d).outputJS _ hR
      ((compileAcc st eo d).outputJS.length + 1)
      (compileAcc st eo d).outputJS _ (fun x hx => hx) h0
  · rw [if_neg hs]
    exact emitPres_plain st.optionsOut (compileAcc st eo d).smaps
      (compileAcc st eo d).outputJS _ hR
      (compileAcc st eo d).outputJS _ (fun x hx => hx) h0

/-- Inversion of `addFiles`: every stored unit either predates the
ingestion or carries the path, gulp file and content of some input. -/
theorem addFiles_find_inv (inputs : List GulpFile) :
    ∀ (st : ProjectState) (k : Str) (fd : FileData),
      (addFiles st inputs).currentFiles.find? k = some fd →
      st.currentFiles.find? k = some fd ∨
      ∃ f ∈ inputs, normalizePath f.path = k ∧
        fd.originalFilename = f.path ∧ fd.file = some f ∧
        fd.content = f.contents := by
  induction inputs with
  | nil => intro st k fd h; exact Or.inl h
  | cons f rest ih =>
      intro st k fd h
      rw [addFiles_cons] at h
      rcases ih (addFile st f) k fd h with h1 | h2
      · obtain ⟨fd', hins, hc, ho, hfile⟩ := addFile_currentFiles_spec st f
        rw [hins] at h1
        by_cases hk : k = normalizePath f.path
        · subst hk
          rw [StrMap.find?_insert_self] at h1
          injection h1 with h1'
          subst h1'
          exact Or.inr ⟨f, List.mem_cons_self f rest, rfl, ho, hfile, hc⟩
        · rw [StrMap.find?_insert_ne _ _ _ _ hk] at h1
          exact Or.inl h1
      · obtain ⟨g, hg, hrest⟩ := h2
        exact Or.inr ⟨g, List.mem_cons_of_mem f hg, hrest⟩

/-- The positive branch of `lazyCompile`. -/
theorem lazyCompile_pos (st : ProjectState) (h : lazyCompileCond st = true) :
    lazyCompile st =
      { ok := true
        jsFiles := (st.previousOutputJS.getD []).filterMap (lazyReplayJS st)
        dtsFiles := (st.previousOutputDts.getD []).filterMap (lazyReplayDts st) } := by
  unfold lazyCompile
  rw [if_pos h]

theorem lazyReplayJS_found (st : ProjectState) (file : OutputFile)
    (orig : FileData)
    (h : st.currentFiles.find?
        (getOriginalName (normalizePath file.filename)) = some orig) :
    lazyReplayJS st file = some
      { path := substr0 orig.originalFilename
          ((orig.originalFilename.length : Int) - 3) ++ str ".js"
        contents := file.content
        cwd := (orig.file.map (fun x => x.cwd)).getD []
        base := (orig.file.map (fun x => x.base)).getD []
        sourceMap := file.sourcemap } := by
  simp only [lazyReplayJS]
  rw [h]

theorem lazyReplayDts_found (st : ProjectState) (file : OutputFile)
    (orig : FileData)
    (h : st.currentFiles.find?
        (getOriginalName (normalizePath file.filename)) = some orig) :
    lazyReplayDts st file = some
      { path := substr0 orig.originalFilename
          ((orig.originalFilename.length : Int) - 3) ++ str ".d.ts"
        contents := file.content
        cwd := (orig.file.map (fun x => x.cwd)).getD []
        base := (orig.file.map (fun x => x.base)).getD []
        sourceMap := none } := by
  simp only [lazyReplayDts]
  rw [h]

/-- Replay eligibility after re-ingesting a byte-identical,
pairwise-distinct input set over an empty current generation backed by
full caches. -/
theorem lazyCond_of (st2 : ProjectState) (inputs : List GulpFile)
    (hprev : ∀ f ∈ inputs, ∃ old : FileData,
      st2.previousFiles.find? (normalizePath f.path) = some old ∧
      old.content = f.contents)
    (hchanged : st2.isFileChanged = false)
    (hcur : st2.currentFiles = StrMap.empty)
    (hsize : st2.previousFiles.size = inputs.length)
    (hjs : st2.previousOutputJS.isSome = true)
    (hdts : st2.previousOutputDts.isSome = true)
    (hdist : (inputs.map (fun f => normalizePath f.path)).Nodup) :
    lazyCompileCond (addFiles st2 inputs) = true := by
  have hcont : ∀ f ∈ inputs,
      st2.currentFiles.contains (normalizePath f.path) = false := by
    intro f hf
    rw [hcur]
    exact StrMap.contains_empty _
  unfold lazyCompileCond
  rw [addFiles_isFileChanged_of_same inputs st2 hprev, hchanged,
    addFiles_size inputs st2 hcont hdist, hcur, addFiles_previousFiles, hsize,
    addFiles_previousOutputJS, hjs, addFiles_previousOutputDts, hdts]
  show (!false) && ((0 + inputs.length) == inputs.length) && true && true = true
  simp

/-- Per-file replay of a cached JavaScript record: under `.ts` input
paths with distinct normalized identities, the replayed record maps
back to the originating unit and reproduces the pushed file exactly. -/
theorem replayJS_of_prov (st1 st3 : ProjectState) (inputs : List GulpFile)
    (hts : ∀ f ∈ inputs, ∃ Y : Str, f.path = Y ++ str ".ts")
    (hinv : ∀ (k : Str) (fd : FileData),
      st1.currentFiles.find? k = some fd →
      ∃ f ∈ inputs, fd.originalFilename = f.path ∧ fd.file = some f)
    (hfind3 : ∀ f ∈ inputs, ∃ fd : FileData,
      st3.currentFiles.find? (normalizePath f.path) = some fd ∧
      fd.originalFilename = f.path ∧ fd.file = some f)
    (g : PushedFile) (hprov : ProvJS st1 g) :
    lazyReplayJS st3 ⟨g.path, g.contents, g.sourceMap⟩ = some g := by
  obtain ⟨orig, k, hfindk, hpath, hcwd, hbase⟩ := hprov
  obtain ⟨fj, hfj, horig, hfileo⟩ := hinv k orig hfindk
  obtain ⟨Y, hY⟩ := hts fj hfj
  have hgpath : g.path = Y ++ str ".js" := by
    rw [hpath, horig, hY, dropExt_append_ts]
  obtain ⟨B, hB⟩ := normalizePath_suffix Y
  have hkey : getOriginalName (normalizePath g.path) = normalizePath fj.path := by
    rw [hgpath, hB (str ".js") (by decide) (by decide) (by decide),
      getOriginalName_append_js, hY,
      hB (str ".ts") (by decide) (by decide) (by decide)]
  obtain ⟨fd3, hfd3, ho3, hfile3⟩ := hfind3 fj hfj
  have hfindkey : st3.currentFiles.find? (getOriginalName (normalizePath
      (⟨g.path, g.contents, g.sourceMap⟩ : OutputFile).filename)) = some fd3 := by
    show st3.currentFiles.find? (getOriginalName (normalizePath g.path)) = some fd3
    rw [hkey]
    exact hfd3
  rw [lazyReplayJS_found st3 ⟨g.path, g.contents, g.sourceMap⟩ fd3 hfindkey]
  have hsub : substr0 fd3.originalFilename
      ((fd3.originalFilename.length : Int) - 3) = Y := by
    rw [ho3, hY]
    exact substr0_append_ts Y
  have hcwd3 : (fd3.file.map (fun x => x.cwd)).getD [] = g.cwd := by
    rw [hfile3, hcwd]
    unfold cwdOf
    rw [hfileo]
  have hbase3 : (fd3.file.map (fun x => x.base)).getD [] = g.base := by
    rw [hfile3, hbase]
    unfold baseOf
    rw [hfileo]
  rw [hsub, ← hgpath, hcwd3, hbase3]

/-- Per-file replay of a cached declaration record. -/
theorem replayDts_of_prov (st1 st3 : ProjectState) (inputs : List GulpFile)
    (hts : ∀ f ∈ inputs, ∃ Y : Str, f.path = Y ++ str ".ts")
    (hinv : ∀ (k : Str) (fd : FileData),
      st1.currentFiles.find? k = some fd →
      ∃ f ∈ inputs, fd.originalFilename = f.path ∧ fd.file = some f)
    (hfind3 : ∀ f ∈ inputs, ∃ fd : FileData,
      st3.currentFiles.find? (normalizePath f.path) = some fd ∧
      fd.originalFilename = f.path ∧ fd.file = some f)
    (g : PushedFile) (hprov : ProvDts st1 g) :
    lazyReplayDts st3 ⟨g.path, g.contents, none⟩ = some g := by
  obtain ⟨orig, k, hfindk, hpath, hcwd, hbase, hsm⟩ := hprov
  obtain ⟨fj, hfj, horig, hfileo⟩ := hinv k orig hfindk
  obtain ⟨Y, hY⟩ := hts fj hfj
  have hgpath : g.path = Y ++ str ".d.ts" := by
    rw [hpath, horig, hY, dropExt_append_ts]
  obtain ⟨B, hB⟩ := normalizePath_suffix Y
  have hkey : getOriginalName (normalizePath g.path) = normalizePath fj.path := by
    rw [hgpath, hB (str ".d.ts") (by decide) (by decide) (by decide),
      getOriginalName_append_dts, hY,
      hB (str ".ts") (by decide) (by decide) (by decide)]
  obtain ⟨fd3, hfd3, ho3, hfile3⟩ := hfind3 fj hfj
  have hfindkey : st3.currentFiles.find? (getOriginalName (normalizePath
      (⟨g.path, g.contents, none⟩ : OutputFile).filename)) = some fd3 := by
    show st3.currentFiles.find? (getOriginalName (normalizePath g.path)) = some fd3
    rw [hkey]
    exact hfd3
  rw [lazyReplayDts_found st3 ⟨g.path, g.contents, none⟩ fd3 hfindkey]
  have hsub : substr0 fd3.originalFilename
      ((fd3.originalFilename.length : Int) - 3) = Y := by
    rw [ho3, hY]
    exact substr0_append_ts Y
  have hcwd3 : (fd3.file.map (fun x => x.cwd)).getD [] = g.cwd := by
    rw [hfile3, hcwd]
    unfold cwdOf
    rw [hfileo]
  have hbase3 : (fd3.file.map (fun x => x.base)).getD [] = g.base := by
    rw [hfile3, hbase]
    unfold baseOf
    rw [hfileo]
  rw [hsub, ← hgpath, hcwd3, hbase3, ← hsm]

/-- C1.  Replay idempotence: a zero-diagnostic generation in per-file
mode over `.ts` inputs with pairwise-distinct normalized paths caches
its outputs, and the following generation that re-ingests the same
byte-identical file set makes `lazyCompile` return `true` and push,
without consulting the engine, JavaScript and declaration files equal
(paths, bytes, cwd, base and source-map flag) to those the first build
pushed. -/
theorem C1_replay_idempotence (st0 : ProjectState) (inputs : List GulpFile)
    (rn : Str → List Str) (eo : List (Str × Str))
    (hout : st0.optionsOut = none)
    (hts : ∀ f ∈ inputs, ∃ Y : Str, f.path = Y ++ str ".ts")
    (hdist : (inputs.map (fun f => normalizePath f.path)).Nodup) :
    (lazyCompile (addFiles (reset (compile (addFiles (reset st0) inputs)
        rn eo 0).state) inputs)).ok = true ∧
    (lazyCompile (addFiles (reset (compile (addFiles (reset st0) inputs)
        rn eo 0).state) inputs)).jsFiles
      = (compile (addFiles (reset st0) inputs) rn eo 0).jsFiles ∧
    (lazyCompile (addFiles (reset (compile (addFiles (reset st0) inputs)
        rn eo 0).state) inputs)).dtsFiles
      = (compile (addFiles (reset st0) inputs) rn eo 0).dtsFiles := by
  have hout1 : (addFiles (reset st0) inputs).optionsOut = none := by
    rw [addFiles_optionsOut, reset_optionsOut]
    exact hout
  have hmem1 := addFiles_find_mem inputs (reset st0) hdist
  have hprev : ∀ f ∈ inputs, ∃ old : FileData,
      (reset (compile (addFiles (reset st0) inputs) rn eo 0).state).previousFiles.find?
        (normalizePath f.path) = some old ∧ old.content = f.contents := by
    intro f hf
    obtain ⟨fd, hfind, hc, -, -⟩ := hmem1 f hf
    refine ⟨fd, ?_, hc⟩
    rw [reset_previousFiles, compile_state_currentFiles]
    exact hfind
  have hcont1 : ∀ f ∈ inputs,
      (reset st0).currentFiles.contains (normalizePath f.path) = false := by
    intro f hf
    rw [reset_currentFiles]
    exact StrMap.contains_empty _
  have hsize : (reset (compile (addFiles (reset st0) inputs) rn eo
      0).state).previousFiles.size = inputs.length := by
    rw [reset_previousFiles, compile_state_currentFiles,
      addFiles_size inputs (reset st0) hcont1 hdist, reset_currentFiles]
    exact Nat.zero_add _
  have hjs3 : (reset (compile (addFiles (reset st0) inputs) rn eo
      0).state).previousOutputJS
      = some ((compile (addFiles (reset st0) inputs) rn eo 0).jsFiles.map
        (fun f => ⟨f.path, f.contents, f.sourceMap⟩)) := by
    rw [reset_previousOutputJS, compile_state_previousOutputJS,
      compile_jsFiles_eq]
    exact compileEmit_cacheJS_some (addFiles (reset st0) inputs) rn eo 0 rfl
  have hdts3 : (reset (compile (addFiles (reset st0) inputs) rn eo
      0).state).previousOutputDts
      = some ((compile (addFiles (reset st0) inputs) rn eo 0).dtsFiles.map
        (fun f => ⟨f.path, f.contents, none⟩)) := by
    rw [reset_previousOutputDts, compile_state_previousOutputDts,
      compile_dtsFiles_eq]
    exact compileAcc_dtsCache_some (addFiles (reset st0) inputs) eo 0 rfl
  have hcond := lazyCond_of
    (reset (compile (addFiles (reset st0) inputs) rn eo 0).state) inputs hprev
    (reset_isFileChanged _) (reset_currentFiles _) hsize
    (by rw [hjs3]; rfl) (by rw [hdts3]; rfl) hdist
  have hinv : ∀ (k : Str) (fd : FileData),
      (addFiles (reset st0) inputs).currentFiles.find? k = some fd →
      ∃ f ∈ inputs, fd.originalFilename = f.path ∧ fd.file = some f := by
    intro k fd h
    rcases addFiles_find_inv inputs (reset st0) k fd h with h1 | h2
    · rw [reset_currentFiles, StrMap.find?_empty] at h1
      exact Option.noConfusion h1
    · obtain ⟨f, hf, -, ho, hfile, -⟩ := h2
      exact ⟨f, hf, ho, hfile⟩
  have hfind3 : ∀ f ∈ inputs, ∃ fd : FileData,
      (addFiles (reset (compile (addFiles (reset st0) inputs) rn eo 0).state)
        inputs).currentFiles.find? (normalizePath f.path) = some fd ∧
      fd.originalFilename = f.path ∧ fd.file = some f := by
    intro f hf
    obtain ⟨fd, hfind, -, ho, hfile⟩ := addFiles_find_mem inputs
      (reset (compile (addFiles (reset st0) inputs) rn eo 0).state) hdist f hf
    exact ⟨fd, hfind, ho, hfile⟩
  rw [lazyCompile_pos _ hcond]
  refine ⟨rfl, ?_, ?_⟩
  · show ((addFiles (reset (compile (addFiles (reset st0) inputs) rn eo
        0).state) inputs).previousOutputJS.getD []).filterMap
        (lazyReplayJS (addFiles (reset (compile (addFiles (reset st0) inputs)
          rn eo 0).state) inputs))
      = (compile (addFiles (reset st0) inputs) rn eo 0).jsFiles
    rw [addFiles_previousOutputJS, hjs3, Option.getD_some, List.filterMap_map]
    apply filterMap_id_of_some
    intro g hg
    rw [compile_jsFiles_eq] at hg
    exact replayJS_of_prov (addFiles (reset st0) inputs) _ inputs hts hinv
      hfind3 g (compileEmit_pushed_prov (addFiles (reset st0) inputs) rn eo 0
        hout1 g hg)
  · show ((addFiles (reset (compile (addFiles (reset st0) inputs) rn eo
        0).state) inputs).previousOutputDts.getD []).filterMap
        (lazyReplayDts (addFiles (reset (compile (addFiles (reset st0) inputs)
          rn eo 0).state) inputs))
      = (compile (addFiles (reset st0) inputs) rn eo 0).dtsFiles
    rw [addFiles_previousOutputDts, hdts3, Option.getD_some, List.filterMap_map]
    apply filterMap_id_of_some
    intro g hg
    rw [compile_dtsFiles_eq] at hg
    exact replayDts_of_prov (addFiles (reset st0) inputs) _ inputs hts hinv
      hfind3 g (compileAcc_dtsPushed_prov (addFiles (reset st0) inputs) eo 0
        hout1 g hg)

/-- Inputs, engine output and reference oracle of the replay witness. -/
def W1in : List GulpFile := [⟨str "a.ts", str "c", [], []⟩]

def W1eo : List (Str × Str) := [(str "a.js", str "x\n\n")]

def W1rn : Str → List Str := fun _ => []

theorem C1_replay_idempotence_witness :
    ((mkProject none false false).optionsOut = none ∧
     (∀ f ∈ W1in, ∃ Y : Str, f.path = Y ++ str ".ts") ∧
     (W1in.map (fun f => normalizePath f.path)).Nodup) ∧
    (lazyCompile (addFiles (reset (compile (addFiles (reset (mkProject none
        false false)) W1in) W1rn W1eo 0).state) W1in)).ok = true ∧
    (lazyCompile (addFiles (reset (compile (addFiles (reset (mkProject none
        false false)) W1in) W1rn W1eo 0).state) W1in)).jsFiles
      = (compile (addFiles (reset (mkProject none false false)) W1in) W1rn
          W1eo 0).jsFiles := by
  have hts : ∀ f ∈ W1in, ∃ Y : Str, f.path = Y ++ str ".ts" := by
    intro f hf
    simp only [W1in, List.mem_singleton] at hf
    subst hf
    exact ⟨str "a", by decide⟩
  have hmain := C1_replay_idempotence (mkProject none false false) W1in W1rn
    W1eo rfl hts (by decide)
  exact ⟨⟨rfl, hts, by decide⟩, hmain.1, hmain.2.1⟩

/-- First input of the counterexample: a pathological path whose
normalization is not injective on the artifact's recovered name. -/
def CE1f1 : GulpFile := ⟨str "a//x.ts/.", str "c1", [], []⟩

/-- Second input: its normalized path collides with the normalization
of the first build's artifact name after the `.js`-to-`.ts` rewrite. -/
def CE1f2 : GulpFile := ⟨str "a/x.ts/.ts", str "c2", [], []⟩

def CE1out : List (Str × Str) := [(str "a/x.js", str "D\n\n")]

def CE1rn : Str → List Str := fun _ => []

def CE1CR : CompileResult :=
  compile (addFiles (reset (mkProject none false false)) [CE1f1, CE1f2])
    CE1rn CE1out 0

def CE1LZ : LazyOut := lazyCompile (addFiles (reset CE1CR.state) [CE1f1, CE1f2])

/-- C1 counterexample: an error-free build over a byte-identically
re-ingested file set replays (the second generation returns `true` and
pushes the cached bytes), but the replayed artifact's target path
differs from the first build's: the replay recovers the other unit, so
the claim's path clause fails. -/
theorem C1_replay_idempotence_counterexample :
    CE1CR.errorCount = 0 ∧ CE1LZ.ok = true ∧
    CE1CR.jsFiles.map (fun f => f.path) = [str "a//x.ts/.js"] ∧
    CE1LZ.jsFiles.map (fun f => f.path) = [str "a/x.ts/.js"] ∧
    CE1LZ.jsFiles.map (fun f => f.contents)
      = CE1CR.jsFiles.map (fun f => f.contents) ∧
    CE1LZ.jsFiles ≠ CE1CR.jsFiles := by
  decide

end GulpTS
